import Mathlib

/-!
# flist: a circular doubly-linked list of numbers with running aggregates

A shallow embedding of `flist.c`.

* A node pointer is an `Option Nat`: `none` is `NULL`, `some a` is the address `a`.
* The heap maps every address to a node; `brk` is the next address handed out by
  `fl_make_node` (the model of `malloc`, which always succeeds).  `free` is a no-op of the
  model: addresses are never reused and a freed node keeps its contents.
* `double` is modelled by `ℚ` (exact arithmetic), `int` by `Int` (no overflow).
  The field `std_dev` (a floating point square root) is left out.
* Every function returns an `Option`: `none` stands for a run that yields no result, that
  is, a `NULL` dereference, `exit(1)`, or a loop that did not finish within its fuel.
  The `flist` pointer itself is never `NULL` in the model, except for `fl_equals`,
  `fl_copy` and `fl_combine`, which take and return an `Option flist_type` with `none`
  for `NULL`.
-/

namespace Flist

/-- The struct `fl_node`: a number and the two links. -/
structure fl_node where
  num : ℚ
  prev : Option Nat
  next : Option Nat

/-- The struct `flist_type`, without `std_dev`. -/
structure flist_type where
  head : Option Nat
  tail : Option Nat
  mean : ℚ
  variance : ℚ
  sumsq : ℚ
  sum : ℚ
  len : Int

/-- The node store. -/
structure Heap where
  cell : Nat → fl_node
  brk : Nat

namespace Heap

/-- Store `v` in the `num` field of the node at address `a`. -/
def st_num (H : Heap) (a : Nat) (v : ℚ) : Heap :=
  { H with cell := Function.update H.cell a { H.cell a with num := v } }

/-- Store `v` in the `next` field of the node at address `a`. -/
def st_next (H : Heap) (a : Nat) (v : Option Nat) : Heap :=
  { H with cell := Function.update H.cell a { H.cell a with next := v } }

/-- Store `v` in the `prev` field of the node at address `a`. -/
def st_prev (H : Heap) (a : Nat) (v : Option Nat) : Heap :=
  { H with cell := Function.update H.cell a { H.cell a with prev := v } }

/-- The field `num` of the node at address `a`. -/
def nm (H : Heap) (a : Nat) : ℚ := (H.cell a).num

/-- The field `next` of the node at address `a`. -/
def nx (H : Heap) (a : Nat) : Option Nat := (H.cell a).next

/-- The field `prev` of the node at address `a`. -/
def pv (H : Heap) (a : Nat) : Option Nat := (H.cell a).prev

/-- The read `p->num`; fails on `NULL`. -/
def rd_num (H : Heap) (p : Option Nat) : Option ℚ := p.map H.nm

/-- The read `p->next`; fails on `NULL`. -/
def rd_next (H : Heap) (p : Option Nat) : Option (Option Nat) := p.map H.nx

/-- The read `p->prev`; fails on `NULL`. -/
def rd_prev (H : Heap) (p : Option Nat) : Option (Option Nat) := p.map H.pv

/-- The write `p->num = v`; fails on `NULL`. -/
def wr_num (H : Heap) (p : Option Nat) (v : ℚ) : Option Heap := p.map fun a => H.st_num a v

/-- The write `p->next = v`; fails on `NULL`. -/
def wr_next (H : Heap) (p : Option Nat) (v : Option Nat) : Option Heap :=
  p.map fun a => H.st_next a v

/-- The write `p->prev = v`; fails on `NULL`. -/
def wr_prev (H : Heap) (p : Option Nat) (v : Option Nat) : Option Heap :=
  p.map fun a => H.st_prev a v

end Heap

/-- The constant `FL_EPSILON`, `1e-9`. -/
def FL_EPSILON : ℚ := 1 / 10 ^ 9

/-- The comparator `fl_near`: absolute tolerance near zero, relative tolerance otherwise. -/
def fl_near (a b : ℚ) : Bool :=
  let diff := |a - b|
  let a := |a|
  let b := |b|
  let d := if a > b then a else b
  let rel_cmp := d * FL_EPSILON
  if FL_EPSILON > rel_cmp then decide (diff ≤ FL_EPSILON) else decide (diff ≤ rel_cmp)

/-- The heap after `malloc` hands out the address `brk` and the node there is initialised
with the number `n` and two `NULL` links. -/
def Heap.alloc (H : Heap) (n : ℚ) : Heap :=
  { cell := Function.update H.cell H.brk ⟨n, none, none⟩, brk := H.brk + 1 }

/-- The allocator `fl_make_node`: a fresh node holding `n`, both links `NULL`. -/
def fl_make_node (H : Heap) (n : ℚ) : Heap × Option Nat :=
  (H.alloc n, some H.brk)

/-- The constructor `fl_make_flist`: the empty container. -/
def fl_make_flist : flist_type :=
  { head := none, tail := none, mean := 0, variance := 0, sumsq := 0, sum := 0, len := 0 }

/-- The tail of `fl_update_measures`: mean and variance from `sum`, `sumsq`, `len`. -/
def fl_rederive (l : flist_type) : flist_type :=
  let moment2 := l.sumsq / l.len
  let l := { l with mean := l.sum / l.len }
  { l with variance := moment2 - l.mean * l.mean }

/-- The function `fl_update_measures`; `add` is the C flag (non-zero means add). -/
def fl_update_measures (H : Heap) (l : flist_type) (n : ℚ) (add : Int) :
    Option (Heap × flist_type) :=
  if add ≠ 0 then
    let l := { l with len := l.len + 1 }
    let l := { l with sum := l.sum + n }
    let l := { l with sumsq := l.sumsq + n * n }
    some (H, fl_rederive l)
  else if l.len ≤ 1 then do
    let H ← H.wr_num l.head 0
    some (H, { l with len := 0, sum := 0, mean := 0, variance := 0, sumsq := 0 })
  else
    let l := { l with sum := l.sum - n }
    let l := { l with sumsq := l.sumsq - n * n }
    let l := { l with len := l.len - 1 }
    some (H, fl_rederive l)

/-- The function `fl_append`. -/
def fl_append (H : Heap) (l : flist_type) (n : ℚ) : Option (Heap × flist_type) :=
  let (H, nd) := fl_make_node H n
  if l.head = none ∨ l.len = 0 then do
    let l := { l with head := nd }
    let l := { l with tail := nd }
    let H ← H.wr_next nd nd
    let H ← H.wr_prev nd nd
    fl_update_measures H l n 1
  else do
    let H ← H.wr_prev nd l.tail
    let H ← H.wr_next nd l.head
    let H ← H.wr_next l.tail nd
    let l := { l with tail := nd }
    let H ← H.wr_prev l.head nd
    fl_update_measures H l n 1

/-- The backward loop of `fl_get_kth`: `while (i > k+1 && i > 0) { i--; nd = nd->prev; }`. -/
def fl_get_kth_back (H : Heap) (k : Int) : Nat → Int → Option Nat → Option (Option Nat)
  | 0, i, nd => if i > k + 1 ∧ i > 0 then none else some nd
  | fuel + 1, i, nd =>
    if i > k + 1 ∧ i > 0 then do
      let p ← H.rd_prev nd
      fl_get_kth_back H k fuel (i - 1) p
    else some nd

/-- The forward loop of `fl_get_kth`: `while (i < k && i < l_len) { i++; nd = nd->next; }`. -/
def fl_get_kth_fwd (H : Heap) (k l_len : Int) : Nat → Int → Option Nat → Option (Option Nat)
  | 0, i, nd => if i < k ∧ i < l_len then none else some nd
  | fuel + 1, i, nd =>
    if i < k ∧ i < l_len then do
      let p ← H.rd_next nd
      fl_get_kth_fwd H k l_len fuel (i + 1) p
    else some nd

/-- The function `fl_get_kth`.  Both loops count an `int` between `0` and `len`, so each is
given `len` rounds of fuel, which it cannot exhaust (`fl_get_kth_back_fuel`,
`fl_get_kth_fwd_fuel`).  The test `k > l->len/2.0` is a comparison of exact numbers. -/
def fl_get_kth (H : Heap) (l : flist_type) (k : Int) : Option (Option Nat) :=
  if l.head = none then some none
  else if (k : ℚ) > (l.len : ℚ) / 2 then
    fl_get_kth_back H k l.len.toNat l.len l.tail
  else
    fl_get_kth_fwd H k l.len l.len.toNat 0 l.head

/-- The function `fl_push`. -/
def fl_push (H : Heap) (l : flist_type) (n : ℚ) : Option (Heap × flist_type) :=
  let (H, new) := fl_make_node H n
  if l.head = none then
    fl_append H l n
  else do
    let H ← H.wr_prev new l.tail
    let H ← H.wr_next new l.head
    let H ← H.wr_next l.tail new
    let H ← H.wr_prev l.head new
    let l := { l with head := new }
    fl_update_measures H l n 1

/-- The function `fl_pop`; the result carries the returned number. -/
def fl_pop (H : Heap) (l : flist_type) : Option (Heap × flist_type × ℚ) :=
  if l.len = 0 then none
  else if l.head = none then none
  else if l.len = 1 then do
    let ret ← H.rd_num l.head
    let l := { l with head := l.tail }
    let (H, l) ← fl_update_measures H l ret 0
    some (H, l, ret)
  else do
    let head_cpy := l.head
    let ret ← H.rd_num head_cpy
    let hn ← H.rd_next l.head
    let H ← H.wr_next l.tail hn
    let hn ← H.rd_next l.head
    let H ← H.wr_prev hn l.tail
    let hn ← H.rd_next l.head
    let l := { l with head := hn }
    let (H, l) ← fl_update_measures H l ret 0
    some (H, l, ret)

/-- The function `fl_dequeue`; the result carries the returned number. -/
def fl_dequeue (H : Heap) (l : flist_type) : Option (Heap × flist_type × ℚ) :=
  if l.len = 0 then none
  else if l.len = 1 then fl_pop H l
  else do
    let remove := l.tail
    let ret ← H.rd_num remove
    let rp ← H.rd_prev remove
    let H ← H.wr_next rp l.head
    let rp ← H.rd_prev remove
    let H ← H.wr_prev l.head rp
    let rp ← H.rd_prev remove
    let l := { l with tail := rp }
    let (H, l) ← fl_update_measures H l ret 0
    some (H, l, ret)

/-- The function `fl_remove_index`; the flag is `false` when the C function returns `NULL`
(index rejected) and `true` when it returns `l`. -/
def fl_remove_index (H : Heap) (l : flist_type) (index : Int) :
    Option (Heap × flist_type × Bool) :=
  if index > l.len then some (H, l, false)
  else if index = 0 then do
    let (H, l, _) ← fl_pop H l
    some (H, l, true)
  else if index = l.len - 1 then do
    let (H, l, _) ← fl_dequeue H l
    some (H, l, true)
  else do
    let remove ← fl_get_kth H l index
    let _ ← H.rd_num remove
    let rp ← H.rd_prev remove
    let rn ← H.rd_next remove
    let H ← H.wr_next rp rn
    let rn ← H.rd_next remove
    let rp ← H.rd_prev remove
    let H ← H.wr_prev rn rp
    let v ← H.rd_num remove
    let (H, l) ← fl_update_measures H l v 0
    some (H, l, true)

/-- The scan of `fl_remove`, with the code after the loop in the exit branch:
`while (iter->next != l->head) { if (fl_near(n, iter->num)) return ...; index++; iter = iter->next; }`
followed by the test of the last node. -/
def fl_remove_scan (H : Heap) (l : flist_type) (n : ℚ) :
    Nat → Int → Option Nat → Option (Heap × flist_type × Bool)
  | 0, _, _ => none
  | fuel + 1, index, iter => do
    let nxt ← H.rd_next iter
    let v ← H.rd_num iter
    if nxt ≠ l.head then
      if fl_near n v then fl_remove_index H l index
      else fl_remove_scan H l n fuel (index + 1) nxt
    else
      if fl_near v n then fl_remove_index H l index
      else some (H, l, true)

/-- The function `fl_remove`. -/
def fl_remove (fuel : Nat) (H : Heap) (l : flist_type) (n : ℚ) :
    Option (Heap × flist_type × Bool) :=
  fl_remove_scan H l n fuel 0 l.head

/-- The function `fl_insert_index`. -/
def fl_insert_index (H : Heap) (l : flist_type) (index : Int) (n : ℚ) :
    Option (Heap × flist_type) :=
  if index ≥ l.len ∧ index > 0 then some (H, l)
  else if index = 0 then fl_push H l n
  else if index = l.len - 1 then fl_append H l n
  else do
    let p ← fl_get_kth H l (index - 1)
    let (H, new) := fl_make_node H n
    let p_next_cpy ← H.rd_next p
    let H ← H.wr_prev new p
    let H ← H.wr_next p new
    let H ← H.wr_next new p_next_cpy
    let H ← H.wr_prev p_next_cpy new
    fl_update_measures H l n 1

/-- The scan of `fl_insert`, with the final `fl_append` in the exit branch. -/
def fl_insert_scan (H : Heap) (l : flist_type) (n : ℚ) :
    Nat → Option Nat → Option (Heap × flist_type)
  | 0, _ => none
  | fuel + 1, iter =>
    if iter ≠ l.head then do
      let ip ← H.rd_prev iter
      let pnum ← H.rd_num ip
      let inum ← H.rd_num iter
      if (n > pnum ∨ fl_near n pnum) ∧ (n < inum ∨ fl_near n inum) then
        let (H, new) := fl_make_node H n
        let ip ← H.rd_prev iter
        let H ← H.wr_next ip new
        let ip ← H.rd_prev iter
        let H ← H.wr_prev new ip
        let H ← H.wr_next new iter
        let H ← H.wr_prev iter new
        fl_update_measures H l n 1
      else do
        let nxt ← H.rd_next iter
        fl_insert_scan H l n fuel nxt
    else fl_append H l n

/-- The function `fl_insert`. -/
def fl_insert (fuel : Nat) (H : Heap) (l : flist_type) (n : ℚ) : Option (Heap × flist_type) :=
  if l.len = 0 then fl_append H l n
  else do
    let hnum ← H.rd_num l.head
    if n < hnum then fl_push H l n
    else do
      let tnum ← H.rd_num l.tail
      if n > tnum then fl_append H l n
      else do
        let iter ← H.rd_next l.head
        fl_insert_scan H l n fuel iter

/-- The loop of `fl_reverse`; the state is the heap, `nd` and `nxt_cpy`. -/
def fl_reverse_loop (tail : Option Nat) :
    Nat → Heap → Option Nat → Option Nat → Option (Heap × Option Nat × Option Nat)
  | 0, _, _, _ => none
  | fuel + 1, H, nd, nxt_cpy =>
    if nd ≠ tail then do
      let nxt_cpy ← H.rd_next nd
      let p ← H.rd_prev nd
      let H ← H.wr_next nd p
      let H ← H.wr_prev nd nxt_cpy
      fl_reverse_loop tail fuel H nxt_cpy nxt_cpy
    else some (H, nd, nxt_cpy)

/-- The function `fl_reverse`. -/
def fl_reverse (fuel : Nat) (H : Heap) (l : flist_type) : Option (Heap × flist_type) :=
  if l.len = 1 then some (H, l)
  else do
    let head_cpy := l.head
    let (H, nd, nxt_cpy) ← fl_reverse_loop l.tail fuel H l.head none
    let p ← H.rd_prev nd
    let H ← H.wr_next nd p
    let H ← H.wr_prev nd nxt_cpy
    let l := { l with head := nd }
    let l := { l with tail := head_cpy }
    let H ← H.wr_prev l.head l.tail
    some (H, l)

/-- One round of the loop of `fl_merge_` taking the node `X` (which is `A` or `B`):
`if (C == NULL) C = X; else last->next = X; last = X; last->prev = last;`.
Returns the heap, `C` and `last`. -/
def fl_merge_take (H : Heap) (C last X : Option Nat) :
    Option (Heap × Option Nat × Option Nat) :=
  if C = none then do
    let H ← H.wr_prev X X
    some (H, X, X)
  else do
    let H ← H.wr_next last X
    let H ← H.wr_prev X X
    some (H, C, X)

/-- The loop of `fl_merge_`; the state is the heap, `A`, `B`, `C` and `last`. -/
def fl_merge_loop :
    Nat → Heap → Option Nat → Option Nat → Option Nat → Option Nat →
      Option (Heap × Option Nat × Option Nat × Option Nat × Option Nat)
  | 0, _, _, _, _, _ => none
  | fuel + 1, H, A, B, C, last =>
    if A ≠ none ∧ B ≠ none then do
      let anum ← H.rd_num A
      let bnum ← H.rd_num B
      if anum < bnum then do
        let (H, C, last) ← fl_merge_take H C last A
        let A ← H.rd_next A
        fl_merge_loop fuel H A B C last
      else do
        let (H, C, last) ← fl_merge_take H C last B
        let B ← H.rd_next B
        fl_merge_loop fuel H A B C last
    else some (H, A, B, C, last)

/-- The code of `fl_merge_` after its loop. -/
def fl_merge_finish (H : Heap) (A B C last : Option Nat) : Option (Heap × Option Nat) :=
  if A = none then do
    let H ← H.wr_next last B
    let H ← H.wr_prev B last
    some (H, C)
  else do
    let H ← H.wr_next last A
    let H ← H.wr_prev A last
    some (H, C)

/-- The function `fl_merge_`. -/
def fl_merge_ (fuel : Nat) (H : Heap) (A B : Option Nat) : Option (Heap × Option Nat) :=
  if A = none then some (H, B)
  else if B = none then some (H, A)
  else do
    let (H, A, B, C, last) ← fl_merge_loop fuel H A B none none
    fl_merge_finish H A B C last

/-- The loop of `fl_split_`; the state is `fast` and `slow`. -/
def fl_split_loop (H : Heap) : Nat → Option Nat → Option Nat → Option (Option Nat × Option Nat)
  | 0, _, _ => none
  | fuel + 1, fast, slow => do
    let fn ← H.rd_next fast
    if fn ≠ none then do
      let fnn ← H.rd_next fn
      if fnn ≠ none then do
        let slow ← H.rd_next slow
        fl_split_loop H fuel fnn slow
      else some (fast, slow)
    else some (fast, slow)

/-- The function `fl_split_`. -/
def fl_split_ (fuel : Nat) (H : Heap) (head : Option Nat) : Option (Heap × Option Nat) := do
  let (_, slow) ← fl_split_loop H fuel head head
  let temp ← H.rd_next slow
  let H ← H.wr_next slow none
  some (H, temp)

/-- The function `fl_merge_sort_`; the fuel bounds the recursion depth and every loop. -/
def fl_merge_sort_ : Nat → Heap → Option Nat → Option (Heap × Option Nat)
  | 0, _, _ => none
  | fuel + 1, H, head =>
    if head = none then some (H, head)
    else do
      let hn ← H.rd_next head
      if hn = none then some (H, head)
      else do
        let (H, second) ← fl_split_ fuel H head
        let (H, head) ← fl_merge_sort_ fuel H head
        let (H, second) ← fl_merge_sort_ fuel H second
        fl_merge_ fuel H head second

/-- The loop of `fl_sort` that finds the end of the chain: `while (iter->next != NULL)`. -/
def fl_sort_walk (H : Heap) : Nat → Option Nat → Option (Option Nat)
  | 0, _ => none
  | fuel + 1, iter => do
    let nxt ← H.rd_next iter
    if nxt ≠ none then fl_sort_walk H fuel nxt else some iter

/-- The function `fl_sort`. -/
def fl_sort (fuel : Nat) (H : Heap) (l : flist_type) : Option (Heap × flist_type) :=
  if l.len = 0 then some (H, l)
  else do
    let hd_cpy := l.head
    let hp ← H.rd_prev hd_cpy
    let H ← H.wr_next hp none
    let (H, hd_cpy) ← fl_merge_sort_ fuel H hd_cpy
    let l := { l with head := hd_cpy }
    let iter ← fl_sort_walk H fuel l.head
    let l := { l with tail := iter }
    let H ← H.wr_next l.tail l.head
    let H ← H.wr_prev l.head l.tail
    some (H, l)

/-- The loop of `fl_is_sorted`, returning `0` from inside and `1` at the exit. -/
def fl_is_sorted_loop (H : Heap) (l : flist_type) : Nat → Option Nat → Option Int
  | 0, _ => none
  | fuel + 1, hd_cpy =>
    if hd_cpy ≠ l.head then do
      let v ← H.rd_num hd_cpy
      let p ← H.rd_prev hd_cpy
      let pnum ← H.rd_num p
      if v < pnum then some 0
      else do
        let nxt ← H.rd_next hd_cpy
        fl_is_sorted_loop H l fuel nxt
    else some 1

/-- The function `fl_is_sorted`. -/
def fl_is_sorted (fuel : Nat) (H : Heap) (l : flist_type) : Option Int :=
  if l.len = 0 then some 1
  else do
    let hn ← H.rd_next l.head
    fl_is_sorted_loop H l fuel hn

/-- The function `fl_from_arr`: the numbers of the array are appended in order. -/
def fl_from_arr (H : Heap) (l : flist_type) : List ℚ → Option (Heap × flist_type)
  | [] => some (H, l)
  | v :: vs => (fl_append H l v).bind fun r => fl_from_arr r.1 r.2 vs

/-- The code of `fl_equals` after its loop ("Check the last nodes"). -/
def fl_equals_last (H : Heap) (nd md : Option Nat) : Option Int := do
  let a ← H.rd_num nd
  let b ← H.rd_num md
  if ¬ fl_near a b then some 0 else some 1

/-- The loop of `fl_equals`, returning `0` from inside and running the last comparison at
the exit; `&&` reads `md->next` only when `nd->next != l->head`. -/
def fl_equals_loop (H : Heap) (l m : flist_type) : Nat → Option Nat → Option Nat → Option Int
  | 0, _, _ => none
  | fuel + 1, nd, md => do
    let nn ← H.rd_next nd
    if nn ≠ l.head then do
      let mn ← H.rd_next md
      if mn ≠ m.head then do
        let a ← H.rd_num nd
        let b ← H.rd_num md
        if ¬ fl_near a b then some 0
        else fl_equals_loop H l m fuel nn mn
      else fl_equals_last H nd md
    else fl_equals_last H nd md

/-- The function `fl_equals`; an absent container (`NULL`) is `none`. -/
def fl_equals (fuel : Nat) (H : Heap) : Option flist_type → Option flist_type → Option Int
  | none, none => some 1
  | none, some _ => some 0
  | some _, none => some 0
  | some l, some m =>
    if l.len ≠ m.len ∨ l.sum ≠ m.sum then some 0
    else if l.len = 0 ∧ m.len = 0 then some 1
    else if l.head = none then some (if m.head = none then 1 else 0)
    else if m.head = none then some (if l.head = none then 1 else 0)
    else fl_equals_loop H l m fuel l.head m.head

/-- The loop of `fl_copy`, with the final `fl_push` in the exit branch; the state is the
heap, the new container and `nd`. -/
def fl_copy_loop (cur : flist_type) :
    Nat → Heap → flist_type → Option Nat → Option (Heap × flist_type)
  | 0, _, _, _ => none
  | fuel + 1, H, newFlist, nd => do
    let nxt ← H.rd_next nd
    let v ← H.rd_num nd
    if nxt ≠ cur.head then do
      let (H, newFlist) ← fl_push H newFlist v
      let nxt ← H.rd_next nd
      fl_copy_loop cur fuel H newFlist nxt
    else fl_push H newFlist v

/-- The function `fl_copy`; the result is `none` where the C function returns `NULL`. -/
def fl_copy (fuel : Nat) (H : Heap) : Option flist_type → Option (Heap × Option flist_type)
  | none => some (H, none)
  | some cur =>
    if cur.head = none then some (H, none)
    else (fl_copy_loop cur fuel H fl_make_flist cur.head).map fun r => (r.1, some r.2)

/-- The function `fl_combine`. -/
def fl_combine (fuel : Nat) (H : Heap) :
    Option flist_type → Option flist_type → Option (Heap × Option flist_type)
  | none, none => some (H, none)
  | none, some m => some (H, some m)
  | some l, none => some (H, some l)
  | some l, some m => do
    let (H, newL) ← fl_copy fuel H (some l)
    let (H, newM) ← fl_copy fuel H (some m)
    let newL ← newL
    let newM ← newM
    let H ← H.wr_next newL.tail newM.head
    let H ← H.wr_next newM.tail newL.head
    let newL := { newL with len := newL.len + newM.len }
    let newL := { newL with sum := newL.sum + newM.sum }
    let newL := { newL with mean := newL.sum / newL.mean }
    let newL := { newL with sumsq := newL.sumsq + newM.sumsq }
    let moment2 := newL.sumsq / (newL.len : ℚ)
    let newL := { newL with variance := moment2 - newL.mean * newL.mean }
    some (H, some newL)

/-- The loop of `fl_subflist`,
`while (i++ < steps) { fl_append(sub, start->num); start = start->next; }`; the state is
the heap, `sub`, `start` and `i`. -/
def fl_subflist_loop (steps : Int) :
    Nat → Heap → flist_type → Option Nat → Int → Option (Heap × flist_type)
  | 0, _, _, _, _ => none
  | fuel + 1, H, sub, start, i =>
    if i < steps then do
      let v ← H.rd_num start
      let (H, sub) ← fl_append H sub v
      let start ← H.rd_next start
      fl_subflist_loop steps fuel H sub start (i + 1)
    else some (H, sub)

/-- The function `fl_subflist`; the result is `none` where the C function returns `NULL`. -/
def fl_subflist (fuel : Nat) (H : Heap) (l : flist_type) (a b : Int) :
    Option (Heap × Option flist_type) :=
  if ¬ (a < b ∧ b < l.len) then some (H, none)
  else do
    let sub := fl_make_flist
    let start ← fl_get_kth H l a
    let steps := (b - a) + 1
    let (H, sub) ← fl_subflist_loop steps fuel H sub start 0
    some (H, some sub)

/-- The loop of `fl_to_arr`,
`for (int i = 0; i < l->len; i++) { arr[i] = l->head->num; l->head = l->head->next; }`;
the state is the container (the loop assigns to `l->head`), `i` and the numbers stored in
`arr[0..i)`. -/
def fl_to_arr_loop (H : Heap) :
    Nat → flist_type → Int → List ℚ → Option (flist_type × List ℚ)
  | 0, _, _, _ => none
  | fuel + 1, l, i, arr =>
    if i < l.len then do
      let v ← H.rd_num l.head
      let hn ← H.rd_next l.head
      fl_to_arr_loop H fuel { l with head := hn } (i + 1) (arr ++ [v])
    else some (l, arr)

/-- The function `fl_to_arr`: the container after the call and the array returned (`none`
for `NULL`); `malloc` always succeeds. -/
def fl_to_arr (fuel : Nat) (H : Heap) (l : flist_type) : Option (flist_type × Option (List ℚ)) :=
  if l.head = none then some (l, none)
  else (fl_to_arr_loop H fuel l 0 []).map fun r => (r.1, some r.2)

/-- The backward loop of `fl_get_kth` with a counter `c` of the `prev` links followed. -/
def fl_get_kth_back_links (H : Heap) (k : Int) :
    Nat → Int → Option Nat → Nat → Option (Option Nat × Nat)
  | 0, i, nd, c => if i > k + 1 ∧ i > 0 then none else some (nd, c)
  | fuel + 1, i, nd, c =>
    if i > k + 1 ∧ i > 0 then do
      let p ← H.rd_prev nd
      fl_get_kth_back_links H k fuel (i - 1) p (c + 1)
    else some (nd, c)

/-- The forward loop of `fl_get_kth` with a counter `c` of the `next` links followed. -/
def fl_get_kth_fwd_links (H : Heap) (k l_len : Int) :
    Nat → Int → Option Nat → Nat → Option (Option Nat × Nat)
  | 0, i, nd, c => if i < k ∧ i < l_len then none else some (nd, c)
  | fuel + 1, i, nd, c =>
    if i < k ∧ i < l_len then do
      let p ← H.rd_next nd
      fl_get_kth_fwd_links H k l_len fuel (i + 1) p (c + 1)
    else some (nd, c)

/-- The function `fl_get_kth` with a record of its walk: the node returned, whether the
walk started at `tail` and went backward (`true`) or started at `head` and went forward
(`false`), and the number of links followed. -/
def fl_get_kth_links (H : Heap) (l : flist_type) (k : Int) :
    Option (Option Nat × Bool × Nat) :=
  if l.head = none then some (none, false, 0)
  else if (k : ℚ) > (l.len : ℚ) / 2 then
    (fl_get_kth_back_links H k l.len.toNat l.len l.tail 0).map fun r => (r.1, true, r.2)
  else
    (fl_get_kth_fwd_links H k l.len l.len.toNat 0 l.head 0).map fun r => (r.1, false, r.2)

/-- A call of one of the mutators `fl_append`, `fl_push`, `fl_insert`, `fl_insert_index`,
`fl_pop`, `fl_dequeue`, `fl_remove_index`, `fl_remove`, with its arguments. -/
inductive fl_call where
  | append (v : ℚ)
  | push (v : ℚ)
  | insert (v : ℚ)
  | insert_index (index : Int) (v : ℚ)
  | pop
  | dequeue
  | remove_index (index : Int)
  | remove (v : ℚ)

/-- The heap and the container after the call `c` (the number or flag returned by the
removals is dropped). -/
def fl_call.run (fuel : Nat) (H : Heap) (l : flist_type) : fl_call → Option (Heap × flist_type)
  | .append v => fl_append H l v
  | .push v => fl_push H l v
  | .insert v => fl_insert fuel H l v
  | .insert_index index v => fl_insert_index H l index v
  | .pop => (fl_pop H l).map fun r => (r.1, r.2.1)
  | .dequeue => (fl_dequeue H l).map fun r => (r.1, r.2.1)
  | .remove_index index => (fl_remove_index H l index).map fun r => (r.1, r.2.1)
  | .remove v => (fl_remove fuel H l v).map fun r => (r.1, r.2.1)

/-- The calls `cs` made one after the other (`none` as soon as one of them fails). -/
def fl_run (fuel : Nat) : Heap → flist_type → List fl_call → Option (Heap × flist_type)
  | H, l, [] => some (H, l)
  | H, l, c :: cs => (c.run fuel H l).bind fun r => fl_run fuel r.1 r.2 cs

/-! ## Specification vocabulary -/

/-- The pointer `p` leads through the addresses `ns`, in order, along the link `f`, and the
link out of the last of them is `q`. -/
def Path (f : Nat → Option Nat) : Option Nat → List Nat → Option Nat → Prop
  | p, [], q => p = q
  | p, a :: as, q => p = some a ∧ Path f (f a) as q

/-- The pointer reached from `p` by following `k` next-links (`none` when the walk meets
`NULL` before or at the end). -/
def follow (H : Heap) : Nat → Option Nat → Option Nat
  | 0, p => p
  | _ + 1, none => none
  | k + 1, some a => follow H k (H.nx a)

/-- A doubly linked segment: `p` leads through the addresses `ns` along `next` and the link
out of the last is `q`, while `prev` of the first is `pp` and `prev` of every other node
is the node before it. -/
def DSeg (H : Heap) : Option Nat → Option Nat → List Nat → Option Nat → Prop
  | _, p, [], q => p = q
  | pp, p, a :: as, q => p = some a ∧ H.pv a = pp ∧ DSeg H (some a) (H.nx a) as q

/-- The numbers read from `p` along `k` next-links, as `fl_to_arr` reads them (`none`
when the walk meets `NULL`). -/
def walk (H : Heap) : Nat → Option Nat → Option (List ℚ)
  | 0, _ => some []
  | _ + 1, none => none
  | k + 1, some a => (walk H k (H.nx a)).map (H.nm a :: ·)

/-- The value sequence of a container: `len` numbers read from `head` along `next`. -/
def fl_values (H : Heap) (l : flist_type) : Option (List ℚ) := walk H l.len.toNat l.head

/-- The numbers stored at the addresses `ns`. -/
def vals (H : Heap) (ns : List Nat) : List ℚ := ns.map H.nm

/-- The container `l` is well formed in the heap `H`, with `ns` its nodes from head to tail:
it is empty with `head` and `tail` absent, or `ns` is one cycle of `len` distinct allocated
nodes under `next`, starting at `head` and ending at `tail`, and `prev` runs the same cycle
backwards (so `head->prev == tail`). -/
structure WellFormed (H : Heap) (l : flist_type) (ns : List Nat) : Prop where
  len_eq : l.len = ns.length
  nodup : ns.Nodup
  fresh : ∀ a ∈ ns, a < H.brk
  head_eq : l.head = ns.head?
  tail_eq : l.tail = ns.getLast?
  next_cycle : Path H.nx l.head ns l.head
  prev_cycle : Path H.pv l.tail ns.reverse l.tail

/-- The aggregate fields of `l2` are those of `l1` after adding the number `n`. -/
def MeasuresAdd (l1 l2 : flist_type) (n : ℚ) : Prop :=
  l2.len = l1.len + 1 ∧ l2.sum = l1.sum + n ∧ l2.sumsq = l1.sumsq + n * n ∧
    l2.mean = l2.sum / l2.len ∧ l2.variance = l2.sumsq / l2.len - l2.mean * l2.mean

/-- The aggregate fields of `l2` are those of `l1` after removing the number `n`. -/
def MeasuresSub (l1 l2 : flist_type) (n : ℚ) : Prop :=
  l2.len = l1.len - 1 ∧ l2.sum = l1.sum - n ∧ l2.sumsq = l1.sumsq - n * n ∧
    l2.mean = l2.sum / l2.len ∧ l2.variance = l2.sumsq / l2.len - l2.mean * l2.mean

/-- The container after the add branch of `fl_update_measures`. -/
def upd_add (l : flist_type) (n : ℚ) : flist_type :=
  fl_rederive { l with len := l.len + 1, sum := l.sum + n, sumsq := l.sumsq + n * n }

/-- The container after the general remove branch of `fl_update_measures`. -/
def upd_sub (l : flist_type) (n : ℚ) : flist_type :=
  fl_rederive { l with sum := l.sum - n, sumsq := l.sumsq - n * n, len := l.len - 1 }

/-- The reference for `fl_insert_index` on value sequences, in the words of the
specification: index `0` puts `v` in front; otherwise an index `>= len` is rejected
(`none`, the container stays as it is); otherwise index `len - 1` puts `v` at the end;
otherwise `v` goes to position `index`, immediately before the element that was there. -/
def insert_index_ref (s : List ℚ) (index : Nat) (v : ℚ) : Option (List ℚ) :=
  if index = 0 then some (v :: s)
  else if index ≥ s.length then none
  else if index = s.length - 1 then some (s ++ [v])
  else some (s.take index ++ v :: s.drop index)

/-- The heap `H` with the `next` and `prev` links exchanged in every node of `ns`. -/
def Heap.swapped (H : Heap) (ns : List Nat) : Heap :=
  { H with cell := fun x =>
      if x ∈ ns then { H.cell x with next := (H.cell x).prev, prev := (H.cell x).next }
      else H.cell x }

/-- The loop of `fl_merge_` followed by the code after it. -/
def fl_merge_run (fuel : Nat) (H : Heap) (A B C last : Option Nat) :
    Option (Heap × Option Nat) :=
  (fl_merge_loop fuel H A B C last).bind fun s =>
    fl_merge_finish s.1 s.2.1 s.2.2.1 s.2.2.2.1 s.2.2.2.2

/-- The order in which `fl_merge_` emits the nodes of two chains: the head of the first
chain when its number is smaller (`A->num < B->num`), the head of the second otherwise. -/
def merged (nm : Nat → ℚ) (as bs : List Nat) : List Nat :=
  List.merge as bs fun a b => decide (nm a < nm b)

/-- The test of `fl_is_sorted` at the node `x` passes: `x->prev` is a node whose number is
at most that of `x` (`hd_cpy->num < hd_cpy->prev->num` is false). -/
def PrevLe (H : Heap) (x : Nat) : Prop :=
  ∃ y, H.pv x = some y ∧ H.nm y ≤ H.nm x

/-- The conditions on a call made on the container `l`: a removal needs a non-empty
container, and an index is in range, `0 <= index < len` (for `fl_insert_index` also index
`0` of an empty container). -/
def fl_call.admitted (l : flist_type) : fl_call → Bool
  | .append _ => true
  | .push _ => true
  | .insert _ => true
  | .insert_index index _ => decide (0 ≤ index ∧ (index < l.len ∨ index = 0))
  | .pop => decide (l.len ≠ 0)
  | .dequeue => decide (l.len ≠ 0)
  | .remove_index index => decide (0 ≤ index ∧ index < l.len)
  | .remove _ => decide (l.len ≠ 0)

/-- The call reaches `fl_push` on a container that a removal has emptied: `len == 0` with
`head` still set. -/
def fl_call.pushes_on_emptied (l : flist_type) : fl_call → Bool
  | .push _ => decide (l.len = 0 ∧ l.head ≠ none)
  | .insert_index index _ => decide (index = 0 ∧ l.len = 0 ∧ l.head ≠ none)
  | _ => false

/-- Every call of the sequence `cs` satisfies `ok` on the container it is made on. -/
def calls_ok (ok : flist_type → fl_call → Bool) (fuel : Nat) :
    Heap → flist_type → List fl_call → Bool
  | _, _, [] => true
  | H, l, c :: cs =>
    ok l c && match c.run fuel H l with
      | none => true
      | some r => calls_ok ok fuel r.1 r.2 cs

/-- The state that the mutators maintain, with `ns` the nodes of the container from head to
tail: `len` counts them, `sum` is the sum of their numbers, a non-empty container is well
formed (`ns` is one `next` cycle of `len` distinct nodes from `head` back to `head`, and
`tail` is the last of them), and an empty container has `head == tail` (both absent, or
both the zeroed node that the last removal left behind). -/
def Consistent (H : Heap) (l : flist_type) (ns : List Nat) : Prop :=
  l.len = ns.length ∧ l.sum = (vals H ns).sum ∧ (ns ≠ [] → WellFormed H l ns) ∧
    (ns = [] → l.head = l.tail)

/-- The containers `l1` and `l2` have the same aggregate fields. -/
def SameMeasures (l1 l2 : flist_type) : Prop :=
  l1.mean = l2.mean ∧ l1.variance = l2.variance ∧ l1.sumsq = l2.sumsq ∧ l1.sum = l2.sum ∧
    l1.len = l2.len

/-- The empty heap: every cell zero with `NULL` links, nothing allocated. -/
def H0 : Heap := ⟨fun _ => ⟨0, none, none⟩, 0⟩

/-- The heap after `fl_append(l, 65); fl_push(l, 10)` on a fresh container: the node at
address `0` holds `65`, the node at address `1` holds `10`, and each is the other one its
`next` and `prev`. -/
def H2ex : Heap :=
  ⟨fun a => if a = 0 then ⟨65, some 1, some 1⟩ else if a = 1 then ⟨10, some 0, some 0⟩
    else ⟨0, none, none⟩, 2⟩

/-- The container after `fl_append(l, 65); fl_push(l, 10)`: head `10`, tail `65`. -/
def l2ex : flist_type :=
  { head := some 1, tail := some 0, mean := 75 / 2, variance := 3025 / 4, sumsq := 4325,
    sum := 75, len := 2 }

/-- A heap holding the sorted container `[0, 10000000000, 30000000000]` at the addresses
`0`, `1`, `2`. -/
def H3ex : Heap :=
  ⟨fun a => if a = 0 then ⟨0, some 2, some 1⟩ else if a = 1 then ⟨10000000000, some 0, some 2⟩
    else if a = 2 then ⟨30000000000, some 1, some 0⟩ else ⟨0, none, none⟩, 3⟩

/-- The container `[0, 10000000000, 30000000000]`. -/
def l3ex : flist_type :=
  { head := some 0, tail := some 2, mean := 40000000000 / 3,
    variance := 1400000000000000000000 / 9, sumsq := 1000000000000000000000,
    sum := 40000000000, len := 3 }

/-! ## Heap lemmas -/

namespace Heap

@[simp] theorem nx_st_next (H : Heap) (a : Nat) (v : Option Nat) :
    (H.st_next a v).nx = Function.update H.nx a v := by
  funext b; by_cases h : b = a <;> simp [st_next, nx, Function.update, h]

@[simp] theorem nx_st_prev (H : Heap) (a : Nat) (v : Option Nat) :
    (H.st_prev a v).nx = H.nx := by
  funext b; by_cases h : b = a <;> simp [st_prev, nx, Function.update, h]

@[simp] theorem nx_st_num (H : Heap) (a : Nat) (v : ℚ) : (H.st_num a v).nx = H.nx := by
  funext b; by_cases h : b = a <;> simp [st_num, nx, Function.update, h]

@[simp] theorem pv_st_prev (H : Heap) (a : Nat) (v : Option Nat) :
    (H.st_prev a v).pv = Function.update H.pv a v := by
  funext b; by_cases h : b = a <;> simp [st_prev, pv, Function.update, h]

@[simp] theorem pv_st_next (H : Heap) (a : Nat) (v : Option Nat) :
    (H.st_next a v).pv = H.pv := by
  funext b; by_cases h : b = a <;> simp [st_next, pv, Function.update, h]

@[simp] theorem pv_st_num (H : Heap) (a : Nat) (v : ℚ) : (H.st_num a v).pv = H.pv := by
  funext b; by_cases h : b = a <;> simp [st_num, pv, Function.update, h]

@[simp] theorem nm_st_num (H : Heap) (a : Nat) (v : ℚ) :
    (H.st_num a v).nm = Function.update H.nm a v := by
  funext b; by_cases h : b = a <;> simp [st_num, nm, Function.update, h]

@[simp] theorem nm_st_next (H : Heap) (a : Nat) (v : Option Nat) :
    (H.st_next a v).nm = H.nm := by
  funext b; by_cases h : b = a <;> simp [st_next, nm, Function.update, h]

@[simp] theorem nm_st_prev (H : Heap) (a : Nat) (v : Option Nat) :
    (H.st_prev a v).nm = H.nm := by
  funext b; by_cases h : b = a <;> simp [st_prev, nm, Function.update, h]

@[simp] theorem brk_st_next (H : Heap) (a : Nat) (v : Option Nat) :
    (H.st_next a v).brk = H.brk := rfl

@[simp] theorem brk_st_prev (H : Heap) (a : Nat) (v : Option Nat) :
    (H.st_prev a v).brk = H.brk := rfl

@[simp] theorem brk_st_num (H : Heap) (a : Nat) (v : ℚ) : (H.st_num a v).brk = H.brk := rfl

@[simp] theorem brk_alloc (H : Heap) (n : ℚ) : (H.alloc n).brk = H.brk + 1 := rfl

@[simp] theorem nx_alloc (H : Heap) (n : ℚ) :
    (H.alloc n).nx = Function.update H.nx H.brk none := by
  funext b; by_cases h : b = H.brk <;> simp [alloc, nx, Function.update, h]

@[simp] theorem pv_alloc (H : Heap) (n : ℚ) :
    (H.alloc n).pv = Function.update H.pv H.brk none := by
  funext b; by_cases h : b = H.brk <;> simp [alloc, pv, Function.update, h]

@[simp] theorem nm_alloc (H : Heap) (n : ℚ) :
    (H.alloc n).nm = Function.update H.nm H.brk n := by
  funext b; by_cases h : b = H.brk <;> simp [alloc, nm, Function.update, h]

@[simp] theorem rd_num_some (H : Heap) (a : Nat) : H.rd_num (some a) = some (H.nm a) := rfl

@[simp] theorem rd_next_some (H : Heap) (a : Nat) : H.rd_next (some a) = some (H.nx a) := rfl

@[simp] theorem rd_prev_some (H : Heap) (a : Nat) : H.rd_prev (some a) = some (H.pv a) := rfl

@[simp] theorem rd_num_none (H : Heap) : H.rd_num none = none := rfl

@[simp] theorem rd_next_none (H : Heap) : H.rd_next none = none := rfl

@[simp] theorem rd_prev_none (H : Heap) : H.rd_prev none = none := rfl

@[simp] theorem wr_num_some (H : Heap) (a : Nat) (v : ℚ) :
    H.wr_num (some a) v = some (H.st_num a v) := rfl

@[simp] theorem wr_next_some (H : Heap) (a : Nat) (v : Option Nat) :
    H.wr_next (some a) v = some (H.st_next a v) := rfl

@[simp] theorem wr_prev_some (H : Heap) (a : Nat) (v : Option Nat) :
    H.wr_prev (some a) v = some (H.st_prev a v) := rfl

@[simp] theorem wr_num_none (H : Heap) (v : ℚ) : H.wr_num none v = none := rfl

@[simp] theorem wr_next_none (H : Heap) (v : Option Nat) : H.wr_next none v = none := rfl

@[simp] theorem wr_prev_none (H : Heap) (v : Option Nat) : H.wr_prev none v = none := rfl

/-- Two heaps with the same fields everywhere and the same `brk` are equal. -/
theorem ext_fields {H1 H2 : Heap} (hnm : H1.nm = H2.nm) (hnx : H1.nx = H2.nx)
    (hpv : H1.pv = H2.pv) (hbrk : H1.brk = H2.brk) : H1 = H2 := by
  cases H1 with
  | mk c1 b1 =>
    cases H2 with
    | mk c2 b2 =>
      simp only [Heap.mk.injEq]
      refine ⟨?_, hbrk⟩
      funext a
      have h1 := congrFun hnm a
      have h2 := congrFun hnx a
      have h3 := congrFun hpv a
      simp only [nm, nx, pv] at h1 h2 h3
      cases hc1 : c1 a
      cases hc2 : c2 a
      simp_all

end Heap

/-! ## Paths -/

@[simp] theorem Path_nil (f : Nat → Option Nat) (p q : Option Nat) :
    Path f p [] q ↔ p = q := Iff.rfl

@[simp] theorem Path_cons (f : Nat → Option Nat) (p q : Option Nat) (a : Nat) (as : List Nat) :
    Path f p (a :: as) q ↔ p = some a ∧ Path f (f a) as q := Iff.rfl

theorem Path_append (f : Nat → Option Nat) (xs ys : List Nat) (p q : Option Nat) :
    Path f p (xs ++ ys) q ↔ ∃ m, Path f p xs m ∧ Path f m ys q := by
  induction xs generalizing p with
  | nil => simp
  | cons a as ih =>
    simp only [List.cons_append, Path_cons, ih]
    constructor
    · rintro ⟨h1, m, h2, h3⟩
      exact ⟨m, ⟨h1, h2⟩, h3⟩
    · rintro ⟨m, ⟨h1, h2⟩, h3⟩
      exact ⟨h1, m, h2, h3⟩

theorem Path_snoc (f : Nat → Option Nat) (xs : List Nat) (a : Nat) (p q : Option Nat) :
    Path f p (xs ++ [a]) q ↔ Path f p xs (some a) ∧ f a = q := by
  rw [Path_append]
  constructor
  · rintro ⟨m, h1, h2, h3⟩
    subst h2
    exact ⟨h1, h3⟩
  · rintro ⟨h1, h2⟩
    exact ⟨some a, h1, rfl, h2⟩

theorem Path_congr {f g : Nat → Option Nat} {xs : List Nat} (h : ∀ x ∈ xs, f x = g x)
    (p q : Option Nat) : Path f p xs q ↔ Path g p xs q := by
  induction xs generalizing p with
  | nil => simp
  | cons a as ih =>
    have ha : f a = g a := h a (List.mem_cons_self a as)
    have has : ∀ x ∈ as, f x = g x := fun x hx => h x (List.mem_cons_of_mem a hx)
    simp only [Path_cons, ha, ih has]

@[simp] theorem Path_update_of_not_mem {f : Nat → Option Nat} {xs : List Nat} {a : Nat}
    (h : a ∉ xs) (v p q : Option Nat) :
    Path (Function.update f a v) p xs q ↔ Path f p xs q := by
  apply Path_congr
  intro x hx
  have : x ≠ a := fun e => h (e ▸ hx)
  simp [Function.update, this]

theorem Path_unique {f : Nat → Option Nat} {xs : List Nat} {p q1 q2 : Option Nat}
    (h1 : Path f p xs q1) (h2 : Path f p xs q2) : q1 = q2 := by
  induction xs generalizing p with
  | nil => simp at h1 h2; rw [← h1, ← h2]
  | cons a as ih => exact ih h1.2 h2.2

theorem Path_head {f : Nat → Option Nat} {xs : List Nat} {p q : Option Nat} {a : Nat}
    (h : Path f p (a :: xs) q) : p = some a := h.1

/-! ## Aggregate maintenance -/

theorem fl_update_measures_add (H : Heap) (l : flist_type) (n : ℚ) (add : Int)
    (hadd : add ≠ 0) : fl_update_measures H l n add = some (H, upd_add l n) := by
  simp [fl_update_measures, hadd, upd_add]

theorem fl_update_measures_sub (H : Heap) (l : flist_type) (n : ℚ) (hlen : 2 ≤ l.len) :
    fl_update_measures H l n 0 = some (H, upd_sub l n) := by
  have h : ¬ l.len ≤ 1 := by omega
  simp [fl_update_measures, h, upd_sub]

theorem fl_update_measures_collapse (H : Heap) (l : flist_type) (n : ℚ) (a : Nat)
    (hlen : l.len ≤ 1) (hhead : l.head = some a) :
    fl_update_measures H l n 0 = some (H.st_num a 0,
      { l with len := 0, sum := 0, mean := 0, variance := 0, sumsq := 0 }) := by
  simp [fl_update_measures, hlen, hhead]

@[simp] theorem upd_add_head (l : flist_type) (n : ℚ) : (upd_add l n).head = l.head := rfl

@[simp] theorem upd_add_tail (l : flist_type) (n : ℚ) : (upd_add l n).tail = l.tail := rfl

@[simp] theorem upd_add_len (l : flist_type) (n : ℚ) : (upd_add l n).len = l.len + 1 := rfl

@[simp] theorem upd_add_sum (l : flist_type) (n : ℚ) : (upd_add l n).sum = l.sum + n := rfl

@[simp] theorem upd_add_sumsq (l : flist_type) (n : ℚ) :
    (upd_add l n).sumsq = l.sumsq + n * n := rfl

@[simp] theorem upd_sub_head (l : flist_type) (n : ℚ) : (upd_sub l n).head = l.head := rfl

@[simp] theorem upd_sub_tail (l : flist_type) (n : ℚ) : (upd_sub l n).tail = l.tail := rfl

@[simp] theorem upd_sub_len (l : flist_type) (n : ℚ) : (upd_sub l n).len = l.len - 1 := rfl

@[simp] theorem upd_sub_sum (l : flist_type) (n : ℚ) : (upd_sub l n).sum = l.sum - n := rfl

@[simp] theorem upd_sub_sumsq (l : flist_type) (n : ℚ) :
    (upd_sub l n).sumsq = l.sumsq - n * n := rfl

theorem measuresAdd_upd_add (l : flist_type) (n : ℚ) : MeasuresAdd l (upd_add l n) n :=
  ⟨rfl, rfl, rfl, rfl, rfl⟩

theorem measuresSub_upd_sub (l : flist_type) (n : ℚ) : MeasuresSub l (upd_sub l n) n :=
  ⟨rfl, rfl, rfl, rfl, rfl⟩

/-- C1: `fl_update_measures` follows the aggregate-maintenance contract.  For every heap,
container and value `v`: with a non-zero `add` flag the call returns the container with
`len + 1`, `sum + v`, `sumsq + v * v`; with the flag `0` on a container with `len >= 2` it
returns the container with `len - 1`, `sum - v`, `sumsq - v * v`.  In both cases the new
`mean` is the new `sum / len` and the new `variance` is the new
`sumsq / len - mean * mean` (exact rational arithmetic), and the heap, `head` and `tail`
are untouched. -/
theorem C1_update_measures (H : Heap) (l : flist_type) (v : ℚ) :
    (∀ add : Int, add ≠ 0 → ∃ l2, fl_update_measures H l v add = some (H, l2) ∧
      l2.len = l.len + 1 ∧ l2.sum = l.sum + v ∧ l2.sumsq = l.sumsq + v * v ∧
      l2.mean = l2.sum / l2.len ∧ l2.variance = l2.sumsq / l2.len - l2.mean * l2.mean ∧
      l2.head = l.head ∧ l2.tail = l.tail) ∧
    (2 ≤ l.len → ∃ l2, fl_update_measures H l v 0 = some (H, l2) ∧
      l2.len = l.len - 1 ∧ l2.sum = l.sum - v ∧ l2.sumsq = l.sumsq - v * v ∧
      l2.mean = l2.sum / l2.len ∧ l2.variance = l2.sumsq / l2.len - l2.mean * l2.mean ∧
      l2.head = l.head ∧ l2.tail = l.tail) := by
  refine ⟨fun add hadd => ⟨upd_add l v, fl_update_measures_add H l v add hadd, ?_⟩,
    fun hlen => ⟨upd_sub l v, fl_update_measures_sub H l v hlen, ?_⟩⟩
  · exact ⟨rfl, rfl, rfl, rfl, rfl, rfl, rfl⟩
  · exact ⟨rfl, rfl, rfl, rfl, rfl, rfl, rfl⟩

/-- C1 at a concrete input: the container with `len = 3`, `sum = 6`, `sumsq = 14` and the
value `3`; the add gives `len = 4`, `sum = 9`, and the remove gives `len = 2`, `sum = 3`,
`sumsq = 5`, `mean = 3 / 2`, `variance = 5 / 2 - 9 / 4`. -/
theorem C1_update_measures_witness :
    (∃ l2, fl_update_measures H0 ⟨none, none, 2, 2 / 3, 14, 6, 3⟩ 3 1 = some (H0, l2) ∧
      l2.len = 4 ∧ l2.sum = 9 ∧ l2.sumsq = 23 ∧ l2.mean = 9 / 4) ∧
    (∃ l2, fl_update_measures H0 ⟨none, none, 2, 2 / 3, 14, 6, 3⟩ 3 0 = some (H0, l2) ∧
      l2.len = 2 ∧ l2.sum = 3 ∧ l2.sumsq = 5 ∧ l2.mean = 3 / 2 ∧ l2.variance = 1 / 4) := by
  have h := C1_update_measures H0 ⟨none, none, 2, 2 / 3, 14, 6, 3⟩ 3
  obtain ⟨l2, h1, h2, h3, h4, h5, -⟩ := h.1 1 (by decide)
  obtain ⟨l3, g1, g2, g3, g4, g5, g6, -⟩ := h.2 (by decide)
  refine ⟨⟨l2, h1, ?_, ?_, ?_, ?_⟩, ⟨l3, g1, ?_, ?_, ?_, ?_, ?_⟩⟩
  · simpa using h2
  · rw [h3]; norm_num
  · rw [h4]; norm_num
  · rw [h5, h3, h2]; norm_num
  · simpa using g2
  · rw [g3]; norm_num
  · rw [g4]; norm_num
  · rw [g5, g3, g2]; norm_num
  · rw [g6, g5, g4, g3, g2]; norm_num

/-! ## Well-formed containers -/

theorem Path_retarget {f g : Nat → Option Nat} {ns : List Nat} {p q : Option Nat} {t : Nat}
    (hp : Path f p ns q) (hnd : ns.Nodup) (ht : ns.getLast? = some t)
    (hg : ∀ x ∈ ns, x ≠ t → g x = f x) : Path g p ns (g t) := by
  obtain ⟨xs, rfl⟩ := List.getLast?_eq_some_iff.mp ht
  rw [Path_snoc] at hp ⊢
  have htx : t ∉ xs := by
    intro hmem
    have := List.disjoint_of_nodup_append hnd hmem
    simp at this
  refine ⟨(Path_congr ?_ p (some t)).mpr hp.1, rfl⟩
  intro x hx
  exact hg x (List.mem_append_left _ hx) (fun e => htx (e ▸ hx))

theorem WellFormed.nil_iff {H : Heap} {l : flist_type} {ns : List Nat}
    (h : WellFormed H l ns) : l.head = none ↔ ns = [] := by
  rw [h.head_eq]; cases ns <;> simp

theorem WellFormed.len_zero_iff {H : Heap} {l : flist_type} {ns : List Nat}
    (h : WellFormed H l ns) : l.len = 0 ↔ ns = [] := by
  rw [h.len_eq]; cases ns <;> simp
  omega

/-- A non-empty well-formed container has a head node and a tail node. -/
theorem WellFormed.ends {H : Heap} {l : flist_type} {ns : List Nat}
    (h : WellFormed H l ns) (hne : ns ≠ []) :
    ∃ a t, l.head = some a ∧ l.tail = some t ∧ ns.head? = some a ∧ ns.getLast? = some t := by
  refine ⟨ns.head hne, ns.getLast hne, ?_, ?_, ?_, ?_⟩
  · rw [h.head_eq, List.head?_eq_head]
  · rw [h.tail_eq, List.getLast?_eq_getLast]
  · rw [List.head?_eq_head]
  · rw [List.getLast?_eq_getLast]

theorem mem_of_head? {ns : List Nat} {a : Nat} (h : ns.head? = some a) : a ∈ ns :=
  List.mem_of_mem_head? h

theorem mem_of_getLast? {ns : List Nat} {a : Nat} (h : ns.getLast? = some a) : a ∈ ns :=
  List.mem_of_mem_getLast? h

theorem fl_append_spec {H : Heap} {l : flist_type} {ns : List Nat}
    (hwf : WellFormed H l ns) (n : ℚ) :
    ∃ H2 l2, fl_append H l n = some (H2, l2) ∧ WellFormed H2 l2 (ns ++ [H.brk]) ∧
      H2.nm = Function.update H.nm H.brk n ∧ H2.brk = H.brk + 1 ∧
      (∀ x, x ≠ H.brk → x ∉ ns → H2.nx x = H.nx x ∧ H2.pv x = H.pv x) ∧
      SameMeasures l2 (upd_add l n) := by
  have hb : H.brk ∉ ns := fun hm => lt_irrefl _ (hwf.fresh _ hm)
  by_cases hne : ns = []
  · subst hne
    have hh : l.head = none := hwf.nil_iff.mpr rfl
    refine ⟨_, _, by simp [fl_append, fl_make_node, hh, fl_update_measures_add]; exact ⟨rfl, rfl⟩, ?_⟩
    have hl := hwf.len_eq
    refine ⟨⟨?_, ?_, ?_, ?_, ?_, ?_, ?_⟩, ?_, ?_, ?_, ⟨rfl, rfl, rfl, rfl, rfl⟩⟩
    all_goals simp_all
  · obtain ⟨a, t, hh, ht, ha, hlast⟩ := hwf.ends hne
    have hl0 : l.len ≠ 0 := fun h => hne (hwf.len_zero_iff.mp h)
    have hamem := mem_of_head? ha
    have htmem := mem_of_getLast? hlast
    have hab : a ≠ H.brk := fun e => hb (e ▸ hamem)
    have htb : t ≠ H.brk := fun e => hb (e ▸ htmem)
    refine ⟨_, _, by simp [fl_append, fl_make_node, hh, ht, hl0, fl_update_measures_add]; exact ⟨rfl, rfl⟩, ?_⟩
    refine ⟨⟨?_, ?_, ?_, ?_, ?_, ?_, ?_⟩, ?_⟩
    · simp [hwf.len_eq]
    · simp [List.nodup_append, hwf.nodup, hb]
    · intro x hx
      simp at hx
      rcases hx with hx | hx
      · have := hwf.fresh x hx
        simp; omega
      · simp [hx]
    · simp [hh, List.head?_append_of_ne_nil _ hne, ha]
    · simp
    · simp only [upd_add_head, hh, Path_snoc, Heap.nx_st_prev, Heap.nx_st_next, Heap.nx_alloc]
      refine ⟨?_, by simp [Function.update, htb.symm]⟩
      have h1 := hwf.next_cycle
      rw [hh] at h1
      have := Path_retarget (g := Function.update (Function.update (Function.update H.nx H.brk none) H.brk (some a)) t (some H.brk)) h1 hwf.nodup hlast ?_
      · simpa using this
      · intro x hx hxt
        have : x ≠ H.brk := fun e => hb (e ▸ hx)
        simp [Function.update, hxt, this]
    · simp only [upd_add_tail, List.reverse_append, List.reverse_singleton, List.singleton_append, Path_cons, true_and, Heap.pv_st_prev, Heap.pv_st_next, Heap.pv_alloc]
      have h1 := hwf.prev_cycle
      rw [ht] at h1
      have := Path_retarget (g := Function.update (Function.update (Function.update H.pv H.brk none) H.brk (some t)) a (some H.brk)) h1 (List.nodup_reverse.mpr hwf.nodup) (by simpa using ha) ?_
      · simpa [Function.update, hab.symm] using this
      · intro x hx hxa
        have : x ≠ H.brk := fun e => hb (e ▸ (by simpa using hx))
        simp [Function.update, hxa, this]
    · refine ⟨by simp, by simp, ?_, ⟨rfl, rfl, rfl, rfl, rfl⟩⟩
      intro x hx hxn
      have hxa : x ≠ a := fun e => hxn (e ▸ hamem)
      have hxt : x ≠ t := fun e => hxn (e ▸ htmem)
      simp [Function.update, hx, hxa, hxt]

theorem WellFormed.alloc_nil {H : Heap} {l : flist_type} (h : WellFormed H l []) (n : ℚ) :
    WellFormed (H.alloc n) l [] :=
  ⟨h.len_eq, h.nodup, by simp, h.head_eq, h.tail_eq, by simp [h.next_cycle],
    by simp [h.prev_cycle]⟩

theorem fl_push_spec {H : Heap} {l : flist_type} {ns : List Nat}
    (hwf : WellFormed H l ns) (n : ℚ) :
    ∃ H2 l2 b, fl_push H l n = some (H2, l2) ∧ WellFormed H2 l2 (b :: ns) ∧
      H.brk ≤ b ∧ H.brk ≤ H2.brk ∧ H2.nm b = n ∧
      (∀ x, x < H.brk → H2.nm x = H.nm x) ∧
      (∀ x, x < H.brk → x ∉ ns → H2.nx x = H.nx x ∧ H2.pv x = H.pv x) ∧
      SameMeasures l2 (upd_add l n) := by
  have hb : H.brk ∉ ns := fun hm => lt_irrefl _ (hwf.fresh _ hm)
  by_cases hne : ns = []
  · subst hne
    have hh : l.head = none := hwf.nil_iff.mpr rfl
    obtain ⟨H2, l2, h1, h2, h3, h4, h5, h6⟩ := fl_append_spec (hwf.alloc_nil n) n
    refine ⟨H2, l2, H.brk + 1, by simpa [fl_push, fl_make_node, hh] using h1, by simpa using h2,
      by simp, by simp [h4]; omega, by simp [h3], ?_, ?_, h6⟩
    · intro x hx
      have h7 : x ≠ H.brk + 1 := by omega
      have h8 : x ≠ H.brk := by omega
      simp [h3, Function.update, h7, h8]
    · intro x hx _
      have h7 : x ≠ H.brk + 1 := by omega
      have h8 : x ≠ H.brk := by omega
      have := h5 x (by simpa using h7) (by simp)
      simpa [Function.update, h8] using this
  · obtain ⟨a, t, hh, ht, ha, hlast⟩ := hwf.ends hne
    have hamem := mem_of_head? ha
    have htmem := mem_of_getLast? hlast
    have hab : a ≠ H.brk := fun e => hb (e ▸ hamem)
    have htb : t ≠ H.brk := fun e => hb (e ▸ htmem)
    refine ⟨_, _, H.brk, by simp [fl_push, fl_make_node, hh, ht, fl_update_measures_add]; exact ⟨rfl, rfl⟩, ?_⟩
    refine ⟨⟨?_, ?_, ?_, ?_, ?_, ?_, ?_⟩, ?_⟩
    · simp [hwf.len_eq]
    · simp [hwf.nodup, hb]
    · intro x hx
      simp at hx
      rcases hx with hx | hx
      · simp [hx]
      · have := hwf.fresh x hx
        simp; omega
    · simp
    · obtain ⟨ys, rfl⟩ := List.head?_eq_some_iff.mp ha
      simp [ht, List.getLast?_cons_cons, hlast]
    · simp only [upd_add_head, Path_cons, true_and, Heap.nx_st_prev, Heap.nx_st_next, Heap.nx_alloc]
      have h1 := hwf.next_cycle
      rw [hh] at h1
      have := Path_retarget (g := Function.update (Function.update (Function.update H.nx H.brk none) H.brk (some a)) t (some H.brk)) h1 hwf.nodup hlast ?_
      · simpa [Function.update, htb.symm] using this
      · intro x hx hxt
        have : x ≠ H.brk := fun e => hb (e ▸ hx)
        simp [Function.update, hxt, this]
    · simp only [upd_add_tail, List.reverse_cons, Path_snoc, Heap.pv_st_prev, Heap.pv_st_next, Heap.pv_alloc]
      have h1 := hwf.prev_cycle
      rw [ht] at h1
      have := Path_retarget (g := Function.update (Function.update (Function.update H.pv H.brk none) H.brk (some t)) a (some H.brk)) h1 (List.nodup_reverse.mpr hwf.nodup) (by simpa using ha) ?_
      · refine ⟨by simpa using this, by simp [Function.update, hab.symm, ht]⟩
      · intro x hx hxa
        have : x ≠ H.brk := fun e => hb (e ▸ (by simpa using hx))
        simp [Function.update, hxa, this]
    · refine ⟨le_refl _, by simp, by simp, ?_, ?_, ⟨rfl, rfl, rfl, rfl, rfl⟩⟩
      · intro x hx
        have : x ≠ H.brk := by omega
        simp [Function.update, this]
      · intro x hx hxn
        have hxa : x ≠ a := fun e => hxn (e ▸ hamem)
        have hxt : x ≠ t := fun e => hxn (e ▸ htmem)
        have : x ≠ H.brk := by omega
        simp [Function.update, this, hxa, hxt]

theorem vals_congr (H1 : Heap) {H2 : Heap} {ns : List Nat}
    (h : ∀ x ∈ ns, H2.nm x = H1.nm x) : vals H2 ns = vals H1 ns := by
  unfold vals
  exact List.map_congr_left h

@[simp] theorem vals_nil (H : Heap) : vals H [] = [] := rfl

@[simp] theorem vals_cons (H : Heap) (a : Nat) (ns : List Nat) :
    vals H (a :: ns) = H.nm a :: vals H ns := rfl

@[simp] theorem vals_append (H : Heap) (xs ys : List Nat) :
    vals H (xs ++ ys) = vals H xs ++ vals H ys := by
  simp [vals]

@[simp] theorem vals_length (H : Heap) (ns : List Nat) : (vals H ns).length = ns.length := by
  simp [vals]

theorem wellFormed_ex2 : WellFormed H2ex l2ex [1, 0] :=
  ⟨rfl, by decide, by decide, rfl, rfl, by simp [H2ex, l2ex, Heap.nx],
    by simp [H2ex, l2ex, Heap.pv]⟩

/-- C2: on a well-formed container with nodes `ns` from head to tail, `fl_append(v)`
returns a well-formed container whose nodes are `ns` followed by one new node and whose
value sequence is the old one followed by `v`, and `fl_push(v)` returns a well-formed
container whose nodes are one new node followed by `ns` and whose value sequence is `v`
followed by the old one; in both cases `len` grows by 1 and `sum` by `v`. -/
theorem C2_append_push (H : Heap) (l : flist_type) (ns : List Nat) (v : ℚ)
    (hwf : WellFormed H l ns) :
    (∃ H2 l2 b, fl_append H l v = some (H2, l2) ∧ WellFormed H2 l2 (ns ++ [b]) ∧
      vals H2 (ns ++ [b]) = vals H ns ++ [v] ∧ l2.len = l.len + 1 ∧ l2.sum = l.sum + v) ∧
    (∃ H2 l2 b, fl_push H l v = some (H2, l2) ∧ WellFormed H2 l2 (b :: ns) ∧
      vals H2 (b :: ns) = v :: vals H ns ∧ l2.len = l.len + 1 ∧ l2.sum = l.sum + v) := by
  constructor
  · obtain ⟨H2, l2, h1, h2, h3, -, -, h6⟩ := fl_append_spec hwf v
    refine ⟨H2, l2, H.brk, h1, h2, ?_, h6.2.2.2.2, h6.2.2.2.1⟩
    have hb : H.brk ∉ ns := fun hm => lt_irrefl _ (hwf.fresh _ hm)
    rw [vals_append, vals_congr H]
    · simp [h3]
    · intro x hx
      have : x ≠ H.brk := fun e => hb (e ▸ hx)
      simp [h3, Function.update, this]
  · obtain ⟨H2, l2, b, h1, h2, -, -, h3, h4, -, h6⟩ := fl_push_spec hwf v
    refine ⟨H2, l2, b, h1, h2, ?_, h6.2.2.2.2, h6.2.2.2.1⟩
    rw [vals_cons, h3, vals_congr H]
    exact fun x hx => h4 x (hwf.fresh x hx)

/-- C2 at a concrete input: the container `[10, 65]` built by append 65, push 10, and the
value `20`. -/
theorem C2_append_push_witness :
    WellFormed H2ex l2ex [1, 0] ∧
    (∃ H2 l2 b, fl_append H2ex l2ex 20 = some (H2, l2) ∧ WellFormed H2 l2 ([1, 0] ++ [b]) ∧
      vals H2 ([1, 0] ++ [b]) = vals H2ex [1, 0] ++ [20] ∧ l2.len = l2ex.len + 1 ∧
      l2.sum = l2ex.sum + 20) ∧
    (∃ H2 l2 b, fl_push H2ex l2ex 20 = some (H2, l2) ∧ WellFormed H2 l2 (b :: [1, 0]) ∧
      vals H2 (b :: [1, 0]) = 20 :: vals H2ex [1, 0] ∧ l2.len = l2ex.len + 1 ∧
      l2.sum = l2ex.sum + 20) :=
  ⟨wellFormed_ex2, C2_append_push H2ex l2ex [1, 0] 20 wellFormed_ex2⟩

/-! ## Indexed traversal -/

theorem Path_getElem?_succ {f : Nat → Option Nat} {ns : List Nat} {p q : Option Nat}
    (hp : Path f p ns q) {i x : Nat} (hx : ns[i]? = some x) (hi : i + 1 < ns.length) :
    f x = ns[i + 1]? := by
  induction ns generalizing p i with
  | nil => simp at hi
  | cons a as ih =>
    cases i with
    | zero =>
      simp at hx
      subst hx
      cases as with
      | nil => simp at hi
      | cons b bs => simpa using hp.2.1
    | succ j =>
      simp at hx hi
      simpa using ih hp.2 hx (by omega)

theorem WellFormed.next_getElem? {H : Heap} {l : flist_type} {ns : List Nat}
    (h : WellFormed H l ns) {i x : Nat} (hx : ns[i]? = some x) (hi : i + 1 < ns.length) :
    H.nx x = ns[i + 1]? :=
  Path_getElem?_succ h.next_cycle hx hi

theorem WellFormed.prev_getElem? {H : Heap} {l : flist_type} {ns : List Nat}
    (h : WellFormed H l ns) {i x : Nat} (hx : ns[i + 1]? = some x) (hi : i + 1 < ns.length) :
    H.pv x = ns[i]? := by
  have h1 : ns.reverse[ns.length - 1 - (i + 1)]? = some x := by
    rw [List.getElem?_reverse (by omega)]
    rw [← hx]; congr 1; omega
  have h2 := Path_getElem?_succ h.prev_cycle h1 (by simp; omega)
  rw [h2, List.getElem?_reverse (by omega)]
  congr 1; omega

theorem fl_get_kth_fwd_spec {H : Heap} {l : flist_type} {ns : List Nat}
    (hwf : WellFormed H l ns) (k : Nat) (hk : k < ns.length) (fuel i : Nat) (hi : i ≤ k)
    (hfuel : k - i ≤ fuel) :
    fl_get_kth_fwd H k ns.length fuel i ns[i]? = some ns[k]? := by
  induction fuel generalizing i with
  | zero =>
    have : i = k := by omega
    subst this
    simp [fl_get_kth_fwd]
  | succ fuel ih =>
    by_cases hik : i = k
    · subst hik
      simp [fl_get_kth_fwd]
    · have h1 : i < k := by omega
      have h2 : i < ns.length := by omega
      obtain ⟨x, hx⟩ : ∃ x, ns[i]? = some x := ⟨ns[i], by simp [h2]⟩
      have h3 := hwf.next_getElem? hx (by omega)
      have h4 := ih (i + 1) (by omega) (by omega)
      simp only [Nat.cast_add, Nat.cast_one] at h4
      simp [fl_get_kth_fwd, h1, h2, hx, h3, h4]

theorem fl_get_kth_back_spec {H : Heap} {l : flist_type} {ns : List Nat}
    (hwf : WellFormed H l ns) (k : Nat) (fuel i : Nat) (hi : k ≤ i)
    (hin : i < ns.length) (hfuel : i - k ≤ fuel) :
    fl_get_kth_back H k fuel (i + 1 : Nat) ns[i]? = some ns[k]? := by
  induction fuel generalizing i with
  | zero =>
    have : i = k := by omega
    subst this
    simp [fl_get_kth_back]
  | succ fuel ih =>
    by_cases hik : i = k
    · subst hik
      simp [fl_get_kth_back]
    · obtain ⟨j, rfl⟩ : ∃ j, i = j + 1 := ⟨i - 1, by omega⟩
      obtain ⟨x, hx⟩ : ∃ x, ns[j + 1]? = some x := ⟨ns[j + 1], by simp [hin]⟩
      have h3 := hwf.prev_getElem? hx hin
      have h4 := ih j (by omega) (by omega) (by omega)
      have h5 : (k : Int) + 1 < (j : Int) + 1 + 1 := by omega
      have h6 : (0 : Int) < (j : Int) + 1 + 1 := by omega
      simp only [Nat.cast_add, Nat.cast_one] at h4
      simp [fl_get_kth_back, h5, h6, hx, h3, h4]

theorem fl_get_kth_spec {H : Heap} {l : flist_type} {ns : List Nat}
    (hwf : WellFormed H l ns) (k : Nat) (hk : k < ns.length) :
    fl_get_kth H l k = some ns[k]? := by
  have hne : ns ≠ [] := by rintro rfl; simp at hk
  obtain ⟨a, t, hh, ht, ha, hlast⟩ := hwf.ends hne
  have h0 : ns[0]? = l.head := by rw [hwf.head_eq]; cases ns <;> simp
  have hl : ns[ns.length - 1]? = l.tail := by
    rw [hwf.tail_eq, List.getLast?_eq_getElem?]
  unfold fl_get_kth
  rw [if_neg (by simp [hh])]
  split
  · have := fl_get_kth_back_spec hwf k ns.length (ns.length - 1) (by omega) (by omega) (by omega)
    rw [hl] at this
    have e : ((ns.length - 1 : Nat) + 1 : Nat) = ns.length := by omega
    rw [e] at this
    simpa [hwf.len_eq] using this
  · have := fl_get_kth_fwd_spec hwf k hk ns.length 0 (by omega) (by omega)
    rw [h0] at this
    simpa [hwf.len_eq] using this

theorem Path_follow {H : Heap} {ns : List Nat} {p q : Option Nat}
    (hp : Path H.nx p ns q) {k : Nat} (hk : k < ns.length) : follow H k p = ns[k]? := by
  induction k generalizing p ns with
  | zero =>
    cases ns with
    | nil => simp at hk
    | cons a as => simp [follow, hp.1]
  | succ k ih =>
    cases ns with
    | nil => simp at hk
    | cons a as =>
      simp at hk
      simp [follow, hp.1, ih hp.2 hk]

/-- C3: on a well-formed non-empty container with nodes `ns` from head to tail and
`0 <= k < len`, `fl_get_kth(l, k)` returns the node at position `k` of `ns`, which is the
node reached from the head by `k` next-links, whichever branch of the function runs. -/
theorem C3_get_kth (H : Heap) (l : flist_type) (ns : List Nat) (k : Int)
    (hwf : WellFormed H l ns) (hk0 : 0 ≤ k) (hk : k < l.len) :
    ∃ a, ns[k.toNat]? = some a ∧ follow H k.toNat l.head = some a ∧
      fl_get_kth H l k = some (some a) := by
  obtain ⟨j, rfl⟩ := Int.eq_ofNat_of_zero_le hk0
  have hj : j < ns.length := by
    have := hwf.len_eq
    omega
  refine ⟨ns[j], by simp [hj], ?_, ?_⟩
  · simp [Path_follow hwf.next_cycle hj, hj]
  · rw [fl_get_kth_spec hwf j hj]
    simp [hj]

/-- C3 at a concrete input: position `1` of the container `[10, 65]`. -/
theorem C3_get_kth_witness :
    WellFormed H2ex l2ex [1, 0] ∧ (0 : Int) ≤ 1 ∧ (1 : Int) < l2ex.len ∧
    ∃ a, [1, 0][(1 : Int).toNat]? = some a ∧ follow H2ex (1 : Int).toNat l2ex.head = some a ∧
      fl_get_kth H2ex l2ex 1 = some (some a) :=
  ⟨wellFormed_ex2, by decide, by decide,
    C3_get_kth H2ex l2ex [1, 0] 1 wellFormed_ex2 (by decide) (by decide)⟩

/-! ## The fuel of `fl_get_kth` always suffices -/

theorem fl_get_kth_back_succ (H : Heap) (k : Int) (fuel : Nat) (i : Int) (nd : Option Nat) :
    fl_get_kth_back H k (fuel + 1) i nd =
      if i > k + 1 ∧ i > 0 then
        (H.rd_prev nd).bind fun p => fl_get_kth_back H k fuel (i - 1) p
      else some nd := rfl

theorem fl_get_kth_fwd_succ (H : Heap) (k l_len : Int) (fuel : Nat) (i : Int)
    (nd : Option Nat) :
    fl_get_kth_fwd H k l_len (fuel + 1) i nd =
      if i < k ∧ i < l_len then
        (H.rd_next nd).bind fun p => fl_get_kth_fwd H k l_len fuel (i + 1) p
      else some nd := rfl

theorem fl_get_kth_back_fuel (H : Heap) (k : Int) :
    ∀ (fuel : Nat) (i : Int) (nd : Option Nat), i ≤ fuel →
      fl_get_kth_back H k (fuel + 1) i nd = fl_get_kth_back H k fuel i nd := by
  intro fuel
  induction fuel with
  | zero =>
    intro i nd hi
    have h : ¬ (i > k + 1 ∧ i > 0) := by
      simp at hi
      omega
    simp [fl_get_kth_back, h]
  | succ f ih =>
    intro i nd hi
    rw [fl_get_kth_back_succ H k (f + 1), fl_get_kth_back_succ H k f]
    by_cases h : i > k + 1 ∧ i > 0
    · rw [if_pos h, if_pos h]
      cases nd with
      | none => rfl
      | some a => exact ih (i - 1) (H.pv a) (by push_cast at hi; omega)
    · rw [if_neg h, if_neg h]

theorem fl_get_kth_fwd_fuel (H : Heap) (k l_len : Int) :
    ∀ (fuel : Nat) (i : Int) (nd : Option Nat), l_len - i ≤ fuel →
      fl_get_kth_fwd H k l_len (fuel + 1) i nd = fl_get_kth_fwd H k l_len fuel i nd := by
  intro fuel
  induction fuel with
  | zero =>
    intro i nd hi
    have h : ¬ (i < k ∧ i < l_len) := by
      simp at hi
      omega
    simp [fl_get_kth_fwd, h]
  | succ f ih =>
    intro i nd hi
    rw [fl_get_kth_fwd_succ H k l_len (f + 1), fl_get_kth_fwd_succ H k l_len f]
    by_cases h : i < k ∧ i < l_len
    · rw [if_pos h, if_pos h]
      cases nd with
      | none => rfl
      | some a => exact ih (i + 1) (H.nx a) (by push_cast at hi; omega)
    · rw [if_neg h, if_neg h]

/-! ## Removal at the ends -/

theorem fl_pop_spec {H : Heap} {l : flist_type} {a : Nat} {rest : List Nat}
    (hwf : WellFormed H l (a :: rest)) (hne : rest ≠ []) :
    ∃ H2 l2, fl_pop H l = some (H2, l2, H.nm a) ∧ WellFormed H2 l2 rest ∧
      H2.nm = H.nm ∧ H2.brk = H.brk ∧ l2.head = rest.head? ∧ l2.tail = l.tail ∧
      SameMeasures l2 (upd_sub l (H.nm a)) := by
  obtain ⟨a1, t, ha1, hlast⟩ : ∃ a1 t, rest.head? = some a1 ∧ rest.getLast? = some t :=
    ⟨rest.head hne, rest.getLast hne, List.head?_eq_head hne, List.getLast?_eq_getLast _ hne⟩
  have hh : l.head = some a := by simp [hwf.head_eq]
  have ht : l.tail = some t := by
    rw [hwf.tail_eq]
    obtain ⟨ys, rfl⟩ := List.head?_eq_some_iff.mp ha1
    simpa [List.getLast?_cons_cons] using hlast
  have hlen : 2 ≤ l.len := by
    have := hwf.len_eq
    obtain ⟨ys, rfl⟩ := List.head?_eq_some_iff.mp ha1
    simp at this; omega
  have hnd := hwf.nodup
  rw [List.nodup_cons] at hnd
  have hnext := hwf.next_cycle
  rw [hh, Path_cons] at hnext
  have hna : H.nx a = some a1 := by
    obtain ⟨ys, rfl⟩ := List.head?_eq_some_iff.mp ha1
    exact hnext.2.1
  have hprev := hwf.prev_cycle
  rw [ht, List.reverse_cons, Path_snoc] at hprev
  have hta : a ≠ t := fun e => hnd.1 (e ▸ mem_of_getLast? hlast)
  have h0 : l.len ≠ 0 := by omega
  have h1 : l.len ≠ 1 := by omega
  refine ⟨_, _, by simp [fl_pop, hh, ht, h0, h1, hna, Function.update, hta, fl_update_measures_sub, hlen]; exact ⟨rfl, rfl⟩, ?_⟩
  refine ⟨⟨?_, hnd.2, ?_, ?_, ?_, ?_, ?_⟩, by simp, by simp, by simp [ha1], by simp [ht], ⟨rfl, rfl, rfl, rfl, rfl⟩⟩
  · have := hwf.len_eq
    simp at this ⊢; omega
  · intro x hx
    simpa using hwf.fresh x (List.mem_cons_of_mem _ hx)
  · simp [ha1]
  · simp [ht, hlast]
  · have := Path_retarget (g := Function.update H.nx t (some a1)) (hna ▸ hnext.2) hnd.2 hlast
      (fun x _ hxt => by simp [Function.update, hxt])
    simpa using this
  · have := Path_retarget (g := Function.update H.pv a1 (some t)) hprev.1
      (List.nodup_reverse.mpr hnd.2) (by simpa using ha1)
      (fun x _ hxt => by simp [Function.update, hxt])
    simpa [ht] using this

theorem fl_dequeue_spec {H : Heap} {l : flist_type} {t : Nat} {front : List Nat}
    (hwf : WellFormed H l (front ++ [t])) (hne : front ≠ []) :
    ∃ H2 l2, fl_dequeue H l = some (H2, l2, H.nm t) ∧ WellFormed H2 l2 front ∧
      H2.nm = H.nm ∧ H2.brk = H.brk ∧ l2.head = l.head ∧ l2.tail = front.getLast? ∧
      SameMeasures l2 (upd_sub l (H.nm t)) := by
  obtain ⟨a, t2, ha, hlast⟩ : ∃ a t2, front.head? = some a ∧ front.getLast? = some t2 :=
    ⟨front.head hne, front.getLast hne, List.head?_eq_head hne,
      List.getLast?_eq_getLast _ hne⟩
  have hh : l.head = some a := by
    rw [hwf.head_eq, List.head?_append_of_ne_nil _ hne, ha]
  have ht : l.tail = some t := by simp [hwf.tail_eq]
  have hlen : 2 ≤ l.len := by
    have := hwf.len_eq
    obtain ⟨ys, rfl⟩ := List.head?_eq_some_iff.mp ha
    simp at this; omega
  have hnd := hwf.nodup
  rw [List.nodup_append] at hnd
  have htf : t ∉ front := fun hm => by
    have := hnd.2.2 hm
    simp at this
  have hnext := hwf.next_cycle
  rw [hh, Path_snoc] at hnext
  have hprev := hwf.prev_cycle
  rw [ht, List.reverse_append, List.reverse_singleton, List.singleton_append, Path_cons]
    at hprev
  have hpt : H.pv t = some t2 := by
    obtain ⟨ys, hys⟩ := List.getLast?_eq_some_iff.mp hlast
    have h2 := hprev.2
    rw [hys] at h2
    simp only [List.reverse_append, List.reverse_singleton, List.singleton_append,
      Path_cons] at h2
    exact h2.1
  have hta : a ≠ t := fun e => htf (e ▸ mem_of_head? ha)
  have h0 : l.len ≠ 0 := by omega
  have h1 : l.len ≠ 1 := by omega
  refine ⟨_, _, by simp [fl_dequeue, hh, ht, h0, h1, hpt, Function.update, fl_update_measures_sub, hlen]; exact ⟨rfl, rfl⟩, ?_⟩
  refine ⟨⟨?_, hnd.1, ?_, ?_, ?_, ?_, ?_⟩, by simp, by simp, by simp [hh], by simp [hlast], ⟨rfl, rfl, rfl, rfl, rfl⟩⟩
  · have := hwf.len_eq
    simp at this ⊢; omega
  · intro x hx
    simpa using hwf.fresh x (List.mem_append_left _ hx)
  · simp [hh, ha]
  · simp [hlast]
  · have := Path_retarget (g := Function.update H.nx t2 (some a)) hnext.1 hnd.1 hlast
      (fun x _ hxt => by simp [Function.update, hxt])
    simpa [hh] using this
  · have := Path_retarget (g := Function.update H.pv a (some t2)) (hpt ▸ hprev.2)
      (List.nodup_reverse.mpr hnd.1) (by simpa using ha)
      (fun x _ hxt => by simp [Function.update, hxt])
    simpa [hh] using this

theorem vals_eq_of_nm_eq {H1 H2 : Heap} (h : H2.nm = H1.nm) (ns : List Nat) :
    vals H2 ns = vals H1 ns := by
  unfold vals; rw [h]

/-- C4: on a well-formed container with `len >= 2` and nodes `ns`, `fl_pop` returns the
first value of the sequence and leaves a well-formed container over `ns` without its first
node, and `fl_dequeue` returns the last value and leaves a well-formed container over `ns`
without its last node; the remaining values are unchanged, `len` drops by 1 and `sum` by
the returned value. -/
theorem C4_pop_dequeue (H : Heap) (l : flist_type) (ns : List Nat)
    (hwf : WellFormed H l ns) (hlen : 2 ≤ l.len) :
    (∃ H2 l2 r, fl_pop H l = some (H2, l2, r) ∧ (vals H ns).head? = some r ∧
      WellFormed H2 l2 ns.tail ∧ vals H2 ns.tail = (vals H ns).tail ∧
      l2.len = l.len - 1 ∧ l2.sum = l.sum - r) ∧
    (∃ H2 l2 r, fl_dequeue H l = some (H2, l2, r) ∧ (vals H ns).getLast? = some r ∧
      WellFormed H2 l2 ns.dropLast ∧ vals H2 ns.dropLast = (vals H ns).dropLast ∧
      l2.len = l.len - 1 ∧ l2.sum = l.sum - r) := by
  have hl := hwf.len_eq
  constructor
  · cases ns with
    | nil => simp at hl; omega
    | cons a rest =>
      have hne : rest ≠ [] := by rintro rfl; simp at hl; omega
      obtain ⟨H2, l2, h1, h2, h3, -, -, -, h5⟩ := fl_pop_spec hwf hne
      exact ⟨H2, l2, H.nm a, h1, by simp, h2, by simp [vals_eq_of_nm_eq h3],
        h5.2.2.2.2, h5.2.2.2.1⟩
  · rcases List.eq_nil_or_concat ns with rfl | ⟨front, t, rfl⟩
    · simp at hl; omega
    · rw [List.concat_eq_append] at hwf hl ⊢
      have hne : front ≠ [] := by rintro rfl; simp at hl; omega
      obtain ⟨H2, l2, h1, h2, h3, -, -, -, h5⟩ := fl_dequeue_spec hwf hne
      exact ⟨H2, l2, H.nm t, h1, by simp, by simpa using h2,
        by simp [vals_eq_of_nm_eq h3], h5.2.2.2.2, h5.2.2.2.1⟩

/-- C4 at a concrete input: the container `[10, 65]`. -/
theorem C4_pop_dequeue_witness :
    WellFormed H2ex l2ex [1, 0] ∧ 2 ≤ l2ex.len ∧
    (∃ H2 l2 r, fl_pop H2ex l2ex = some (H2, l2, r) ∧ (vals H2ex [1, 0]).head? = some r ∧
      WellFormed H2 l2 [1, 0].tail ∧ vals H2 [1, 0].tail = (vals H2ex [1, 0]).tail ∧
      l2.len = l2ex.len - 1 ∧ l2.sum = l2ex.sum - r) ∧
    (∃ H2 l2 r, fl_dequeue H2ex l2ex = some (H2, l2, r) ∧
      (vals H2ex [1, 0]).getLast? = some r ∧
      WellFormed H2 l2 [1, 0].dropLast ∧ vals H2 [1, 0].dropLast = (vals H2ex [1, 0]).dropLast ∧
      l2.len = l2ex.len - 1 ∧ l2.sum = l2ex.sum - r) :=
  ⟨wellFormed_ex2, by decide, C4_pop_dequeue H2ex l2ex [1, 0] wellFormed_ex2 (by decide)⟩

/-! ## Removal by index -/

theorem Path_first {f : Nat → Option Nat} {ns : List Nat} {p q : Option Nat} {a : Nat}
    (hp : Path f p ns q) (ha : ns.head? = some a) : p = some a := by
  obtain ⟨ys, rfl⟩ := List.head?_eq_some_iff.mp ha
  exact hp.1

theorem Path_last {f : Nat → Option Nat} {ns : List Nat} {p q : Option Nat} {t : Nat}
    (hp : Path f p ns q) (ht : ns.getLast? = some t) : f t = q := by
  obtain ⟨ys, rfl⟩ := List.getLast?_eq_some_iff.mp ht
  exact ((Path_snoc f ys t p q).mp hp).2

theorem nodup_mid {pre post : List Nat} {r : Nat} (h : (pre ++ r :: post).Nodup) :
    r ∉ pre ∧ r ∉ post ∧ pre.Nodup ∧ post.Nodup ∧ (∀ x ∈ pre, x ∉ post) ∧
      (pre ++ post).Nodup := by
  have h1 := List.nodup_middle.mp h
  have h2 := List.nodup_cons.mp h1
  have h3 := List.nodup_append.mp h2.2
  refine ⟨fun hm => h2.1 (List.mem_append_left _ hm), fun hm => h2.1 (List.mem_append_right _ hm),
    h3.1, h3.2.1, fun x hx hx2 => h3.2.2 hx hx2, h2.2⟩

theorem getElem?_mid (pre post : List Nat) (r : Nat) :
    (pre ++ r :: post)[pre.length]? = some r := by
  rw [List.getElem?_append_right (le_refl _)]
  simp

theorem fl_remove_index_mid_spec {H : Heap} {l : flist_type} {r : Nat} {pre post : List Nat}
    (hwf : WellFormed H l (pre ++ r :: post)) (hpre : pre ≠ []) (hpost : post ≠ []) :
    ∃ H2 l2, fl_remove_index H l pre.length = some (H2, l2, true) ∧
      WellFormed H2 l2 (pre ++ post) ∧ H2.nm = H.nm ∧ H2.brk = H.brk ∧
      l2.head = l.head ∧ l2.tail = l.tail ∧ SameMeasures l2 (upd_sub l (H.nm r)) := by
  obtain ⟨p, hp⟩ : ∃ p, pre.getLast? = some p :=
    ⟨pre.getLast hpre, List.getLast?_eq_getLast _ hpre⟩
  obtain ⟨y, hy⟩ : ∃ y, post.head? = some y := ⟨post.head hpost, List.head?_eq_head hpost⟩
  have hl := hwf.len_eq
  simp at hl
  have hprelen : 0 < pre.length := List.length_pos.mpr hpre
  have hpostlen : 0 < post.length := List.length_pos.mpr hpost
  obtain ⟨hr_pre, hr_post, hnd_pre, hnd_post, hdisj, hnd2⟩ := nodup_mid hwf.nodup
  have hpmem := mem_of_getLast? hp
  have hymem := mem_of_head? hy
  have hpr : p ≠ r := fun e => hr_pre (e ▸ hpmem)
  have hp_post : p ∉ post := hdisj p hpmem
  have hy_pre : y ∉ pre := fun hm => hdisj y hm hymem
  obtain ⟨m, hn1, hn2, hn3⟩ := (Path_append _ _ _ _ _).mp hwf.next_cycle
  subst hn2
  have hnr : H.nx r = some y := Path_first hn3 hy
  have hprev := hwf.prev_cycle
  simp only [List.reverse_append, List.reverse_cons, List.append_assoc, List.singleton_append,
    Path_append, Path_cons] at hprev
  obtain ⟨m, hp1, hp2, hp3⟩ := hprev
  subst hp2
  have hpvr : H.pv r = some p := Path_first hp3 (by simpa using hp)
  have hget : fl_get_kth H l (pre.length : Nat) = some (some r) := by
    rw [fl_get_kth_spec hwf _ (by simp), getElem?_mid]
  have c1 : ¬ ((pre.length : Int) > l.len) := by omega
  have c2 : ¬ ((pre.length : Int) = 0) := by omega
  have c3 : ¬ ((pre.length : Int) = l.len - 1) := by omega
  have hlen : 2 ≤ l.len := by omega
  refine ⟨_, _, by simp [fl_remove_index, c1, c2, c3, hget, hnr, hpvr, Function.update, hpr.symm, fl_update_measures_sub, hlen]; exact ⟨rfl, rfl⟩, ?_⟩
  refine ⟨⟨?_, hnd2, ?_, ?_, ?_, ?_, ?_⟩, by simp, by simp, by simp, by simp, ⟨rfl, rfl, rfl, rfl, rfl⟩⟩
  · simp; omega
  · intro x hx
    apply hwf.fresh x
    simp at hx ⊢
    tauto
  · simp [hwf.head_eq, List.head?_append_of_ne_nil _ hpre]
  · rw [upd_sub_tail, hwf.tail_eq, List.getLast?_append_of_ne_nil _ hpost,
      List.getLast?_append_of_ne_nil _ (by simp)]
    obtain ⟨ys, rfl⟩ := List.head?_eq_some_iff.mp hy
    simp [List.getLast?_cons_cons]
  · simp only [upd_sub_head, Heap.nx_st_prev, Heap.nx_st_next, Path_append]
    refine ⟨some y, ?_, ?_⟩
    · have := Path_retarget (g := Function.update H.nx p (some y)) hn1 hnd_pre hp
        (fun x _ hxt => by simp [Function.update, hxt])
      simpa using this
    · rw [Path_update_of_not_mem hp_post, ← hnr]
      exact hn3
  · simp only [upd_sub_tail, Heap.pv_st_prev, Heap.pv_st_next, List.reverse_append,
      Path_append]
    refine ⟨some p, ?_, ?_⟩
    · have := Path_retarget (g := Function.update H.pv y (some p)) hp1
        (List.nodup_reverse.mpr hnd_post) (by simpa using hy)
        (fun x _ hxt => by simp [Function.update, hxt])
      simpa using this
    · rw [Path_update_of_not_mem (by simpa using hy_pre), ← hpvr]
      exact hp3

theorem exists_split_at (ns : List Nat) (i : Nat) (hi : i < ns.length) :
    ∃ pre r post, ns = pre ++ r :: post ∧ pre.length = i := by
  refine ⟨ns.take i, ns[i], ns.drop (i + 1), ?_, by simp; omega⟩
  rw [← List.drop_eq_getElem_cons hi, List.take_append_drop]

theorem eraseIdx_mid {α : Type} (pre post : List α) (r : α) :
    (pre ++ r :: post).eraseIdx pre.length = pre ++ post := by
  induction pre with
  | nil => simp
  | cons a as ih => simp [ih]

theorem fl_remove_index_spec {H : Heap} {l : flist_type} {r : Nat} {pre post : List Nat}
    (hwf : WellFormed H l (pre ++ r :: post)) (hne : pre ≠ [] ∨ post ≠ []) :
    ∃ H2 l2, fl_remove_index H l pre.length = some (H2, l2, true) ∧
      WellFormed H2 l2 (pre ++ post) ∧ H2.nm = H.nm ∧ H2.brk = H.brk ∧
      SameMeasures l2 (upd_sub l (H.nm r)) := by
  have hl := hwf.len_eq
  simp at hl
  by_cases hpre : pre = []
  · subst hpre
    have hpost : post ≠ [] := by simpa using hne
    obtain ⟨H2, l2, h1, h2, h3, h4, -, -, h5⟩ := fl_pop_spec hwf hpost
    have c1 : ¬ (0 > l.len) := by omega
    exact ⟨H2, l2, by simp [fl_remove_index, c1, h1], by simpa using h2, h3, h4, h5⟩
  · by_cases hpost : post = []
    · subst hpost
      have hprelen : 0 < pre.length := List.length_pos.mpr hpre
      obtain ⟨H2, l2, h1, h2, h3, h4, -, -, h5⟩ := fl_dequeue_spec hwf hpre
      have c1 : ¬ (l.len < l.len - 1) := by omega
      have c2 : ¬ (l.len - 1 = 0) := by simp at hl; omega
      have c3 : (pre.length : Int) = l.len - 1 := by simp at hl; omega
      exact ⟨H2, l2, by simp [fl_remove_index, c1, c2, c3, h1], by simpa using h2, h3, h4, h5⟩
    · obtain ⟨H2, l2, h1, h2, h3, h4, -, -, h5⟩ := fl_remove_index_mid_spec hwf hpre hpost
      exact ⟨H2, l2, h1, h2, h3, h4, h5⟩

/-- C5: on a well-formed container with `len >= 2`, nodes `ns` and `0 <= index < len`,
`fl_remove_index(l, index)` returns `l` (not `NULL`) and leaves a well-formed container
whose nodes are `ns` with the node at position `index` erased; the other values are
unchanged and in their order, `len` drops by 1 and `sum` by the erased value. -/
theorem C5_remove_index (H : Heap) (l : flist_type) (ns : List Nat) (index : Int)
    (hwf : WellFormed H l ns) (hlen : 2 ≤ l.len) (hi0 : 0 ≤ index) (hi : index < l.len) :
    ∃ H2 l2 v, fl_remove_index H l index = some (H2, l2, true) ∧
      (vals H ns)[index.toNat]? = some v ∧
      WellFormed H2 l2 (ns.eraseIdx index.toNat) ∧
      vals H2 (ns.eraseIdx index.toNat) = (vals H ns).eraseIdx index.toNat ∧
      l2.len = l.len - 1 ∧ l2.sum = l.sum - v := by
  obtain ⟨i, rfl⟩ := Int.eq_ofNat_of_zero_le hi0
  have hl := hwf.len_eq
  obtain ⟨pre, r, post, rfl, rfl⟩ := exists_split_at ns i (by omega)
  have hne : pre ≠ [] ∨ post ≠ [] := by
    by_contra hcon
    push_neg at hcon
    rw [hcon.1, hcon.2] at hl
    simp at hl; omega
  obtain ⟨H2, l2, h1, h2, h3, -, h5⟩ := fl_remove_index_spec hwf hne
  refine ⟨H2, l2, H.nm r, h1, ?_, ?_, ?_, h5.2.2.2.2, h5.2.2.2.1⟩
  · simp only [Int.toNat_ofNat, vals, List.getElem?_map, getElem?_mid, Option.map_some']
  · simpa only [Int.toNat_ofNat, eraseIdx_mid] using h2
  · simp only [Int.toNat_ofNat, eraseIdx_mid, vals_eq_of_nm_eq h3]
    simp only [vals, List.map_append, List.map_cons]
    rw [← List.length_map pre H.nm, eraseIdx_mid]

/-- C5 at a concrete input: index `1` of the container `[10, 65]`. -/
theorem C5_remove_index_witness :
    WellFormed H2ex l2ex [1, 0] ∧ 2 ≤ l2ex.len ∧ (0 : Int) ≤ 1 ∧ (1 : Int) < l2ex.len ∧
    ∃ H2 l2 v, fl_remove_index H2ex l2ex 1 = some (H2, l2, true) ∧
      (vals H2ex [1, 0])[(1 : Int).toNat]? = some v ∧
      WellFormed H2 l2 ([1, 0].eraseIdx (1 : Int).toNat) ∧
      vals H2 ([1, 0].eraseIdx (1 : Int).toNat) = (vals H2ex [1, 0]).eraseIdx (1 : Int).toNat ∧
      l2.len = l2ex.len - 1 ∧ l2.sum = l2ex.sum - v :=
  ⟨wellFormed_ex2, by decide, by decide, by decide,
    C5_remove_index H2ex l2ex [1, 0] 1 wellFormed_ex2 (by decide) (by decide) (by decide)⟩

/-! ## Insertion by index -/

theorem getElem?_pred_mid (pre post : List Nat) (hpre : pre ≠ []) :
    (pre ++ post)[pre.length - 1]? = pre.getLast? := by
  have : 0 < pre.length := List.length_pos.mpr hpre
  rw [List.getElem?_append_left (by omega), List.getLast?_eq_getElem?]

theorem fl_insert_index_mid_spec {H : Heap} {l : flist_type} {pre post : List Nat}
    (hwf : WellFormed H l (pre ++ post)) (hpre : pre ≠ []) (hpost : 2 ≤ post.length) (n : ℚ) :
    ∃ H2 l2, fl_insert_index H l pre.length n = some (H2, l2) ∧
      WellFormed H2 l2 (pre ++ H.brk :: post) ∧ H2.nm = Function.update H.nm H.brk n ∧
      H2.brk = H.brk + 1 ∧ SameMeasures l2 (upd_add l n) := by
  have hpost0 : post ≠ [] := by rintro rfl; simp at hpost
  obtain ⟨p, hp⟩ : ∃ p, pre.getLast? = some p :=
    ⟨pre.getLast hpre, List.getLast?_eq_getLast _ hpre⟩
  obtain ⟨y, hy⟩ : ∃ y, post.head? = some y := ⟨post.head hpost0, List.head?_eq_head hpost0⟩
  have hl := hwf.len_eq
  simp at hl
  have hprelen : 0 < pre.length := List.length_pos.mpr hpre
  have hnd := List.nodup_append.mp hwf.nodup
  have hpmem := mem_of_getLast? hp
  have hymem := mem_of_head? hy
  have hb : ∀ x ∈ pre ++ post, x ≠ H.brk := fun x hx e => lt_irrefl _ (e ▸ hwf.fresh x hx)
  have hb_pre : H.brk ∉ pre := fun hm => hb _ (List.mem_append_left _ hm) rfl
  have hb_post : H.brk ∉ post := fun hm => hb _ (List.mem_append_right _ hm) rfl
  have hpb : p ≠ H.brk := fun e => hb_pre (e ▸ hpmem)
  have hyb : y ≠ H.brk := fun e => hb_post (e ▸ hymem)
  have hp_post : p ∉ post := fun hm => hnd.2.2 hpmem hm
  have hy_pre : y ∉ pre := fun hm => hnd.2.2 hm hymem
  obtain ⟨m, hn1, hn3⟩ := (Path_append _ _ _ _ _).mp hwf.next_cycle
  have hm : m = some y := Path_first hn3 hy
  subst hm
  have hnp : H.nx p = some y := Path_last hn1 hp
  obtain ⟨m, hp1, hp3⟩ := (Path_append _ _ _ _ _).mp
    (by simpa only [List.reverse_append] using hwf.prev_cycle)
  have hm : m = some p := Path_first hp3 (by simpa using hp)
  subst hm
  have hget : fl_get_kth H l ((pre.length : Int) - 1) = some (some p) := by
    have := fl_get_kth_spec hwf (pre.length - 1) (by simp; omega)
    rw [getElem?_pred_mid pre post hpre, hp] at this
    rw [← this]
    congr 1
    omega
  have c1 : ¬ (l.len ≤ (pre.length : Int)) := by omega
  have c2 : ¬ ((pre.length : Int) = 0) := by omega
  have c3 : ¬ ((pre.length : Int) = l.len - 1) := by omega
  refine ⟨_, _, by simp [fl_insert_index, c1, c2, c3, hget, fl_make_node, hnp, Function.update, hpb, fl_update_measures_add]; exact ⟨rfl, rfl⟩, ?_⟩
  refine ⟨⟨?_, ?_, ?_, ?_, ?_, ?_, ?_⟩, by simp, by simp, ⟨rfl, rfl, rfl, rfl, rfl⟩⟩
  · simp; omega
  · apply List.nodup_middle.mpr
    exact List.nodup_cons.mpr ⟨fun hm => hb _ hm rfl, hwf.nodup⟩
  · intro x hx
    simp only [List.mem_append, List.mem_cons] at hx
    simp only [Heap.brk_st_prev, Heap.brk_st_next, Heap.brk_alloc]
    rcases hx with hx | hx | hx
    · have := hwf.fresh x (List.mem_append_left _ hx); omega
    · omega
    · have := hwf.fresh x (List.mem_append_right _ hx); omega
  · simp [hwf.head_eq, List.head?_append_of_ne_nil _ hpre]
  · rw [upd_add_tail, hwf.tail_eq, List.getLast?_append_of_ne_nil _ hpost0,
      List.getLast?_append_of_ne_nil _ (by simp)]
    obtain ⟨ys, rfl⟩ := List.head?_eq_some_iff.mp hy
    simp [List.getLast?_cons_cons]
  · simp only [upd_add_head, Heap.nx_st_prev, Heap.nx_st_next, Heap.nx_alloc, Path_append,
      Path_cons]
    refine ⟨some H.brk, ?_, rfl, ?_⟩
    · rw [Path_update_of_not_mem hb_pre]
      have := Path_retarget (g := Function.update (Function.update H.nx H.brk none) p
        (some H.brk)) hn1 hnd.1 hp
        (fun x hx hxt => by
          have : x ≠ H.brk := fun e => hb_pre (e ▸ hx)
          simp [Function.update, hxt, this])
      simpa using this
    · rw [Path_update_of_not_mem hb_post, Path_update_of_not_mem hp_post,
        Path_update_of_not_mem hb_post]
      simpa using hn3
  · simp only [upd_add_tail, Heap.pv_st_prev, Heap.pv_st_next, Heap.pv_alloc,
      List.reverse_append, List.reverse_cons, List.append_assoc, List.singleton_append,
      Path_append, Path_cons]
    refine ⟨some H.brk, ?_, rfl, ?_⟩
    · have := Path_retarget (g := Function.update (Function.update (Function.update H.pv
        H.brk none) H.brk (some p)) y (some H.brk)) hp1 (List.nodup_reverse.mpr hnd.2.1)
        (by simpa using hy)
        (fun x hx hxt => by
          have : x ≠ H.brk := fun e => hb_post (e ▸ (by simpa using hx))
          simp [Function.update, hxt, this])
      simpa using this
    · rw [Path_update_of_not_mem (by simpa using hy_pre),
        Path_update_of_not_mem (by simpa using hb_pre),
        Path_update_of_not_mem (by simpa using hb_pre)]
      simpa [Function.update, hyb.symm] using hp3

/-- C6: `fl_insert_index` agrees with the reference `insert_index_ref` on every well-formed
container and every index `>= 0`: where the reference rejects (an index `>= len` other
than `0`) the call returns the heap and the container unchanged; where the reference gives
a sequence (index `0`: `v` in front; index `len - 1`: `v` at the end; an interior index:
`v` immediately before the element that was at that position) the call returns a
well-formed container with exactly that value sequence, `len + 1` and `sum + v`. -/
theorem C6_insert_index (H : Heap) (l : flist_type) (ns : List Nat) (index : Int) (v : ℚ)
    (hwf : WellFormed H l ns) (hi0 : 0 ≤ index) :
    (insert_index_ref (vals H ns) index.toNat v = none →
      fl_insert_index H l index v = some (H, l)) ∧
    (∀ s2, insert_index_ref (vals H ns) index.toNat v = some s2 →
      ∃ H2 l2 ns2, fl_insert_index H l index v = some (H2, l2) ∧ WellFormed H2 l2 ns2 ∧
        vals H2 ns2 = s2 ∧ l2.len = l.len + 1 ∧ l2.sum = l.sum + v) := by
  obtain ⟨i, rfl⟩ := Int.eq_ofNat_of_zero_le hi0
  have hl := hwf.len_eq
  have hbr : ∀ x ∈ ns, x ≠ H.brk := fun x hx e => lt_irrefl _ (e ▸ hwf.fresh x hx)
  simp only [Int.toNat_ofNat, insert_index_ref, vals_length]
  by_cases h0 : i = 0
  · subst h0
    refine ⟨by simp, ?_⟩
    intro s2 hs2
    simp only [↓reduceIte, Option.some.injEq] at hs2
    subst hs2
    obtain ⟨H2, l2, b, h1, h2, -, -, h3, h4, -, h6⟩ := fl_push_spec hwf v
    refine ⟨H2, l2, b :: ns, by simpa [fl_insert_index] using h1, h2, ?_, h6.2.2.2.2,
      h6.2.2.2.1⟩
    rw [vals_cons, h3, vals_congr H]
    exact fun x hx => h4 x (hwf.fresh x hx)
  · by_cases h1 : i ≥ ns.length
    · refine ⟨fun _ => ?_, by simp [h0, h1]⟩
      have c1 : l.len ≤ (i : Int) := by omega
      have c2 : 0 < i := by omega
      simp [fl_insert_index, c1, c2]
    · have c1 : ¬ (l.len ≤ (i : Int)) := by omega
      have c2 : ¬ ((i : Int) = 0) := by omega
      by_cases h2 : i = ns.length - 1
      · rw [if_neg h0, if_neg h1, if_pos h2]
        refine ⟨by simp, ?_⟩
        intro s2 hs2
        simp only [Option.some.injEq] at hs2
        subst hs2
        have c3 : (i : Int) = l.len - 1 := by omega
        have c4 : ¬ (l.len - 1 = 0) := by omega
        have c5 : ¬ (l.len ≤ l.len - 1) := by omega
        obtain ⟨H2, l2, g1, g2, g3, -, -, g6⟩ := fl_append_spec hwf v
        refine ⟨H2, l2, ns ++ [H.brk], by simpa [fl_insert_index, c3, c4, c5] using g1, g2, ?_,
          g6.2.2.2.2, g6.2.2.2.1⟩
        rw [vals_append, vals_congr H]
        · simp [g3]
        · intro x hx
          simp [g3, Function.update, hbr x hx]
      · rw [if_neg h0, if_neg h1, if_neg h2]
        refine ⟨by simp, ?_⟩
        intro s2 hs2
        simp only [Option.some.injEq] at hs2
        subst hs2
        have hsplit : ns = ns.take i ++ ns.drop i := (List.take_append_drop i ns).symm
        have hlen1 : (ns.take i).length = i := by simp; omega
        have hpre : ns.take i ≠ [] := by
          intro e; rw [e] at hlen1; simp at hlen1; omega
        have hpost : 2 ≤ (ns.drop i).length := by simp; omega
        rw [hsplit] at hwf
        obtain ⟨H2, l2, g1, g2, g3, -, g6⟩ := fl_insert_index_mid_spec hwf hpre hpost v
        rw [hlen1] at g1
        refine ⟨H2, l2, _, g1, g2, ?_, g6.2.2.2.2, g6.2.2.2.1⟩
        have e1 : vals H2 (ns.take i) = vals H (ns.take i) :=
          vals_congr H fun x hx => by
            simp [g3, Function.update, hbr x (List.mem_of_mem_take hx)]
        have e2 : vals H2 (ns.drop i) = vals H (ns.drop i) :=
          vals_congr H fun x hx => by
            simp [g3, Function.update, hbr x (List.mem_of_mem_drop hx)]
        rw [vals_append, vals_cons, e1, e2, g3]
        simp [vals, List.map_take, List.map_drop]

/-- C6 at a concrete input: index `1` of the container `[10, 65]`, which is `len - 1`. -/
theorem C6_insert_index_witness :
    WellFormed H2ex l2ex [1, 0] ∧ (0 : Int) ≤ 1 ∧
    (insert_index_ref (vals H2ex [1, 0]) (1 : Int).toNat 25 = none →
      fl_insert_index H2ex l2ex 1 25 = some (H2ex, l2ex)) ∧
    (∀ s2, insert_index_ref (vals H2ex [1, 0]) (1 : Int).toNat 25 = some s2 →
      ∃ H2 l2 ns2, fl_insert_index H2ex l2ex 1 25 = some (H2, l2) ∧ WellFormed H2 l2 ns2 ∧
        vals H2 ns2 = s2 ∧ l2.len = l2ex.len + 1 ∧ l2.sum = l2ex.sum + 25) :=
  ⟨wellFormed_ex2, by decide, C6_insert_index H2ex l2ex [1, 0] 1 25 wellFormed_ex2 (by decide)⟩

/-! ## Sortedness check -/

theorem DSeg_of_paths {H : Heap} {xs : List Nat} {p q t e : Option Nat}
    (h1 : Path H.nx p xs q) (h2 : Path H.pv t xs.reverse e) : DSeg H e p xs q := by
  induction xs generalizing p e with
  | nil => exact h1
  | cons a as ih =>
    rw [List.reverse_cons, Path_snoc] at h2
    exact ⟨h1.1, h2.2, ih h1.2 h2.1⟩

theorem WellFormed.dseg {H : Heap} {l : flist_type} {ns : List Nat} (h : WellFormed H l ns) :
    DSeg H l.tail l.head ns l.head :=
  DSeg_of_paths h.next_cycle h.prev_cycle

theorem DSeg_append {H : Heap} {xs ys : List Nat} {pp p q : Option Nat}
    (h : DSeg H pp p (xs ++ ys) q) :
    ∃ m, Path H.nx p xs m ∧ DSeg H (xs.getLast?.or pp) m ys q := by
  induction xs generalizing pp p with
  | nil => exact ⟨p, rfl, by simpa using h⟩
  | cons a as ih =>
    obtain ⟨m, h1, h2⟩ := ih h.2.2
    refine ⟨m, ⟨h.1, h1⟩, ?_⟩
    cases as with
    | nil => simpa using h2
    | cons b bs => simpa [List.getLast?_cons_cons] using h2

theorem fl_is_sorted_loop_spec {H : Heap} {l : flist_type} (xs : List Nat) (q : Nat)
    (p : Option Nat) (hseg : DSeg H (some q) p xs l.head) (hh : ∀ x ∈ xs, some x ≠ l.head)
    (fuel : Nat) (hfuel : xs.length < fuel) :
    fl_is_sorted_loop H l fuel p =
      some (if List.Chain (· ≤ ·) (H.nm q) (vals H xs) then 1 else 0) := by
  induction xs generalizing q p fuel with
  | nil =>
    obtain ⟨f, rfl⟩ : ∃ f, fuel = f + 1 := ⟨fuel - 1, by omega⟩
    have : p = l.head := hseg
    simp [fl_is_sorted_loop, this]
  | cons a as ih =>
    obtain ⟨f, rfl⟩ : ∃ f, fuel = f + 1 := ⟨fuel - 1, by simp at hfuel; omega⟩
    obtain ⟨h1, h2, h3⟩ := hseg
    subst h1
    have hne : some a ≠ l.head := hh a (List.mem_cons_self _ _)
    have ih2 := ih a (H.nx a) h3 (fun x hx => hh x (List.mem_cons_of_mem _ hx)) f
      (by simp at hfuel; omega)
    by_cases hlt : H.nm a < H.nm q
    · have hnle : ¬ H.nm q ≤ H.nm a := not_le.mpr hlt
      simp [fl_is_sorted_loop, hne, h2, hlt, hnle]
    · have hle : H.nm q ≤ H.nm a := not_lt.mp hlt
      simp [fl_is_sorted_loop, hne, h2, hlt, ih2, hle]

theorem fl_is_sorted_spec {H : Heap} {l : flist_type} {ns : List Nat}
    (hwf : WellFormed H l ns) (fuel : Nat) (hfuel : ns.length ≤ fuel) :
    fl_is_sorted fuel H l = some (if (vals H ns).Sorted (· ≤ ·) then 1 else 0) := by
  cases ns with
  | nil =>
    have : l.len = 0 := hwf.len_zero_iff.mpr rfl
    simp [fl_is_sorted, this]
  | cons a as =>
    have h0 : l.len ≠ 0 := fun h => by simpa using hwf.len_zero_iff.mp h
    have hh : l.head = some a := by simp [hwf.head_eq]
    obtain ⟨-, -, h3⟩ := hwf.dseg
    have hnd := List.nodup_cons.mp hwf.nodup
    have := fl_is_sorted_loop_spec as a (H.nx a) h3
      (fun x hx e => hnd.1 (by rw [hh] at e; cases e; exact hx)) fuel (by simpa using hfuel)
    simp only [fl_is_sorted, h0, hh, ↓reduceIte, Heap.rd_next_some, Option.bind_eq_bind,
      Option.some_bind, this, vals_cons, List.Sorted, List.chain_iff_pairwise]

/-! ## Sorted insertion -/

theorem fl_near_self (v : ℚ) : fl_near v v = true := by
  unfold fl_near
  have h0 : (0 : ℚ) ≤ FL_EPSILON := by unfold FL_EPSILON; norm_num
  have h1 : (0 : ℚ) ≤ |v| * FL_EPSILON := mul_nonneg (abs_nonneg v) h0
  simp only [sub_self, abs_zero, gt_iff_lt, lt_self_iff_false, ↓reduceIte]
  split <;> simp [h0, h1]

theorem sorted_insert_mid {xs ys : List ℚ} {v : ℚ} (h : (xs ++ ys).Sorted (· ≤ ·))
    (h1 : ∀ q, xs.getLast? = some q → q ≤ v) (h2 : ∀ y, ys.head? = some y → v ≤ y) :
    (xs ++ v :: ys).Sorted (· ≤ ·) := by
  unfold List.Sorted at h ⊢
  rw [List.pairwise_append] at h ⊢
  obtain ⟨hx, hy, hxy⟩ := h
  have hxv : ∀ a ∈ xs, a ≤ v := by
    intro a ha
    rcases List.eq_nil_or_concat xs with rfl | ⟨xs2, q, rfl⟩
    · simp at ha
    · rw [List.concat_eq_append] at ha hx h1
      have hq := h1 q (by simp)
      rw [List.pairwise_append] at hx
      rcases List.mem_append.mp ha with ha | ha
      · exact le_trans (hx.2.2 a ha q (by simp)) hq
      · simp at ha; rw [ha]; exact hq
  have hvy : ∀ b ∈ ys, v ≤ b := by
    intro b hb
    cases ys with
    | nil => simp at hb
    | cons y ys2 =>
      have hq := h2 y (by simp)
      rw [List.pairwise_cons] at hy
      rcases List.mem_cons.mp hb with hb | hb
      · rw [hb]; exact hq
      · exact le_trans hq (hy.1 b hb)
  refine ⟨hx, List.pairwise_cons.mpr ⟨hvy, hy⟩, ?_⟩
  intro a ha b hb
  rcases List.mem_cons.mp hb with hb | hb
  · rw [hb]; exact hxv a ha
  · exact hxy a ha b hb

theorem WellFormed.splice {H H2 : Heap} {l l2 : flist_type} {pre post : List Nat} {p y : Nat}
    (hwf : WellFormed H l (pre ++ post)) (hp : pre.getLast? = some p)
    (hy : post.head? = some y)
    (hnx : ∀ x, H2.nx x = if x = H.brk then some y else if x = p then some H.brk else H.nx x)
    (hpv : ∀ x, H2.pv x = if x = H.brk then some p else if x = y then some H.brk else H.pv x)
    (hbrk : H2.brk = H.brk + 1) (hhead : l2.head = l.head) (htail : l2.tail = l.tail)
    (hlen : l2.len = l.len + 1) : WellFormed H2 l2 (pre ++ H.brk :: post) := by
  have hpre : pre ≠ [] := by rintro rfl; simp at hp
  have hpost0 : post ≠ [] := by rintro rfl; simp at hy
  have hl := hwf.len_eq
  simp at hl
  have hnd := List.nodup_append.mp hwf.nodup
  have hpmem := mem_of_getLast? hp
  have hymem := mem_of_head? hy
  have hb : ∀ x ∈ pre ++ post, x ≠ H.brk := fun x hx e => lt_irrefl _ (e ▸ hwf.fresh x hx)
  have hb_pre : ∀ x ∈ pre, x ≠ H.brk := fun x hx => hb _ (List.mem_append_left _ hx)
  have hb_post : ∀ x ∈ post, x ≠ H.brk := fun x hx => hb _ (List.mem_append_right _ hx)
  have hp_post : ∀ x ∈ post, x ≠ p := fun x hx e => hnd.2.2 hpmem (e ▸ hx)
  have hy_pre : ∀ x ∈ pre, x ≠ y := fun x hx e => hnd.2.2 hx (e ▸ hymem)
  obtain ⟨m, hn1, hn3⟩ := (Path_append _ _ _ _ _).mp hwf.next_cycle
  have hm : m = some y := Path_first hn3 hy
  subst hm
  obtain ⟨m, hp1, hp3⟩ := (Path_append _ _ _ _ _).mp
    (by simpa only [List.reverse_append] using hwf.prev_cycle)
  have hm : m = some p := Path_first hp3 (by simpa using hp)
  subst hm
  refine ⟨?_, ?_, ?_, ?_, ?_, ?_, ?_⟩
  · simp [hlen]; omega
  · apply List.nodup_middle.mpr
    exact List.nodup_cons.mpr ⟨fun hm => hb _ hm rfl, hwf.nodup⟩
  · intro x hx
    simp only [List.mem_append, List.mem_cons] at hx
    rw [hbrk]
    rcases hx with hx | hx | hx
    · have := hwf.fresh x (List.mem_append_left _ hx); omega
    · omega
    · have := hwf.fresh x (List.mem_append_right _ hx); omega
  · simp [hhead, hwf.head_eq, List.head?_append_of_ne_nil _ hpre]
  · rw [htail, hwf.tail_eq, List.getLast?_append_of_ne_nil _ hpost0,
      List.getLast?_append_of_ne_nil _ (by simp)]
    obtain ⟨ys, rfl⟩ := List.head?_eq_some_iff.mp hy
    simp [List.getLast?_cons_cons]
  · rw [hhead, Path_append]
    refine ⟨some H.brk, ?_, rfl, ?_⟩
    · have := Path_retarget (g := H2.nx) hn1 hnd.1 hp
        (fun x hx hxt => by simp [hnx, hb_pre x hx, hxt])
      simpa [hnx, hb_pre p hpmem] using this
    · rw [hnx, if_pos rfl]
      exact (Path_congr (fun x hx => by simp [hnx, hb_post x hx, hp_post x hx]) _ _).mpr hn3
  · rw [htail]
    simp only [List.reverse_append, List.reverse_cons, List.append_assoc,
      List.singleton_append, Path_append, Path_cons]
    refine ⟨some H.brk, ?_, rfl, ?_⟩
    · have := Path_retarget (g := H2.pv) hp1 (List.nodup_reverse.mpr hnd.2.1)
        (by simpa using hy)
        (fun x hx hxt => by simp [hpv, hb_post x (by simpa using hx), hxt])
      simpa [hpv, hb_post y hymem] using this
    · rw [hpv, if_pos rfl]
      exact (Path_congr (fun x hx => by
        simp [hpv, hb_pre x (by simpa using hx), hy_pre x (by simpa using hx)]) _ _).mpr hp3

theorem fl_insert_scan_spec {H : Heap} {l : flist_type} (v : ℚ) (post : List Nat) :
    ∀ (pre : List Nat) (p : Option Nat) (fuel : Nat), WellFormed H l (pre ++ post) →
      pre ≠ [] → Path H.nx p post l.head → (∀ q, pre.getLast? = some q → H.nm q ≤ v) →
      post.length < fuel →
      ∃ H2 l2 pre2 post2, fl_insert_scan H l v fuel p = some (H2, l2) ∧
        pre2 ++ post2 = pre ++ post ∧ WellFormed H2 l2 (pre2 ++ H.brk :: post2) ∧
        H2.nm = Function.update H.nm H.brk v ∧ H2.brk = H.brk + 1 ∧
        SameMeasures l2 (upd_add l v) ∧ (∀ q, pre2.getLast? = some q → H.nm q ≤ v) ∧
        (∀ y, post2.head? = some y → v < H.nm y ∨ fl_near v (H.nm y) = true) := by
  induction post with
  | nil =>
    intro pre p fuel hwf hpre hpath hinv hfuel
    obtain ⟨f, rfl⟩ : ∃ f, fuel = f + 1 := ⟨fuel - 1, by omega⟩
    have hp : p = l.head := hpath
    obtain ⟨H2, l2, g1, g2, g3, g4, -, g6⟩ := fl_append_spec hwf v
    refine ⟨H2, l2, pre, [], by simpa [fl_insert_scan, hp] using g1, rfl, ?_, g3, g4, g6, hinv,
      by simp⟩
    simpa using g2
  | cons y ys ih =>
    intro pre p fuel hwf hpre hpath hinv hfuel
    obtain ⟨f, rfl⟩ : ∃ f, fuel = f + 1 := ⟨fuel - 1, by omega⟩
    obtain ⟨q, hq⟩ : ∃ q, pre.getLast? = some q :=
      ⟨pre.getLast hpre, List.getLast?_eq_getLast _ hpre⟩
    have hqv := hinv q hq
    have hp : p = some y := hpath.1
    subst hp
    have hnd := List.nodup_append.mp hwf.nodup
    have hy_pre : y ∉ pre := fun hm => hnd.2.2 hm (List.mem_cons_self _ _)
    have hb : ∀ x ∈ pre ++ y :: ys, x ≠ H.brk :=
      fun x hx e => lt_irrefl _ (e ▸ hwf.fresh x hx)
    have hyb : y ≠ H.brk := hb y (by simp)
    have hqb : q ≠ H.brk := hb q (List.mem_append_left _ (mem_of_getLast? hq))
    have hqy : q ≠ y := fun e => hy_pre (e ▸ mem_of_getLast? hq)
    have hne : some y ≠ l.head := by
      rw [hwf.head_eq, List.head?_append_of_ne_nil _ hpre]
      intro e
      exact hy_pre (mem_of_head? e.symm)
    obtain ⟨m, -, hd⟩ := DSeg_append hwf.dseg
    have hpvy : H.pv y = some q := by
      have := hd.2.1
      rw [this, hq]; rfl
    by_cases hc : (H.nm q < v ∨ fl_near v (H.nm q) = true) ∧
        (v < H.nm y ∨ fl_near v (H.nm y) = true)
    · refine ⟨_, _, pre, y :: ys, by simp [fl_insert_scan, hne, hpvy, hc, fl_make_node, Function.update, hyb, fl_update_measures_add]; rfl, rfl, ?_, by simp, by simp,
        ⟨rfl, rfl, rfl, rfl, rfl⟩, hinv, ?_⟩
      · apply hwf.splice hq (by simp : (y :: ys).head? = some y)
        · intro x
          by_cases h1 : x = H.brk
          · simp [Function.update, h1, hqb.symm, hyb.symm]
          · by_cases h2 : x = q <;> simp [Function.update, h1, h2, hqb, hyb, hqy]
        · intro x
          by_cases h1 : x = H.brk
          · simp [Function.update, h1, hqb.symm, hyb.symm]
          · by_cases h2 : x = y <;> simp [Function.update, h1, h2, hqb, hyb, hqy]
        · simp
        · simp
        · simp
        · simp
      · intro y2 hy2
        simp at hy2
        subst hy2
        exact hc.2
    · have hc1 : H.nm q < v ∨ fl_near v (H.nm q) = true := by
        rcases lt_or_eq_of_le hqv with h | h
        · exact Or.inl h
        · exact Or.inr (by rw [h]; exact fl_near_self v)
      have hc2 : ¬ (v < H.nm y ∨ fl_near v (H.nm y) = true) := fun h => hc ⟨hc1, h⟩
      have hyv : H.nm y ≤ v := not_lt.mp (fun h => hc2 (Or.inl h))
      have hwf2 : WellFormed H l ((pre ++ [y]) ++ ys) := by simpa using hwf
      obtain ⟨H2, l2, pre2, post2, g1, g2, g3, g4, g5, g6, g7, g8⟩ :=
        ih (pre ++ [y]) (H.nx y) f hwf2 (by simp) hpath.2
          (fun q2 hq2 => by simp at hq2; subst hq2; exact hyv) (by simp at hfuel; omega)
      refine ⟨H2, l2, pre2, post2, ?_, by simpa using g2, g3, g4, g5, g6, g7, g8⟩
      rw [← g1]
      simp [fl_insert_scan, hne, hpvy, hc]

theorem Path_walk {H : Heap} {ns : List Nat} {p q : Option Nat} (hp : Path H.nx p ns q) :
    walk H ns.length p = some (vals H ns) := by
  induction ns generalizing p with
  | nil => rfl
  | cons a as ih =>
    obtain ⟨h1, h2⟩ := hp
    subst h1
    simp [walk, ih h2]

theorem WellFormed.fl_values_eq {H : Heap} {l : flist_type} {ns : List Nat}
    (h : WellFormed H l ns) : fl_values H l = some (vals H ns) := by
  unfold fl_values
  rw [h.len_eq, Int.toNat_ofNat]
  exact Path_walk h.next_cycle

theorem fl_insert_spec {H : Heap} {l : flist_type} {ns : List Nat} (hwf : WellFormed H l ns)
    (v : ℚ) (fuel : Nat) (hfuel : ns.length ≤ fuel) :
    ∃ H2 l2 pre2 post2 b, fl_insert fuel H l v = some (H2, l2) ∧ pre2 ++ post2 = ns ∧
      WellFormed H2 l2 (pre2 ++ b :: post2) ∧ H2.nm b = v ∧ (∀ x ∈ ns, H2.nm x = H.nm x) ∧
      SameMeasures l2 (upd_add l v) ∧ (∀ q, pre2.getLast? = some q → H.nm q ≤ v) ∧
      (∀ y, post2.head? = some y → v < H.nm y ∨ fl_near v (H.nm y) = true) := by
  have hbr : ∀ x ∈ ns, x ≠ H.brk := fun x hx e => lt_irrefl _ (e ▸ hwf.fresh x hx)
  have hkeep : ∀ {H2 : Heap}, H2.nm = Function.update H.nm H.brk v →
      ∀ x ∈ ns, H2.nm x = H.nm x := fun h x hx => by simp [h, Function.update, hbr x hx]
  by_cases hne : ns = []
  · subst hne
    have h0 : l.len = 0 := hwf.len_zero_iff.mpr rfl
    obtain ⟨H2, l2, g1, g2, g3, -, -, g6⟩ := fl_append_spec hwf v
    exact ⟨H2, l2, [], [], H.brk, by simpa [fl_insert, h0] using g1, rfl, by simpa using g2,
      by simp [g3], by simp, g6, by simp, by simp⟩
  · obtain ⟨a, t, hh, ht, ha, hlast⟩ := hwf.ends hne
    have h0 : l.len ≠ 0 := fun h => hne (hwf.len_zero_iff.mp h)
    by_cases hlt : v < H.nm a
    · obtain ⟨H2, l2, b, g1, g2, -, -, g3, g4, -, g6⟩ := fl_push_spec hwf v
      refine ⟨H2, l2, [], ns, b, by simpa [fl_insert, h0, hh, hlt] using g1, rfl, by simpa using g2,
        g3, fun x hx => g4 x (hwf.fresh x hx), g6, by simp, ?_⟩
      intro y hy
      rw [ha] at hy
      cases hy
      exact Or.inl hlt
    · by_cases hgt : H.nm t < v
      · obtain ⟨H2, l2, g1, g2, g3, -, -, g6⟩ := fl_append_spec hwf v
        refine ⟨H2, l2, ns, [], H.brk, by simpa [fl_insert, h0, hh, hlt, ht, hgt] using g1,
          by simp, g2, by simp [g3], hkeep g3, g6, ?_, by simp⟩
        intro q hq
        rw [hlast] at hq
        cases hq
        exact le_of_lt hgt
      · obtain ⟨rest, rfl⟩ := List.head?_eq_some_iff.mp ha
        have hnext := hwf.next_cycle
        rw [hh] at hnext
        have hwf2 : WellFormed H l ([a] ++ rest) := hwf
        obtain ⟨H2, l2, pre2, post2, g1, g2, g3, g4, -, g6, g7, g8⟩ :=
          fl_insert_scan_spec v rest [a] (H.nx a) fuel hwf2 (by simp) (hh ▸ hnext.2)
            (fun q hq => by simp at hq; subst hq; exact not_lt.mp hlt)
            (by simp at hfuel; omega)
        exact ⟨H2, l2, pre2, post2, H.brk,
          by simpa [fl_insert, h0, hh, hlt, ht, hgt] using g1, g2, g3, by simp [g4],
          hkeep g4, g6, g7, g8⟩

/-- C7, amended: on a well-formed container whose values are non-decreasing from head to
tail, and for a value `v` that is not within `fl_near` tolerance of an element smaller than
`v`, `fl_insert(l, v)` returns a well-formed container that holds the old values plus `v`
(a permutation of `v` and the old sequence) in non-decreasing order; `fl_is_sorted`
returns 1 before and after the call, `len` grows by 1 and `sum` by `v`. -/
theorem C7_insert_sorted (H : Heap) (l : flist_type) (ns : List Nat) (v : ℚ) (fuel : Nat)
    (hwf : WellFormed H l ns) (hfuel : ns.length ≤ fuel)
    (hsorted : (vals H ns).Sorted (· ≤ ·))
    (hnear : ∀ x ∈ vals H ns, fl_near v x = true → v ≤ x) :
    fl_is_sorted fuel H l = some 1 ∧
    ∃ H2 l2 ns2, fl_insert fuel H l v = some (H2, l2) ∧ WellFormed H2 l2 ns2 ∧
      (vals H2 ns2).Perm (v :: vals H ns) ∧ (vals H2 ns2).Sorted (· ≤ ·) ∧
      fl_is_sorted (fuel + 1) H2 l2 = some 1 ∧ l2.len = l.len + 1 ∧ l2.sum = l.sum + v := by
  refine ⟨by rw [fl_is_sorted_spec hwf fuel hfuel, if_pos hsorted], ?_⟩
  obtain ⟨H2, l2, pre2, post2, b, g1, g2, g3, g4, g5, g6, g7, g8⟩ :=
    fl_insert_spec hwf v fuel hfuel
  subst g2
  have hv : vals H2 (pre2 ++ b :: post2) = vals H pre2 ++ v :: vals H post2 := by
    rw [vals_append, vals_cons, g4,
      vals_congr H fun x hx => g5 x (List.mem_append_left _ hx),
      vals_congr H fun x hx => g5 x (List.mem_append_right _ hx)]
  have hs : (vals H2 (pre2 ++ b :: post2)).Sorted (· ≤ ·) := by
    rw [hv]
    apply sorted_insert_mid (by simpa using hsorted)
    · intro q hq
      simp only [vals, List.getLast?_map, Option.map_eq_some'] at hq
      obtain ⟨x, hx, rfl⟩ := hq
      exact g7 x hx
    · intro y hy
      simp only [vals, List.head?_map, Option.map_eq_some'] at hy
      obtain ⟨x, hx, rfl⟩ := hy
      rcases g8 x hx with h | h
      · exact le_of_lt h
      · exact hnear _ (by simp [vals]; exact Or.inr ⟨x, mem_of_head? hx, rfl⟩) h
  refine ⟨H2, l2, _, g1, g3, ?_, hs, ?_, g6.2.2.2.2, g6.2.2.2.1⟩
  · rw [hv, vals_append]
    exact List.perm_middle
  · rw [fl_is_sorted_spec g3 (fuel + 1) (by simp at hfuel ⊢; omega), if_pos hs]

theorem wellFormed_ex3 : WellFormed H3ex l3ex [0, 1, 2] :=
  ⟨rfl, by decide, by decide, rfl, rfl, by simp [H3ex, l3ex, Heap.nx],
    by simp [H3ex, l3ex, Heap.pv]⟩

/-- C7 at a concrete input: the sorted container `[10, 65]` and the value `20`; with the
run of the specification, append 65, push 10, insert 20, which gives `[10, 20, 65]` with
`len = 3` and `sum = 95`. -/
theorem C7_insert_sorted_witness :
    (WellFormed H2ex l2ex [1, 0] ∧ [1, 0].length ≤ 3 ∧ (vals H2ex [1, 0]).Sorted (· ≤ ·) ∧
      (∀ x ∈ vals H2ex [1, 0], fl_near 20 x = true → (20 : ℚ) ≤ x)) ∧
    (fl_is_sorted 3 H2ex l2ex = some 1 ∧
      ∃ H2 l2 ns2, fl_insert 3 H2ex l2ex 20 = some (H2, l2) ∧ WellFormed H2 l2 ns2 ∧
        (vals H2 ns2).Perm (20 :: vals H2ex [1, 0]) ∧ (vals H2 ns2).Sorted (· ≤ ·) ∧
        fl_is_sorted (3 + 1) H2 l2 = some 1 ∧ l2.len = l2ex.len + 1 ∧
        l2.sum = l2ex.sum + 20) ∧
    ((fl_append H0 fl_make_flist 65).bind fun r => (fl_push r.1 r.2 10).bind fun r =>
      (fl_insert 3 r.1 r.2 20).bind fun r => some (fl_values r.1 r.2, r.2.len, r.2.sum)) =
      some (some [10, 20, 65], 3, 95) := by
  have hs : (vals H2ex [1, 0]).Sorted (· ≤ ·) := by
    simp [vals, Heap.nm, H2ex]
    norm_num
  have hn : ∀ x ∈ vals H2ex [1, 0], fl_near 20 x = true → (20 : ℚ) ≤ x := by
    intro x hx
    simp [vals, Heap.nm, H2ex] at hx
    rcases hx with rfl | rfl
    · intro h
      exact absurd h (by decide!)
    · intro _
      norm_num
  exact ⟨⟨wellFormed_ex2, by decide, hs, hn⟩,
    C7_insert_sorted H2ex l2ex [1, 0] 20 3 wellFormed_ex2 (by decide) hs hn, by decide!⟩

/-- C7 fails as stated: the container `[0, 10000000000, 30000000000]` is well formed and
sorted (`fl_is_sorted` returns 1), and `fl_insert` of `10000000001` puts the new value
before the `fl_near` element `10000000000`, so the sequence is
`[0, 10000000001, 10000000000, 30000000000]` and `fl_is_sorted` returns 0. -/
theorem C7_insert_sorted_counterexample :
    WellFormed H3ex l3ex [0, 1, 2] ∧ fl_is_sorted 4 H3ex l3ex = some 1 ∧
    ((fl_insert 4 H3ex l3ex 10000000001).bind fun r => fl_values r.1 r.2) =
      some [0, 10000000001, 10000000000, 30000000000] ∧
    ((fl_insert 4 H3ex l3ex 10000000001).bind fun r => fl_is_sorted 5 r.1 r.2) = some 0 :=
  ⟨wellFormed_ex3, by decide!, by decide!, by decide!⟩

/-! ## Removal by value -/

theorem fl_near_comm (a b : ℚ) : fl_near a b = fl_near b a := by
  have hd : (if |a| > |b| then |a| else |b|) = (if |b| > |a| then |b| else |a|) := by
    rcases lt_trichotomy |a| |b| with h | h | h
    · rw [if_neg (not_lt.mpr (le_of_lt h)), if_pos h]
    · rw [h]
    · rw [if_pos h, if_neg (not_lt.mpr (le_of_lt h))]
  unfold fl_near
  simp only [abs_sub_comm a b, hd]

/-- Around a node `x` of a well-formed container: its `next` is the node after it, or the
head when it is the last. -/
theorem WellFormed.next_mid {H : Heap} {l : flist_type} {pre post : List Nat} {x : Nat}
    (h : WellFormed H l (pre ++ x :: post)) : Path H.nx (H.nx x) post l.head := by
  obtain ⟨m, -, -, h3⟩ := (Path_append _ _ _ _ _).mp h.next_cycle
  exact h3

theorem WellFormed.not_head_of_mid {H : Heap} {l : flist_type} {pre post : List Nat}
    {x z : Nat} (h : WellFormed H l (pre ++ x :: post)) (hz : z ∈ post) : some z ≠ l.head := by
  rw [h.head_eq]
  intro e
  have hmem : z ∈ pre ++ [x] := by
    cases pre with
    | nil => simp at e; simp [e]
    | cons a as => simp at e; simp [e]
  obtain ⟨h1, h2, -, -, h3, -⟩ := nodup_mid h.nodup
  rcases List.mem_append.mp hmem with hm | hm
  · exact h3 z hm hz
  · simp at hm
    exact h2 (hm ▸ hz)

theorem fl_remove_scan_found {H : Heap} {l : flist_type} {r : Nat} {post : List Nat} (v : ℚ)
    (hr : fl_near v (H.nm r) = true) (todo : List Nat) :
    ∀ (done : List Nat) (fuel : Nat), WellFormed H l (done ++ todo ++ r :: post) →
      (∀ x ∈ todo, fl_near v (H.nm x) = false) → todo.length < fuel →
      fl_remove_scan H l v fuel done.length (todo ++ [r]).head? =
        fl_remove_index H l (done ++ todo).length := by
  induction todo with
  | nil =>
    intro done fuel hwf _ hfuel
    obtain ⟨f, rfl⟩ : ∃ f, fuel = f + 1 := ⟨fuel - 1, by omega⟩
    have hr2 : fl_near (H.nm r) v = true := by rw [fl_near_comm]; exact hr
    simp [fl_remove_scan, hr, hr2]
  | cons x xs ih =>
    intro done fuel hwf hnot hfuel
    obtain ⟨f, rfl⟩ : ∃ f, fuel = f + 1 := ⟨fuel - 1, by omega⟩
    have hwf2 : WellFormed H l (done ++ x :: (xs ++ r :: post)) := by simpa using hwf
    have hnx := hwf2.next_mid
    obtain ⟨z, hz⟩ : ∃ z, (xs ++ [r]).head? = some z := by
      cases xs <;> simp
    have hz2 : (xs ++ r :: post).head? = some z := by
      cases xs with
      | nil => simpa using hz
      | cons a as => simpa using hz
    have hnxx : H.nx x = some z := Path_first hnx hz2
    have hne : some z ≠ l.head := hwf2.not_head_of_mid (mem_of_head? hz2)
    have hx : fl_near v (H.nm x) = false := hnot x (List.mem_cons_self _ _)
    have ih2 := ih (done ++ [x]) f (by simpa using hwf)
      (fun y hy => hnot y (List.mem_cons_of_mem _ hy)) (by simp at hfuel; omega)
    have e1 : (((done ++ [x]).length : Nat) : Int) = (done.length : Int) + 1 := by simp
    have e2 : (done ++ [x] ++ xs).length = (done ++ x :: xs).length := by simp
    rw [e1, e2] at ih2
    rw [← ih2, hz]
    simp [fl_remove_scan, hnxx, hne, hx]

theorem fl_remove_scan_none {H : Heap} {l : flist_type} (v : ℚ) (todo : List Nat) :
    ∀ (done : List Nat) (fuel : Nat), todo ≠ [] → WellFormed H l (done ++ todo) →
      (∀ x ∈ todo, fl_near v (H.nm x) = false) → todo.length ≤ fuel →
      fl_remove_scan H l v fuel done.length todo.head? = some (H, l, true) := by
  induction todo with
  | nil => intro _ _ h; exact absurd rfl h
  | cons x xs ih =>
    intro done fuel _ hwf hnot hfuel
    obtain ⟨f, rfl⟩ : ∃ f, fuel = f + 1 := ⟨fuel - 1, by simp at hfuel; omega⟩
    have hnx := hwf.next_mid
    have hx : fl_near v (H.nm x) = false := hnot x (List.mem_cons_self _ _)
    have hx2 : fl_near (H.nm x) v = false := by rw [fl_near_comm]; exact hx
    cases xs with
    | nil =>
      have hnxx : H.nx x = l.head := hnx
      simp [fl_remove_scan, hnxx, hx2]
    | cons z zs =>
      have hnxx : H.nx x = some z := hnx.1
      have hne : some z ≠ l.head := hwf.not_head_of_mid (List.mem_cons_self _ _)
      have ih2 := ih (done ++ [x]) f (by simp) (by simpa using hwf)
        (fun y hy => hnot y (List.mem_cons_of_mem _ hy)) (by simp at hfuel ⊢; omega)
      simp only [List.length_append, List.length_singleton, Nat.cast_add, Nat.cast_one,
        List.head?_cons] at ih2
      simp [fl_remove_scan, hnxx, hne, hx, ih2]

theorem fl_remove_index_single {H : Heap} {l : flist_type} {r : Nat}
    (hwf : WellFormed H l [r]) :
    fl_remove_index H l 0 = some (H.st_num r 0,
      { l with len := 0, sum := 0, mean := 0, variance := 0, sumsq := 0 }, true) := by
  have hl : l.len = 1 := by simpa using hwf.len_eq
  have hh : l.head = some r := by simp [hwf.head_eq]
  have ht : l.tail = some r := by simp [hwf.tail_eq]
  have c1 : ¬ (0 > l.len) := by omega
  have h := fl_update_measures_collapse H { l with head := l.tail } (H.nm r) r
    (by simp [hl]) (by simp [ht])
  simp only [ht, hl] at h
  simp [fl_remove_index, fl_pop, hl, hh, ht, h]

/-- C8: on a well-formed non-empty container (nodes `ns`, `sum` the sum of its values) and
a value `v`: when `r` is the first node whose value is `fl_near` to `v` (the nodes `pre`
before it are not), `fl_remove(l, v)` returns `l` with exactly that node removed, that is,
the value sequence read from the container is that of `pre` followed by `post`, `len`
drops by 1 and `sum` by the removed value, and while nodes remain the container is well
formed; when no value is `fl_near` to `v`, the heap and the container (sequence, head,
tail, aggregates) are returned unchanged. -/
theorem C8_remove (H : Heap) (l : flist_type) (ns : List Nat) (v : ℚ) (fuel : Nat)
    (hwf : WellFormed H l ns) (hne : ns ≠ []) (hsum : l.sum = (vals H ns).sum)
    (hfuel : ns.length ≤ fuel) :
    (∀ pre r post, ns = pre ++ r :: post → (∀ x ∈ pre, fl_near v (H.nm x) = false) →
      fl_near v (H.nm r) = true →
      ∃ H2 l2, fl_remove fuel H l v = some (H2, l2, true) ∧
        fl_values H2 l2 = some (vals H (pre ++ post)) ∧ l2.len = l.len - 1 ∧
        l2.sum = l.sum - H.nm r ∧ (pre ++ post ≠ [] → WellFormed H2 l2 (pre ++ post))) ∧
    ((∀ x ∈ ns, fl_near v (H.nm x) = false) → fl_remove fuel H l v = some (H, l, true)) := by
  obtain ⟨a, -, hh, -, ha, -⟩ := hwf.ends hne
  constructor
  · intro pre r post hns hpre hr
    subst hns
    have hscan := fl_remove_scan_found v hr pre [] fuel (by simpa using hwf) hpre
      (by simp at hfuel; omega)
    have hhd : (pre ++ [r]).head? = l.head := by
      rw [hwf.head_eq]; cases pre <;> simp
    simp only [List.length_nil, Nat.cast_zero, hhd, List.nil_append] at hscan
    unfold fl_remove
    rw [hscan]
    by_cases hsingle : pre = [] ∧ post = []
    · obtain ⟨rfl, rfl⟩ := hsingle
      refine ⟨_, _, fl_remove_index_single hwf, ?_, ?_, ?_, by simp⟩
      · simp [fl_values, walk]
      · have := hwf.len_eq
        simp at this ⊢
        omega
      · simp [hsum]
    · have hne2 : pre ≠ [] ∨ post ≠ [] := by
        by_contra hcon
        push_neg at hcon
        exact hsingle hcon
      obtain ⟨H2, l2, g1, g2, g3, -, g5⟩ := fl_remove_index_spec hwf hne2
      refine ⟨H2, l2, g1, ?_, g5.2.2.2.2, g5.2.2.2.1, fun _ => g2⟩
      rw [g2.fl_values_eq, vals_eq_of_nm_eq g3]
  · intro hnone
    have := fl_remove_scan_none v ns [] fuel hne (by simpa using hwf) hnone hfuel
    simpa [fl_remove, hwf.head_eq] using this

/-- C8 at a concrete input: removing `65` from the container `[10, 65]`. -/
theorem C8_remove_witness :
    (WellFormed H2ex l2ex [1, 0] ∧ [1, 0] ≠ [] ∧ l2ex.sum = (vals H2ex [1, 0]).sum ∧
      [1, 0].length ≤ 2) ∧
    (∀ pre r post, [1, 0] = pre ++ r :: post →
      (∀ x ∈ pre, fl_near 65 (H2ex.nm x) = false) → fl_near 65 (H2ex.nm r) = true →
      ∃ H2 l2, fl_remove 2 H2ex l2ex 65 = some (H2, l2, true) ∧
        fl_values H2 l2 = some (vals H2ex (pre ++ post)) ∧ l2.len = l2ex.len - 1 ∧
        l2.sum = l2ex.sum - H2ex.nm r ∧ (pre ++ post ≠ [] → WellFormed H2 l2 (pre ++ post))) ∧
    ((∀ x ∈ [1, 0], fl_near 65 (H2ex.nm x) = false) →
      fl_remove 2 H2ex l2ex 65 = some (H2ex, l2ex, true)) ∧
    ((fl_remove 2 H2ex l2ex 65).bind fun r => some (fl_values r.1 r.2.1, r.2.1.len, r.2.1.sum)) =
      some (some [10], 1, 10) := by
  have hsum : l2ex.sum = (vals H2ex [1, 0]).sum := by
    simp [vals, Heap.nm, H2ex, l2ex]; norm_num
  have h := C8_remove H2ex l2ex [1, 0] 65 2 wellFormed_ex2 (by decide) hsum (by decide)
  exact ⟨⟨wellFormed_ex2, by decide, hsum, by decide⟩, h.1, h.2, by decide!⟩

/-! ## Reversal -/

namespace Heap

@[simp] theorem nx_swapped (H : Heap) (ns : List Nat) (x : Nat) :
    (H.swapped ns).nx x = if x ∈ ns then H.pv x else H.nx x := by
  by_cases h : x ∈ ns <;> simp [swapped, nx, pv, h]

@[simp] theorem pv_swapped (H : Heap) (ns : List Nat) (x : Nat) :
    (H.swapped ns).pv x = if x ∈ ns then H.nx x else H.pv x := by
  by_cases h : x ∈ ns <;> simp [swapped, nx, pv, h]

@[simp] theorem nm_swapped (H : Heap) (ns : List Nat) : (H.swapped ns).nm = H.nm := by
  funext x
  by_cases h : x ∈ ns <;> simp [swapped, nm, h]

@[simp] theorem brk_swapped (H : Heap) (ns : List Nat) : (H.swapped ns).brk = H.brk := rfl

@[simp] theorem swapped_nil (H : Heap) : H.swapped [] = H := by
  apply ext_fields <;> rfl

theorem swapped_swapped (H : Heap) (ns ms : List Nat) (h : ∀ x, x ∈ ms ↔ x ∈ ns) :
    (H.swapped ns).swapped ms = H := by
  apply ext_fields
  · simp
  · funext x
    by_cases hx : x ∈ ns <;> simp [hx, h]
  · funext x
    by_cases hx : x ∈ ns <;> simp [hx, h]
  · rfl

end Heap

theorem fl_reverse_loop_spec (t : Nat) (todo : List Nat) :
    ∀ (Hc : Heap) (p nc : Option Nat) (fuel : Nat), (todo ++ [t]).Nodup →
      Path Hc.nx p todo (some t) → todo.length < fuel → (todo = [] → nc = some t) →
      fl_reverse_loop (some t) fuel Hc p nc = some (Hc.swapped todo, some t, some t) := by
  induction todo with
  | nil =>
    intro Hc p nc fuel _ hp hfuel hnc
    obtain ⟨f, rfl⟩ : ∃ f, fuel = f + 1 := ⟨fuel - 1, by omega⟩
    have : p = some t := hp
    simp [fl_reverse_loop, this, hnc rfl]
  | cons x xs ih =>
    intro Hc p nc fuel hnd hp hfuel _
    obtain ⟨f, rfl⟩ : ∃ f, fuel = f + 1 := ⟨fuel - 1, by omega⟩
    obtain ⟨h1, h2⟩ := hp
    subst h1
    have hnd2 : x ∉ xs ++ [t] ∧ (xs ++ [t]).Nodup := List.nodup_cons.mp hnd
    have hxt : x ≠ t := fun e => hnd2.1 (by simp [e])
    have hx_xs : x ∉ xs := fun hm => hnd2.1 (List.mem_append_left _ hm)
    have hpath : Path ((Hc.st_next x (Hc.pv x)).st_prev x (Hc.nx x)).nx (Hc.nx x) xs (some t) := by
      simpa [Path_update_of_not_mem hx_xs] using h2
    have ih2 := ih ((Hc.st_next x (Hc.pv x)).st_prev x (Hc.nx x)) (Hc.nx x) (Hc.nx x) f hnd2.2
      hpath (by simp at hfuel; omega) (fun e => by subst e; exact h2)
    have heq : ((Hc.st_next x (Hc.pv x)).st_prev x (Hc.nx x)).swapped xs = Hc.swapped (x :: xs) := by
      apply Heap.ext_fields
      · simp
      · funext y
        by_cases hy : y = x
        · subst hy; simp [hx_xs]
        · by_cases hy2 : y ∈ xs <;> simp [hy, hy2, Function.update]
      · funext y
        by_cases hy : y = x
        · subst hy; simp [hx_xs]
        · by_cases hy2 : y ∈ xs <;> simp [hy, hy2, Function.update]
      · rfl
    rw [← heq, ← ih2]
    simp [fl_reverse_loop, hxt]

theorem fl_reverse_spec {H : Heap} {l : flist_type} {ns : List Nat}
    (hwf : WellFormed H l ns) (hne : ns ≠ []) (fuel : Nat) (hfuel : ns.length ≤ fuel) :
    fl_reverse fuel H l = some (H.swapped ns, { l with head := l.tail, tail := l.head }) := by
  obtain ⟨a, t, hh, ht, ha, hlast⟩ := hwf.ends hne
  obtain ⟨front, rfl⟩ := List.getLast?_eq_some_iff.mp hlast
  have hl := hwf.len_eq
  have hnext := hwf.next_cycle
  rw [hh, Path_snoc] at hnext
  have hprev := hwf.prev_cycle
  rw [ht, List.reverse_append, List.reverse_singleton, List.singleton_append, Path_cons]
    at hprev
  by_cases hf : front = []
  · subst hf
    have hat : a = t := by simpa using ha.symm
    subst hat
    have h1 : l.len = 1 := by simpa using hl
    have hnx : H.nx a = some a := hnext.2
    have hpv : H.pv a = some a := by simpa using hprev.2
    have e1 : H.swapped [a] = H := by
      apply Heap.ext_fields
      · simp
      · funext y
        by_cases hy : y = a <;> simp [hy, hnx, hpv]
      · funext y
        by_cases hy : y = a <;> simp [hy, hnx, hpv]
      · rfl
    have e2 : ({ l with head := l.tail, tail := l.head } : flist_type) = l := by
      cases l
      simp_all
    simp only [List.nil_append, e1, e2]
    simp [fl_reverse, h1]
  · have h1 : l.len ≠ 1 := by
      have : 0 < front.length := List.length_pos.mpr hf
      simp at hl; omega
    have hnd := hwf.nodup
    have ht_front : t ∉ front := fun hm => by
      have := (List.nodup_append.mp hnd).2.2 hm
      simp at this
    have hloop := fl_reverse_loop_spec t front H (some a) none fuel hnd hnext.1
      (by simp at hfuel; omega) (fun e => absurd e hf)
    have heq : (((H.swapped front).st_next t (H.pv t)).st_prev t (some t)).st_prev t (some a) =
        H.swapped (front ++ [t]) := by
      apply Heap.ext_fields
      · simp
      · funext y
        by_cases hy : y = t
        · subst hy; simp [ht_front]
        · by_cases hy2 : y ∈ front <;> simp [hy, hy2, Function.update]
      · funext y
        by_cases hy : y = t
        · subst hy; simp [ht_front, hnext.2]
        · by_cases hy2 : y ∈ front <;> simp [hy, hy2, Function.update]
      · rfl
    rw [← heq]
    simp [fl_reverse, h1, hh, ht, hloop, ht_front]

theorem WellFormed.swapped {H : Heap} {l : flist_type} {ns : List Nat}
    (hwf : WellFormed H l ns) :
    WellFormed (H.swapped ns) { l with head := l.tail, tail := l.head } ns.reverse := by
  refine ⟨by simpa using hwf.len_eq, List.nodup_reverse.mpr hwf.nodup, ?_, ?_, ?_, ?_, ?_⟩
  · intro x hx
    simpa using hwf.fresh x (by simpa using hx)
  · simp [hwf.tail_eq]
  · simp [hwf.head_eq]
  · refine (Path_congr (fun x hx => ?_) _ _).mpr hwf.prev_cycle
    have : x ∈ ns := by simpa using hx
    simp [this]
  · rw [List.reverse_reverse]
    refine (Path_congr (fun x hx => ?_) _ _).mpr hwf.next_cycle
    simp [hx]

/-- C9: on a well-formed non-empty container with nodes `ns`, `fl_reverse` returns a
well-formed container over the same nodes in reverse order, so its value sequence is the
reverse of the old one, with `head` and `tail` exchanged and `len`, `sum`, `sumsq`, `mean`
and `variance` unchanged; applying `fl_reverse` to the result returns exactly the heap and
the container it started from. -/
theorem C9_reverse (H : Heap) (l : flist_type) (ns : List Nat) (fuel : Nat)
    (hwf : WellFormed H l ns) (hne : ns ≠ []) (hfuel : ns.length ≤ fuel) :
    ∃ H2 l2, fl_reverse fuel H l = some (H2, l2) ∧ WellFormed H2 l2 ns.reverse ∧
      vals H2 ns.reverse = (vals H ns).reverse ∧ fl_values H2 l2 = some (vals H ns).reverse ∧
      l2.head = l.tail ∧ l2.tail = l.head ∧ SameMeasures l2 l ∧
      fl_reverse fuel H2 l2 = some (H, l) := by
  have hwf2 := hwf.swapped
  have hv : vals (H.swapped ns) ns.reverse = (vals H ns).reverse := by
    simp [vals]
  refine ⟨_, _, fl_reverse_spec hwf hne fuel hfuel, hwf2, hv, ?_, rfl, rfl,
    ⟨rfl, rfl, rfl, rfl, rfl⟩, ?_⟩
  · rw [hwf2.fl_values_eq, hv]
  · rw [fl_reverse_spec hwf2 (by simpa using hne) fuel (by simpa using hfuel),
      Heap.swapped_swapped H ns ns.reverse (fun x => by simp)]

/-- C9 at a concrete input: the container `[10, 65]`. -/
theorem C9_reverse_witness :
    (WellFormed H2ex l2ex [1, 0] ∧ [1, 0] ≠ [] ∧ [1, 0].length ≤ 2) ∧
    (∃ H2 l2, fl_reverse 2 H2ex l2ex = some (H2, l2) ∧ WellFormed H2 l2 [1, 0].reverse ∧
      vals H2 [1, 0].reverse = (vals H2ex [1, 0]).reverse ∧
      fl_values H2 l2 = some (vals H2ex [1, 0]).reverse ∧
      l2.head = l2ex.tail ∧ l2.tail = l2ex.head ∧ SameMeasures l2 l2ex ∧
      fl_reverse 2 H2 l2 = some (H2ex, l2ex)) ∧
    ((fl_reverse 2 H2ex l2ex).bind fun r => fl_values r.1 r.2) = some [65, 10] :=
  ⟨⟨wellFormed_ex2, by decide, by decide⟩,
    C9_reverse H2ex l2ex [1, 0] 2 wellFormed_ex2 (by decide) (by decide), by decide!⟩

/-! ## Merge sort: splitting -/

theorem Path_getElem?_null {f : Nat → Option Nat} {ns : List Nat} {p : Option Nat}
    (hp : Path f p ns none) {i x : Nat} (hx : ns[i]? = some x) : f x = ns[i + 1]? := by
  induction ns generalizing p i with
  | nil => simp at hx
  | cons a as ih =>
    cases i with
    | zero =>
      simp at hx
      subst hx
      cases as with
      | nil => simpa using hp.2
      | cons b bs => simpa using hp.2.1
    | succ j =>
      simp at hx
      simpa using ih hp.2 hx

theorem Path_start_getElem? {f : Nat → Option Nat} {ns : List Nat} {p q : Option Nat}
    (hp : Path f p ns q) (hne : ns ≠ []) : p = ns[0]? := by
  cases ns with
  | nil => exact absurd rfl hne
  | cons a as => simpa using hp.1

theorem fl_split_loop_spec {H : Heap} {ns : List Nat} {p : Option Nat}
    (hp : Path H.nx p ns none) (fuel j : Nat) (hj : 2 * j < ns.length)
    (hfuel : (ns.length - 1) / 2 - j < fuel) :
    fl_split_loop H fuel ns[2 * j]? ns[j]? =
      some (ns[2 * ((ns.length - 1) / 2)]?, ns[(ns.length - 1) / 2]?) := by
  induction fuel generalizing j with
  | zero => omega
  | succ f ih =>
    obtain ⟨x, hx⟩ : ∃ x, ns[2 * j]? = some x := ⟨ns[2 * j], by simp [hj]⟩
    have hj2 : j < ns.length := by omega
    obtain ⟨s, hs⟩ : ∃ s, ns[j]? = some s := ⟨ns[j], by simp [hj2]⟩
    have hfn := Path_getElem?_null hp hx
    by_cases h1 : 2 * j + 1 < ns.length
    · obtain ⟨y, hy⟩ : ∃ y, ns[2 * j + 1]? = some y := ⟨ns[2 * j + 1], by simp [h1]⟩
      have hfnn := Path_getElem?_null hp hy
      by_cases h2 : 2 * j + 2 < ns.length
      · obtain ⟨z, hz⟩ : ∃ z, ns[2 * j + 1 + 1]? = some z :=
          ⟨ns[2 * j + 1 + 1], by simp [h2]⟩
        have hsn := Path_getElem?_null hp hs
        have ih2 := ih (j + 1) (by omega) (by omega)
        have e : 2 * (j + 1) = 2 * j + 1 + 1 := by ring
        rw [e, hz] at ih2
        simp [fl_split_loop, hx, hfn, hy, hfnn, hz, hs, hsn, ih2]
      · have e : (ns.length - 1) / 2 = j := by omega
        have hnone : ns[2 * j + 1 + 1]? = none := by
          rw [List.getElem?_eq_none_iff]; omega
        simp [fl_split_loop, hx, hfn, hy, hfnn, hnone, e, hs]
    · have e : (ns.length - 1) / 2 = j := by omega
      have hnone : ns[2 * j + 1]? = none := by
        rw [List.getElem?_eq_none_iff]; omega
      simp [fl_split_loop, hx, hfn, hnone, e, hs]

theorem fl_split_spec {H : Heap} {ns : List Nat} {p : Option Nat}
    (hp : Path H.nx p ns none) (hnd : ns.Nodup) (hne : ns ≠ []) (fuel : Nat)
    (hfuel : ns.length ≤ fuel) :
    ∃ s, ns[(ns.length - 1) / 2]? = some s ∧
      fl_split_ fuel H p =
        some (H.st_next s none, (ns.drop ((ns.length - 1) / 2 + 1)).head?) ∧
      Path (H.st_next s none).nx p (ns.take ((ns.length - 1) / 2 + 1)) none ∧
      Path (H.st_next s none).nx (ns.drop ((ns.length - 1) / 2 + 1)).head?
        (ns.drop ((ns.length - 1) / 2 + 1)) none := by
  have hlen : 0 < ns.length := List.length_pos.mpr hne
  have hk : (ns.length - 1) / 2 < ns.length := by omega
  obtain ⟨s, hs⟩ : ∃ s, ns[(ns.length - 1) / 2]? = some s :=
    ⟨ns[(ns.length - 1) / 2], by rw [List.getElem?_eq_getElem]⟩
  have hp0 := Path_start_getElem? hp hne
  have hloop := fl_split_loop_spec hp fuel 0 (by omega) (by omega)
  simp only [Nat.mul_zero, ← hp0] at hloop
  have hsn := Path_getElem?_null hp hs
  have hsplit : ns.take ((ns.length - 1) / 2 + 1) ++ ns.drop ((ns.length - 1) / 2 + 1) = ns :=
    List.take_append_drop _ _
  have hlast : (ns.take ((ns.length - 1) / 2 + 1)).getLast? = some s := by
    rw [List.getLast?_take]
    simp [hs]
  have hnd2 := hnd
  rw [← hsplit] at hnd2 hp
  obtain ⟨m, h1, h2⟩ := (Path_append _ _ _ _ _).mp hp
  have hm : H.nx s = m := Path_last h1 hlast
  have hs_drop : s ∉ ns.drop ((ns.length - 1) / 2 + 1) :=
    fun hmem => (List.nodup_append.mp hnd2).2.2 (mem_of_getLast? hlast) hmem
  refine ⟨s, hs, ?_, ?_, ?_⟩
  · simp [fl_split_, hloop, hs, hsn, List.head?_drop]
  · have := Path_retarget (g := Function.update H.nx s none) h1 (List.nodup_append.mp hnd2).1
      hlast (fun x _ hxt => by simp [Function.update, hxt])
    simpa using this
  · rw [Heap.nx_st_next, Path_update_of_not_mem hs_drop, List.head?_drop, ← hsn, hm]
    exact h2

/-! ## Merge sort: merging -/

theorem fl_merge_eq_run (fuel : Nat) (H : Heap) (a b : Nat) :
    fl_merge_ fuel H (some a) (some b) = fl_merge_run fuel H (some a) (some b) none none := by
  simp only [fl_merge_, fl_merge_run]
  rfl

theorem fl_merge_run_exit (f : Nat) (H : Heap) (A B C last : Option Nat)
    (h : A = none ∨ B = none) :
    fl_merge_run (f + 1) H A B C last = fl_merge_finish H A B C last := by
  have : ¬ (A ≠ none ∧ B ≠ none) := by
    rcases h with h | h <;> simp [h]
  simp [fl_merge_run, fl_merge_loop, this]

theorem fl_merge_run_left (f : Nat) (H H1 : Heap) (a b : Nat) (C last C1 : Option Nat)
    (hlt : H.nm a < H.nm b)
    (htake : fl_merge_take H C last (some a) = some (H1, C1, some a)) :
    fl_merge_run (f + 1) H (some a) (some b) C last =
      fl_merge_run f H1 (H1.nx a) (some b) C1 (some a) := by
  simp [fl_merge_run, fl_merge_loop, hlt, htake]

theorem fl_merge_run_right (f : Nat) (H H1 : Heap) (a b : Nat) (C last C1 : Option Nat)
    (hlt : ¬ H.nm a < H.nm b)
    (htake : fl_merge_take H C last (some b) = some (H1, C1, some b)) :
    fl_merge_run (f + 1) H (some a) (some b) C last =
      fl_merge_run f H1 (some a) (H1.nx b) C1 (some b) := by
  simp [fl_merge_run, fl_merge_loop, hlt, htake]

theorem fl_merge_take_spec (Hc : Heap) (C last : Option Nat) (x : Nat)
    (hC : C = none ↔ last = none) (hx : last ≠ some x) :
    ∃ H1, fl_merge_take Hc C last (some x) =
        some (H1, (if C = none then some x else C), some x) ∧
      H1.nm = Hc.nm ∧ H1.brk = Hc.brk ∧ (∀ y, last ≠ some y → H1.nx y = Hc.nx y) ∧
      (∀ lst, last = some lst → H1.nx lst = some x) := by
  by_cases h : C = none
  · have hl : last = none := hC.mp h
    subst h hl
    exact ⟨Hc.st_prev x (some x), by simp [fl_merge_take], by simp, by simp, by simp, by simp⟩
  · have hl : last ≠ none := fun e => h (hC.mpr e)
    obtain ⟨lst, rfl⟩ := Option.ne_none_iff_exists'.mp hl
    refine ⟨(Hc.st_next lst (some x)).st_prev x (some x), by simp [fl_merge_take, h], by simp,
      by simp, ?_, ?_⟩
    · intro y hy
      have : y ≠ lst := fun e => hy (by rw [e])
      simp [Function.update, this]
    · intro l2 hl2
      cases hl2
      simp

@[simp] theorem merged_nil_left (nm : Nat → ℚ) (bs : List Nat) : merged nm [] bs = bs := by
  simp [merged]

@[simp] theorem merged_nil_right (nm : Nat → ℚ) (as : List Nat) : merged nm as [] = as := by
  simp [merged]

theorem merged_cons_cons (nm : Nat → ℚ) (a b : Nat) (as bs : List Nat) :
    merged nm (a :: as) (b :: bs) =
      if nm a < nm b then a :: merged nm as (b :: bs) else b :: merged nm (a :: as) bs := by
  simp [merged, List.cons_merge_cons]

theorem ite_some_ne_none (C : Option Nat) (a : Nat) :
    (if C = none then some a else C) ≠ none := by
  by_cases hc : C = none
  · rw [if_pos hc]; exact Option.some_ne_none a
  · rw [if_neg hc]; exact hc

set_option maxHeartbeats 1000000 in
theorem fl_merge_run_spec (nm : Nat → ℚ) :
    ∀ (n : Nat) (as bs : List Nat) (Hc : Heap) (C last : Option Nat) (fuel : Nat),
      as.length + bs.length = n → Hc.nm = nm → ¬ (as = [] ∧ bs = []) →
      Path Hc.nx as.head? as none → Path Hc.nx bs.head? bs none → (as ++ bs).Nodup →
      (∀ lst, last = some lst → lst ∉ as ++ bs) → (C = none ↔ last = none) →
      ((as = [] ∨ bs = []) → last ≠ none) → n ≤ fuel →
      ∃ H2, fl_merge_run fuel Hc as.head? bs.head? C last =
          some (H2, if C = none then (merged nm as bs).head? else C) ∧
        Path H2.nx (merged nm as bs).head? (merged nm as bs) none ∧
        (∀ lst, last = some lst → H2.nx lst = (merged nm as bs).head?) ∧
        H2.nm = nm ∧ H2.brk = Hc.brk ∧
        (∀ x, x ∉ as ++ bs → last ≠ some x → H2.nx x = Hc.nx x) := by
  intro n
  induction n with
  | zero =>
    intro as bs Hc C last fuel hn _ hne
    exfalso
    apply hne
    constructor
    · apply List.eq_nil_of_length_eq_zero; omega
    · apply List.eq_nil_of_length_eq_zero; omega
  | succ n ih =>
    intro as bs Hc C last fuel hn hnm hne hpa hpb hnd hlast hC hlst hfuel
    obtain ⟨f, rfl⟩ : ∃ f, fuel = f + 1 := ⟨fuel - 1, by omega⟩
    cases as with
    | nil =>
      cases bs with
      | nil => exact absurd ⟨rfl, rfl⟩ hne
      | cons b bs =>
        obtain ⟨lst, rfl⟩ := Option.ne_none_iff_exists'.mp (hlst (Or.inl rfl))
        have hCn : C ≠ none := fun e => by simpa using hC.mp e
        have hlb : lst ∉ b :: bs := by simpa using hlast lst rfl
        refine ⟨(Hc.st_next lst (some b)).st_prev b (some lst), ?_, ?_, ?_, by simpa using hnm,
          by simp, ?_⟩
        · simp only [List.head?_nil, List.head?_cons]
          rw [fl_merge_run_exit _ _ _ _ _ _ (Or.inl rfl)]
          simp [fl_merge_finish, hCn]
        · simpa [Path_update_of_not_mem hlb] using hpb
        · intro l2 hl2
          cases hl2
          simp
        · intro x _ hx
          have : x ≠ lst := fun e => hx (by rw [e])
          simp [Function.update, this]
    | cons a as =>
      cases bs with
      | nil =>
        obtain ⟨lst, rfl⟩ := Option.ne_none_iff_exists'.mp (hlst (Or.inr rfl))
        have hCn : C ≠ none := fun e => by simpa using hC.mp e
        have hla : lst ∉ a :: as := by simpa using hlast lst rfl
        refine ⟨(Hc.st_next lst (some a)).st_prev a (some lst), ?_, ?_, ?_, by simpa using hnm,
          by simp, ?_⟩
        · simp only [List.head?_nil, List.head?_cons]
          rw [fl_merge_run_exit _ _ _ _ _ _ (Or.inr rfl)]
          simp [fl_merge_finish, hCn]
        · simpa [Path_update_of_not_mem hla] using hpa
        · intro l2 hl2
          cases hl2
          simp
        · intro x _ hx
          have : x ≠ lst := fun e => hx (by rw [e])
          simp [Function.update, this]
      | cons b bs =>
        have hnd2 := List.nodup_cons.mp hnd
        have hndb : b ∉ a :: as ∧ (a :: as ++ bs).Nodup := by
          have := List.nodup_middle.mp hnd
          exact ⟨fun hm => (List.nodup_cons.mp this).1 (List.mem_append_left _ hm),
            (List.nodup_cons.mp this).2⟩
        by_cases hlt : nm a < nm b
        · have hla : last ≠ some a := fun e => hlast a e (by simp)
          obtain ⟨H1, t1, t2, t3, t4, t5⟩ := fl_merge_take_spec Hc C last a hC hla
          have hfr : ∀ y ∈ as ++ b :: bs, H1.nx y = Hc.nx y := fun y hy =>
            t4 y (fun e => hlast y e (List.mem_cons_of_mem _ hy))
          have h1a : H1.nx a = as.head? := by
            rw [t4 a hla]
            cases as with
            | nil => simpa using hpa.2
            | cons a2 as2 => simpa using hpa.2.1
          have hpa2 : Path H1.nx as.head? as none := by
            rw [Path_congr (fun y hy => hfr y (List.mem_append_left _ hy)), ← h1a, t4 a hla]
            exact hpa.2
          have hpb2 : Path H1.nx (b :: bs).head? (b :: bs) none :=
            (Path_congr (fun y hy => hfr y (List.mem_append_right _ hy)) _ _).mpr hpb
          obtain ⟨H2, g1, g2, g3, g4, g5, g6⟩ := ih as (b :: bs) H1
            (if C = none then some a else C) (some a) f (by simp at hn ⊢; omega)
            (by rw [t2, hnm]) (by simp) hpa2 hpb2 hnd2.2
            (fun lst e => by cases e; exact hnd2.1)
            ⟨fun e => absurd e (ite_some_ne_none C a), fun e => by cases e⟩
            (fun _ => by simp) (by omega)
          have hC1 := ite_some_ne_none C a
          rw [if_neg hC1] at g1
          have hm : merged nm (a :: as) (b :: bs) = a :: merged nm as (b :: bs) := by
            rw [merged_cons_cons, if_pos hlt]
          refine ⟨H2, ?_, ?_, ?_, g4, by rw [g5, t3], ?_⟩
          · rw [hm]
            have := fl_merge_run_left f Hc H1 a b C last _ (by rw [hnm]; exact hlt) t1
            simp only [List.head?_cons] at this ⊢
            rw [this, h1a]
            exact g1
          · rw [hm]
            exact ⟨rfl, by rw [g3 a rfl]; exact g2⟩
          · intro lst hl
            rw [hm, List.head?_cons, ← t5 lst hl]
            apply g6
            · intro hmem
              exact hlast lst hl (List.mem_cons_of_mem _ hmem)
            · intro e
              cases e
              exact hla hl
          · intro x hx hlx
            have hx1 : x ∉ as ++ b :: bs := fun hm => hx (List.mem_cons_of_mem _ hm)
            have hx2 : some a ≠ some x := by
              intro e
              cases e
              exact hx (by simp)
            rw [g6 x hx1 hx2, t4 x hlx]
        · have hlb : last ≠ some b := fun e => hlast b e (by simp)
          obtain ⟨H1, t1, t2, t3, t4, t5⟩ := fl_merge_take_spec Hc C last b hC hlb
          have hfr : ∀ y ∈ a :: as ++ bs, H1.nx y = Hc.nx y := fun y hy =>
            t4 y (fun e => hlast y e (by
              simp only [List.cons_append, List.mem_cons, List.mem_append] at hy ⊢
              tauto))
          have h1b : H1.nx b = bs.head? := by
            rw [t4 b hlb]
            cases bs with
            | nil => simpa using hpb.2
            | cons b2 bs2 => simpa using hpb.2.1
          have hpb2 : Path H1.nx bs.head? bs none := by
            rw [Path_congr (fun y hy => hfr y (List.mem_append_right _ hy)), ← h1b, t4 b hlb]
            exact hpb.2
          have hpa2 : Path H1.nx (a :: as).head? (a :: as) none :=
            (Path_congr (fun y hy => hfr y (List.mem_append_left _ hy)) _ _).mpr hpa
          obtain ⟨H2, g1, g2, g3, g4, g5, g6⟩ := ih (a :: as) bs H1
            (if C = none then some b else C) (some b) f (by simp at hn ⊢; omega)
            (by rw [t2, hnm]) (by simp) hpa2 hpb2 hndb.2
            (fun lst e => by
              cases e
              intro hm
              rcases List.mem_append.mp hm with h | h
              · exact hndb.1 h
              · exact (List.nodup_cons.mp (List.nodup_append.mp hnd).2.1).1 h)
            ⟨fun e => absurd e (ite_some_ne_none C b), fun e => by cases e⟩
            (fun _ => by simp) (by omega)
          have hC1 := ite_some_ne_none C b
          rw [if_neg hC1] at g1
          have hm : merged nm (a :: as) (b :: bs) = b :: merged nm (a :: as) bs := by
            rw [merged_cons_cons, if_neg hlt]
          refine ⟨H2, ?_, ?_, ?_, g4, by rw [g5, t3], ?_⟩
          · rw [hm]
            have := fl_merge_run_right f Hc H1 a b C last _ (by rw [hnm]; exact hlt) t1
            simp only [List.head?_cons] at this ⊢
            rw [this, h1b]
            exact g1
          · rw [hm]
            exact ⟨rfl, by rw [g3 b rfl]; exact g2⟩
          · intro lst hl
            rw [hm, List.head?_cons, ← t5 lst hl]
            apply g6
            · intro hmem
              apply hlast lst hl
              simp only [List.cons_append, List.mem_cons, List.mem_append] at hmem ⊢
              tauto
            · intro e
              cases e
              exact hlb hl
          · intro x hx hlx
            have hx1 : x ∉ a :: as ++ bs := by
              intro hm
              apply hx
              simp only [List.cons_append, List.mem_cons, List.mem_append] at hm ⊢
              tauto
            have hx2 : some b ≠ some x := by
              intro e
              cases e
              exact hx (by simp)
            rw [g6 x hx1 hx2, t4 x hlx]

theorem fl_merge_spec {H : Heap} {as bs : List Nat} (hpa : Path H.nx as.head? as none)
    (hpb : Path H.nx bs.head? bs none) (hnd : (as ++ bs).Nodup) (fuel : Nat)
    (hfuel : as.length + bs.length ≤ fuel) :
    ∃ H2, fl_merge_ fuel H as.head? bs.head? = some (H2, (merged H.nm as bs).head?) ∧
      Path H2.nx (merged H.nm as bs).head? (merged H.nm as bs) none ∧ H2.nm = H.nm ∧
      H2.brk = H.brk ∧ (∀ x, x ∉ as ++ bs → H2.nx x = H.nx x) := by
  cases as with
  | nil => exact ⟨H, by simp [fl_merge_], by simpa using hpb, rfl, rfl, fun _ _ => rfl⟩
  | cons a as =>
    cases bs with
    | nil => exact ⟨H, by simp [fl_merge_], by simpa using hpa, rfl, rfl, fun _ _ => rfl⟩
    | cons b bs =>
      obtain ⟨H2, g1, g2, -, g4, g5, g6⟩ := fl_merge_run_spec H.nm _ (a :: as) (b :: bs) H none
        none fuel rfl rfl (by simp) hpa hpb hnd (fun _ e => by cases e) Iff.rfl
        (fun h => by simp at h) hfuel
      refine ⟨H2, ?_, g2, g4, g5, fun x hx => g6 x hx (by simp)⟩
      simp only [List.head?_cons] at g1 ⊢
      rw [fl_merge_eq_run, g1]
      simp

theorem merged_perm (nm : Nat → ℚ) (as bs : List Nat) : (merged nm as bs).Perm (as ++ bs) :=
  List.merge_perm_append _

theorem mem_merged {nm : Nat → ℚ} {as bs : List Nat} {x : Nat} :
    x ∈ merged nm as bs ↔ x ∈ as ∨ x ∈ bs := by
  simp [merged, List.mem_merge]

theorem merged_sorted (nm : Nat → ℚ) :
    ∀ (as bs : List Nat), (as.map nm).Sorted (· ≤ ·) → (bs.map nm).Sorted (· ≤ ·) →
      ((merged nm as bs).map nm).Sorted (· ≤ ·) := by
  intro as
  induction as with
  | nil => intro bs _ hb; simpa using hb
  | cons a as iha =>
    intro bs
    induction bs with
    | nil => intro ha _; simpa using ha
    | cons b bs ihb =>
      intro ha hb
      rw [List.map_cons, List.sorted_cons] at ha hb
      rw [merged_cons_cons]
      by_cases hlt : nm a < nm b
      · rw [if_pos hlt, List.map_cons, List.sorted_cons]
        refine ⟨?_, iha (b :: bs) ha.2 (by rw [List.map_cons, List.sorted_cons]; exact hb)⟩
        intro y hy
        obtain ⟨x, hx, rfl⟩ := List.mem_map.mp hy
        rcases mem_merged.mp hx with h | h
        · exact ha.1 _ (List.mem_map_of_mem _ h)
        · rcases List.mem_cons.mp h with h | h
          · rw [h]; exact le_of_lt hlt
          · exact le_trans (le_of_lt hlt) (hb.1 _ (List.mem_map_of_mem _ h))
      · rw [if_neg hlt, List.map_cons, List.sorted_cons]
        have hba : nm b ≤ nm a := not_lt.mp hlt
        refine ⟨?_, ihb (by rw [List.map_cons, List.sorted_cons]; exact ha) hb.2⟩
        intro y hy
        obtain ⟨x, hx, rfl⟩ := List.mem_map.mp hy
        rcases mem_merged.mp hx with h | h
        · rcases List.mem_cons.mp h with h | h
          · rw [h]; exact hba
          · exact le_trans hba (ha.1 _ (List.mem_map_of_mem _ h))
        · exact hb.1 _ (List.mem_map_of_mem _ h)

/-! ## Merge sort: the recursion -/

theorem fl_merge_sort_step (f : Nat) (H H1 H2 H3 : Heap) (a : Nat) (hn p2 q2 p3 : Option Nat)
    (r : Option (Heap × Option Nat)) (hnx : H.nx a = hn) (hne : hn ≠ none)
    (h1 : fl_split_ f H (some a) = some (H1, p2))
    (h2 : fl_merge_sort_ f H1 (some a) = some (H2, q2))
    (h3 : fl_merge_sort_ f H2 p2 = some (H3, p3))
    (h4 : fl_merge_ f H3 q2 p3 = r) :
    fl_merge_sort_ (f + 1) H (some a) = r := by
  simp [fl_merge_sort_, hnx, hne, h1, h2, h3, h4]

set_option maxHeartbeats 1000000 in
theorem fl_merge_sort_spec :
    ∀ (n : Nat) (ns : List Nat) (H : Heap) (fuel : Nat), ns.length = n →
      Path H.nx ns.head? ns none → ns.Nodup → ns.length + 1 ≤ fuel →
      ∃ H2 ns2, fl_merge_sort_ fuel H ns.head? = some (H2, ns2.head?) ∧
        Path H2.nx ns2.head? ns2 none ∧ ns2.Perm ns ∧ (ns2.map H.nm).Sorted (· ≤ ·) ∧
        H2.nm = H.nm ∧ H2.brk = H.brk ∧ (∀ x, x ∉ ns → H2.nx x = H.nx x) := by
  intro n
  induction n using Nat.strong_induction_on with
  | _ n ih =>
    intro ns H fuel hlen hp hnd hfuel
    obtain ⟨f, rfl⟩ : ∃ f, fuel = f + 1 := ⟨fuel - 1, by omega⟩
    cases ns with
    | nil =>
      exact ⟨H, [], by simp [fl_merge_sort_], by simp, List.Perm.refl _, by simp, rfl, rfl,
        fun _ _ => rfl⟩
    | cons a rest =>
      cases rest with
      | nil =>
        have hnx : H.nx a = none := by simpa using hp.2
        exact ⟨H, [a], by simp [fl_merge_sort_, hnx], by simpa using hnx, List.Perm.refl _,
          by simp, rfl, rfl, fun _ _ => rfl⟩
      | cons b rest =>
        have hnx : H.nx a = some b := by simpa using hp.2.1
        have hp2 : Path H.nx (some a) (a :: b :: rest) none := by simpa using hp
        obtain ⟨s, hs, hsplit, hL, hR⟩ :=
          fl_split_spec hp2 hnd (by simp) f (by simp at hfuel ⊢; omega)
        generalize hk : ((a :: b :: rest).length - 1) / 2 + 1 = k at hsplit hL hR
        have hlen2 : (a :: b :: rest).length = rest.length + 2 := rfl
        rw [hlen2] at hk
        have hk1 : 1 ≤ k := by omega
        have hk2 : k < (a :: b :: rest).length := by omega
        have hLR : (a :: b :: rest).take k ++ (a :: b :: rest).drop k = a :: b :: rest :=
          List.take_append_drop _ _
        generalize hLdef : (a :: b :: rest).take k = L at hL hLR
        generalize hRdef : (a :: b :: rest).drop k = R at hR hLR hsplit
        have hLlen : L.length = k := by rw [← hLdef]; simp; omega
        have hRlen : R.length = (a :: b :: rest).length - k := by rw [← hRdef]; simp
        have hLhead : L.head? = some a := by
          rw [← hLdef]
          obtain ⟨k2, rfl⟩ : ∃ k2, k = k2 + 1 := ⟨k - 1, by omega⟩
          simp
        have hnd2 := hnd
        rw [← hLR] at hnd2
        have hnd3 := List.nodup_append.mp hnd2
        have hsmem : s ∈ a :: b :: rest := List.mem_iff_getElem?.mpr ⟨_, hs⟩
        rw [← hLhead] at hL
        obtain ⟨H2, L2, a1, a2, a3, a4, a5, a6, a7⟩ :=
          ih L.length (by rw [hLlen, ← hlen]; exact hk2) L (H.st_next s none) f rfl hL hnd3.1
            (by rw [hLlen]; omega)
        rw [hLhead] at a1
        have hR2 : Path H2.nx R.head? R none :=
          (Path_congr (fun x hx => a7 x (fun hm => hnd3.2.2 hm hx)) _ _).mpr hR
        obtain ⟨H3, R2, b1, b2, b3, b4, b5, b6, b7⟩ :=
          ih R.length (by rw [hRlen, ← hlen]; omega) R H2 f rfl hR2 hnd3.2.1
            (by rw [hRlen]; omega)
        have hL3 : Path H3.nx L2.head? L2 none :=
          (Path_congr (fun x hx => b7 x (fun hm => hnd3.2.2 (a3.mem_iff.mp hx) hm)) _ _).mpr a2
        have hperm : (L2 ++ R2).Perm (a :: b :: rest) := by
          rw [← hLR]
          exact List.Perm.append a3 b3
        have hnd4 : (L2 ++ R2).Nodup := hperm.nodup_iff.mpr hnd
        obtain ⟨H4, c1, c2, c3, c4, c5⟩ := fl_merge_spec hL3 b2 hnd4 f (by
          have := hperm.length_eq
          rw [List.length_append] at this
          omega)
        have hnm2 : H2.nm = H.nm := by rw [a5]; simp
        have hnm3 : H3.nm = H.nm := by rw [b5, hnm2]
        refine ⟨H4, merged H3.nm L2 R2, ?_, c2, (merged_perm _ _ _).trans hperm, ?_,
          by rw [c3, hnm3], by rw [c4, b6, a6]; simp, ?_⟩
        · exact fl_merge_sort_step f H _ H2 H3 a (some b) R.head? L2.head? R2.head? _ hnx
            (by simp) hsplit a1 b1 c1
        · rw [← hnm3]
          apply merged_sorted
          · rw [hnm3]; simpa using a4
          · rw [hnm3, ← hnm2]; exact b4
        · intro x hx
          have hxL : x ∉ L := fun hm => hx (by rw [← hLR]; exact List.mem_append_left _ hm)
          have hxR : x ∉ R := fun hm => hx (by rw [← hLR]; exact List.mem_append_right _ hm)
          have hxs : x ≠ s := fun e => hx (e ▸ hsmem)
          rw [c5 x (fun hm => hx (hperm.mem_iff.mp hm)), b7 x hxR, a7 x hxL]
          simp [Function.update, hxs]

/-! ## Sorting a container -/

theorem fl_sort_walk_spec {H : Heap} (xs : List Nat) :
    ∀ (p : Option Nat) (fuel : Nat), Path H.nx p xs none → xs ≠ [] → xs.length ≤ fuel →
      fl_sort_walk H fuel p = some xs.getLast? := by
  induction xs with
  | nil => intro _ _ _ h; exact absurd rfl h
  | cons a as ih =>
    intro p fuel hp _ hfuel
    obtain ⟨f, rfl⟩ : ∃ f, fuel = f + 1 := ⟨fuel - 1, by simp at hfuel; omega⟩
    obtain ⟨h1, h2⟩ := hp
    subst h1
    cases as with
    | nil =>
      have hnx : H.nx a = none := h2
      simp [fl_sort_walk, hnx]
    | cons b bs =>
      have hnx : H.nx a = some b := h2.1
      have := ih (H.nx a) f h2 (by simp) (by simp at hfuel ⊢; omega)
      rw [hnx] at this
      simp [fl_sort_walk, hnx, this, List.getLast?_cons_cons]

theorem fl_sort_spec {H : Heap} {l : flist_type} {ns : List Nat} (hwf : WellFormed H l ns)
    (hne : ns ≠ []) (fuel : Nat) (hfuel : ns.length + 1 ≤ fuel) :
    ∃ H2 ns2, fl_sort fuel H l =
        some (H2, { l with head := ns2.head?, tail := ns2.getLast? }) ∧
      Path H2.nx ns2.head? ns2 ns2.head? ∧ ns2.Perm ns ∧ (vals H ns2).Sorted (· ≤ ·) ∧
      H2.nm = H.nm ∧ H2.brk = H.brk := by
  obtain ⟨a, t, hh, ht, ha, hlast⟩ := hwf.ends hne
  have h0 : l.len ≠ 0 := fun h => hne (hwf.len_zero_iff.mp h)
  have hpva : H.pv a = some t := by
    have := Path_last hwf.prev_cycle (by simpa using ha)
    rw [this, ht]
  have hp1 : Path (H.st_next t none).nx ns.head? ns none := by
    have h1 := hwf.next_cycle
    rw [hh] at h1
    have := Path_retarget (g := Function.update H.nx t none) h1 hwf.nodup hlast
      (fun x _ hxt => by simp [Function.update, hxt])
    simpa [ha] using this
  obtain ⟨H2, ns2, g1, g2, g3, g4, g5, g6, -⟩ :=
    fl_merge_sort_spec ns.length ns (H.st_next t none) fuel rfl hp1 hwf.nodup hfuel
  have hne2 : ns2 ≠ [] := fun e => hne (by simpa [e] using g3)
  obtain ⟨h2, hh2⟩ : ∃ h2, ns2.head? = some h2 := ⟨ns2.head hne2, List.head?_eq_head hne2⟩
  obtain ⟨t2, ht2⟩ : ∃ t2, ns2.getLast? = some t2 :=
    ⟨ns2.getLast hne2, List.getLast?_eq_getLast _ hne2⟩
  have hwalk := fl_sort_walk_spec ns2 ns2.head? fuel g2 hne2 (by rw [g3.length_eq]; omega)
  have hnd2 : ns2.Nodup := g3.nodup_iff.mpr hwf.nodup
  refine ⟨(H2.st_next t2 (some h2)).st_prev h2 (some t2), ns2, ?_, ?_, g3, ?_, by simp [g5],
    by simp [g6]⟩
  · rw [ha] at g1
    rw [hh2] at hwalk
    simp [fl_sort, h0, hh, hpva, g1, hh2, hwalk, ht2]
  · have := Path_retarget (g := Function.update H2.nx t2 (some h2)) g2 hnd2 ht2
      (fun x _ hxt => by simp [Function.update, hxt])
    simpa [hh2] using this
  · simpa [vals] using g4

/-- C10: on a well-formed container with nodes `ns`, `fl_sort` returns a container whose
value sequence, read from `head` along `next` for `len` steps, is non-decreasing and a
permutation of the old sequence; `tail` is the node reached from `head` by `len - 1`
next-links (the last node of that sequence); `len`, `sum`, `sumsq`, `mean` and `variance`
are untouched; and a sequence that was already non-decreasing is returned as it was. -/
theorem C10_sort (H : Heap) (l : flist_type) (ns : List Nat) (fuel : Nat)
    (hwf : WellFormed H l ns) (hfuel : ns.length + 1 ≤ fuel) :
    ∃ H2 l2 s, fl_sort fuel H l = some (H2, l2) ∧ fl_values H2 l2 = some s ∧
      s.Sorted (· ≤ ·) ∧ s.Perm (vals H ns) ∧
      follow H2 (l2.len.toNat - 1) l2.head = l2.tail ∧ SameMeasures l2 l ∧
      ((vals H ns).Sorted (· ≤ ·) → s = vals H ns) := by
  by_cases hne : ns = []
  · subst hne
    have h0 : l.len = 0 := hwf.len_zero_iff.mpr rfl
    have hh : l.head = none := hwf.nil_iff.mpr rfl
    have ht : l.tail = none := by simp [hwf.tail_eq]
    exact ⟨H, l, [], by simp [fl_sort, h0], by simp [fl_values, h0, walk], by simp, by simp,
      by simp [h0, follow, hh, ht], ⟨rfl, rfl, rfl, rfl, rfl⟩, fun _ => rfl⟩
  · obtain ⟨H2, ns2, g1, g2, g3, g4, g5, -⟩ := fl_sort_spec hwf hne fuel hfuel
    have hlen : l.len.toNat = ns2.length := by
      rw [hwf.len_eq, Int.toNat_ofNat, g3.length_eq]
    have hne2 : ns2 ≠ [] := fun e => hne (by simpa [e] using g3)
    have hpos : 0 < ns2.length := List.length_pos.mpr hne2
    have hv : vals H2 ns2 = vals H ns2 := vals_eq_of_nm_eq g5 ns2
    have hperm : (vals H ns2).Perm (vals H ns) := List.Perm.map _ g3
    refine ⟨H2, _, vals H ns2, g1, ?_, g4, hperm, ?_, ⟨rfl, rfl, rfl, rfl, rfl⟩, ?_⟩
    · simp only [fl_values, hlen]
      rw [Path_walk g2, hv]
    · simp only [hlen]
      rw [Path_follow g2 (by omega), List.getLast?_eq_getElem?]
    · intro hs
      exact List.eq_of_perm_of_sorted hperm g4 hs

/-- C10 at a concrete input: the container `[10, 65]`; with the run of the specification,
the container filled with 5, 25, 10, 68, 20, 65, 100, -5, -500, which sorts to
`[-500, -5, 5, 10, 20, 25, 65, 68, 100]` with `sum = -212` and `len = 9`. -/
theorem C10_sort_witness :
    (WellFormed H2ex l2ex [1, 0] ∧ [1, 0].length + 1 ≤ 3) ∧
    (∃ H2 l2 s, fl_sort 3 H2ex l2ex = some (H2, l2) ∧ fl_values H2 l2 = some s ∧
      s.Sorted (· ≤ ·) ∧ s.Perm (vals H2ex [1, 0]) ∧
      follow H2 (l2.len.toNat - 1) l2.head = l2.tail ∧ SameMeasures l2 l2ex ∧
      ((vals H2ex [1, 0]).Sorted (· ≤ ·) → s = vals H2ex [1, 0])) ∧
    ((fl_from_arr H0 fl_make_flist [5, 25, 10, 68, 20, 65, 100, -5, -500]).bind fun r =>
      (fl_sort 10 r.1 r.2).bind fun r =>
        some (fl_values r.1 r.2, r.2.sum, r.2.len, follow r.1 8 r.2.head == r.2.tail)) =
      some (some [-500, -5, 5, 10, 20, 25, 65, 68, 100], -212, 9, true) :=
  ⟨⟨wellFormed_ex2, by decide⟩, C10_sort H2ex l2ex [1, 0] 3 wellFormed_ex2 (by decide),
    by decide!⟩

/-! ## The comparator -/

theorem FL_EPSILON_pos : (0 : ℚ) < FL_EPSILON := by unfold FL_EPSILON; norm_num

theorem ite_gt_eq_max (x y : ℚ) : (if x > y then x else y) = max x y := by
  rcases lt_or_le y x with h | h
  · rw [if_pos h, max_eq_left (le_of_lt h)]
  · rw [if_neg (not_lt.mpr h), max_eq_right h]

theorem fl_near_iff_cases (a b : ℚ) :
    fl_near a b = true ↔
      if max |a| |b| * FL_EPSILON < FL_EPSILON then |a - b| ≤ FL_EPSILON
      else |a - b| ≤ max |a| |b| * FL_EPSILON := by
  unfold fl_near
  simp only [ite_gt_eq_max, gt_iff_lt]
  split <;> simp

theorem tolerance_eq (d : ℚ) :
    FL_EPSILON * max 1 d = if d * FL_EPSILON < FL_EPSILON then FL_EPSILON else d * FL_EPSILON := by
  have hpos := FL_EPSILON_pos
  split
  · rename_i h
    have hd : d < 1 := by
      by_contra hc
      have : FL_EPSILON ≤ d * FL_EPSILON := le_mul_of_one_le_left (le_of_lt hpos) (not_lt.mp hc)
      exact absurd h (not_lt.mpr this)
    rw [max_eq_left (le_of_lt hd), mul_one]
  · rename_i h
    have hd : 1 ≤ d := by
      by_contra hc
      exact h (mul_lt_of_lt_one_left hpos (not_le.mp hc))
    rw [max_eq_right hd, mul_comm]

/-- Claim C17: over the rationals with `FL_EPSILON = 1e-9`, `fl_near a b` holds exactly when
`|a - b| ≤ FL_EPSILON * max(1, |a|, |b|)`; the absolute tolerance `FL_EPSILON` is the bound
when `max(|a|,|b|) * FL_EPSILON < FL_EPSILON` and the relative tolerance
`max(|a|,|b|) * FL_EPSILON` otherwise; and `fl_near` is reflexive and symmetric. -/
theorem C17_near (a b : ℚ) :
    FL_EPSILON = 1 / 1000000000 ∧
    (fl_near a b = true ↔ |a - b| ≤ FL_EPSILON * max 1 (max |a| |b|)) ∧
    (max |a| |b| * FL_EPSILON < FL_EPSILON → (fl_near a b = true ↔ |a - b| ≤ FL_EPSILON)) ∧
    (¬ max |a| |b| * FL_EPSILON < FL_EPSILON →
      (fl_near a b = true ↔ |a - b| ≤ max |a| |b| * FL_EPSILON)) ∧
    fl_near a a = true ∧
    (fl_near a b = true ↔ fl_near b a = true) := by
  refine ⟨by unfold FL_EPSILON; norm_num, ?_, ?_, ?_, fl_near_self a, by rw [fl_near_comm]⟩
  · rw [fl_near_iff_cases, tolerance_eq]
    split <;> rfl
  · intro h
    rw [fl_near_iff_cases, if_pos h]
  · intro h
    rw [fl_near_iff_cases, if_neg h]

/-! ## Containers built from arrays -/

theorem wellFormed_fresh (H : Heap) : WellFormed H fl_make_flist [] :=
  ⟨rfl, List.nodup_nil, by simp, rfl, rfl, by simp [Path, fl_make_flist],
    by simp [Path, fl_make_flist]⟩

theorem fl_from_arr_spec (xs : List ℚ) : ∀ {H : Heap} {l : flist_type} {ns : List Nat},
    WellFormed H l ns →
    ∃ H2 l2 ms, fl_from_arr H l xs = some (H2, l2) ∧ WellFormed H2 l2 (ns ++ ms) ∧
      vals H2 (ns ++ ms) = vals H ns ++ xs := by
  induction xs with
  | nil =>
    intro H l ns hwf
    exact ⟨H, l, [], rfl, by simpa using hwf, by simp⟩
  | cons v vs ih =>
    intro H l ns hwf
    obtain ⟨H1, l1, h1, hwf1, hnm, -, -, -⟩ := fl_append_spec hwf v
    obtain ⟨H2, l2, ms, h2, hwf2, hv⟩ := ih hwf1
    have hb : H.brk ∉ ns := fun hm => lt_irrefl _ (hwf.fresh _ hm)
    have hv1 : vals H1 (ns ++ [H.brk]) = vals H ns ++ [v] := by
      simp only [vals, List.map_append, List.map_cons, List.map_nil, hnm, Function.update_same]
      congr 1
      apply List.map_congr_left
      intro x hx
      have hne : x ≠ H.brk := fun h => hb (h ▸ hx)
      rw [Function.update_noteq hne]
    refine ⟨H2, l2, H.brk :: ms, by simp [fl_from_arr, h1, h2], by simpa using hwf2, ?_⟩
    have : ns ++ H.brk :: ms = ns ++ [H.brk] ++ ms := by simp
    rw [this, hv, hv1]
    simp

/-! ## Evaluations -/

/-- Claim C12 at the container `[1, 2, 3]` (nodes `0`, `1`, `2`, built by `fl_from_arr`):
after `fl_sort` the `next` links still run `0, 1, 2, 0`, but the `prev` link of node `1` is
node `1` itself and the `prev` link of node `2` is node `1`, so `n.prev.next == n` fails at
node `1` and `prev` does not run the cycle backwards. -/
theorem C12_sort_prev_links :
    ((fl_from_arr H0 fl_make_flist [1, 2, 3]).bind fun r => fl_sort 4 r.1 r.2).map
      (fun r => (r.2.head, r.2.tail, [0, 1, 2].map r.1.nx, [0, 1, 2].map r.1.pv)) =
    some (some 0, some 2, [some 1, some 2, some 0], [some 2, some 1, some 1]) := by
  decide!

/-- Claim C14 at the container emptied by `fl_append(l, 5); fl_pop(l)`: `fl_push(l, 7)`
yields `len == 1` with `head` the new node `1` and `tail` the stale zeroed node `0`, the two
linked into a cycle of two nodes, whereas `fl_append(l, 7)` on the same container yields one
node that is head and tail and its own `next` and `prev`. -/
theorem C14_push_after_pop :
    ((fl_append H0 fl_make_flist 5).bind fun r => fl_pop r.1 r.2).map
        (fun r => (r.2.1.len, r.2.1.head, r.2.1.tail)) = some (0, some 0, some 0) ∧
    (((fl_append H0 fl_make_flist 5).bind fun r => fl_pop r.1 r.2).bind fun r =>
        fl_push r.1 r.2.1 7).map
        (fun p => (p.2.len, [p.2.head, p.2.tail, p.1.nx 1, p.1.pv 1, p.1.nx 0], p.1.nm 0)) =
      some (1, [some 1, some 0, some 0, some 0, some 1], 0) ∧
    (((fl_append H0 fl_make_flist 5).bind fun r => fl_pop r.1 r.2).bind fun r =>
        fl_append r.1 r.2.1 7).map
        (fun a => (a.2.len, [a.2.head, a.2.tail, a.1.nx 1, a.1.pv 1])) =
      some (1, [some 1, some 1, some 1, some 1]) := by
  exact ⟨by decide!, by decide!, by decide!⟩

/-- Claim C15 at the container `[10, 65]` (nodes `0`, `1`) and `index == len == 2`:
`fl_remove_index` does not reject the index; it returns `l` after unlinking the tail node,
with `len == 1`, `sum == 10` and `tail` still the unlinked node `1`; only `index == 3`
is rejected with the container unchanged. -/
theorem C15_remove_index_at_len :
    (fl_from_arr H0 fl_make_flist [10, 65]).map
        (fun r => (r.2.len, r.2.sum, [r.2.head, r.2.tail], fl_values r.1 r.2)) =
      some (2, 75, [some 0, some 1], some [10, 65]) ∧
    ((fl_from_arr H0 fl_make_flist [10, 65]).bind fun r => fl_remove_index r.1 r.2 2).map
        (fun s => (s.2.2, s.2.1.len, s.2.1.sum, [s.2.1.head, s.2.1.tail, s.1.nx 0])) =
      some (true, 1, 10, [some 0, some 1, some 0]) ∧
    ((fl_from_arr H0 fl_make_flist [10, 65]).bind fun r => fl_remove_index r.1 r.2 3).map
        (fun t => (t.2.2, t.2.1.len, t.2.1.sum, fl_values t.1 t.2.1)) =
      some (false, 2, 75, some [10, 65]) := by
  exact ⟨by decide!, by decide!, by decide!⟩

/-- Claim C18 at the container `[1, 2]`: `fl_copy` returns a container whose values from
head to tail are `[2, 1]`, and `fl_equals` of the copy and the original returns `0`. -/
theorem C18_copy_order :
    (fl_from_arr H0 fl_make_flist [1, 2]).bind (fun x =>
      (fl_copy 3 x.1 (some x.2)).bind fun c => c.2.map fun cl =>
        (fl_values x.1 x.2, fl_values c.1 cl, fl_equals 3 c.1 (some cl) (some x.2))) =
    some (some [1, 2], some [2, 1], some 0) := by
  decide!

/-- Claim C19 at the containers `[1, 2]` and `[3]`: the values of `fl_combine(x, y)` read
from its head by `next` for `len` steps are `[2, 1, 3]`, not `[1, 2, 3]`. -/
theorem C19_combine_order :
    (fl_from_arr H0 fl_make_flist [1, 2]).bind (fun x =>
      (fl_from_arr x.1 fl_make_flist [3]).bind fun y =>
        (fl_combine 3 y.1 (some x.2) (some y.2)).bind fun c => c.2.map fun cl =>
          (fl_values y.1 x.2, fl_values y.1 y.2, cl.len, fl_values c.1 cl)) =
    some (some [1, 2], some [3], 3, some [2, 1, 3]) := by
  decide!

/-- Claim C20 at the containers `[1]` and `[3]`: `fl_combine(x, y)` has `len == 2`,
`sum == 4`, `sumsq == 10`, but `mean == 4` (the sum divided by the old mean `1`, where
`sum / len` is `2`) and `variance == 10 / 2 - 4 * 4 == -11` (where the variance of the
union is `1`). -/
theorem C20_combine_mean :
    (fl_from_arr H0 fl_make_flist [1]).bind (fun x =>
      (fl_from_arr x.1 fl_make_flist [3]).bind fun y =>
        (fl_combine 3 y.1 (some x.2) (some y.2)).bind fun c => c.2.map fun cl =>
          ([x.2.len, y.2.len, cl.len], [x.2.sum, y.2.sum, cl.sum],
           [x.2.sumsq, y.2.sumsq, cl.sumsq], [x.2.mean, y.2.mean, cl.mean, cl.sum / cl.len],
           cl.variance)) =
    some ([1, 1, 2], [1, 3, 4], [1, 9, 10], [1, 3, 4, 2], -11) := by
  decide!

/-! ## Equality of containers -/

theorem fl_equals_last_spec (H : Heap) (x y : Nat) :
    fl_equals_last H (some x) (some y) = some (if fl_near (H.nm x) (H.nm y) then 1 else 0) := by
  by_cases h : fl_near (H.nm x) (H.nm y) = true <;> simp [fl_equals_last, h]

theorem fl_equals_loop_spec {H : Heap} {l m : flist_type} (xs : List Nat) :
    ∀ (ys : List Nat) (x y : Nat) (fuel : Nat), xs.length = ys.length →
      Path H.nx (H.nx x) xs l.head → Path H.nx (H.nx y) ys m.head →
      (∀ z ∈ xs, some z ≠ l.head) → (∀ z ∈ ys, some z ≠ m.head) → xs.length < fuel →
      ∃ r, fl_equals_loop H l m fuel (some x) (some y) = some r ∧ (r = 0 ∨ r = 1) ∧
        (r = 1 ↔ List.Forall₂ (fun a b => fl_near a b = true)
          (vals H (x :: xs)) (vals H (y :: ys))) := by
  induction xs with
  | nil =>
    intro ys x y fuel hlen hx _ _ _ hfuel
    obtain ⟨f, rfl⟩ : ∃ f, fuel = f + 1 := ⟨fuel - 1, by omega⟩
    have hys : ys = [] := List.length_eq_zero.mp hlen.symm
    subst hys
    have hx2 : H.nx x = l.head := hx
    by_cases h : fl_near (H.nm x) (H.nm y) = true
    · exact ⟨1, by simp [fl_equals_loop, hx2, fl_equals_last_spec, h], Or.inr rfl,
        by simp [vals, h]⟩
    · exact ⟨0, by simp [fl_equals_loop, hx2, fl_equals_last_spec, h], Or.inl rfl,
        by simp [vals, h]⟩
  | cons x2 xs ih =>
    intro ys x y fuel hlen hx hy hhx hhy hfuel
    obtain ⟨f, rfl⟩ : ∃ f, fuel = f + 1 := ⟨fuel - 1, by omega⟩
    obtain ⟨y2, ys2, rfl⟩ : ∃ y2 ys2, ys = y2 :: ys2 := by
      cases ys with
      | nil => simp at hlen
      | cons y2 ys2 => exact ⟨y2, ys2, rfl⟩
    obtain ⟨hx1, hx2⟩ := hx
    obtain ⟨hy1, hy2⟩ := hy
    have hnx : some x2 ≠ l.head := hhx x2 (List.mem_cons_self _ _)
    have hny : some y2 ≠ m.head := hhy y2 (List.mem_cons_self _ _)
    by_cases h : fl_near (H.nm x) (H.nm y) = true
    · obtain ⟨r, hr, h01, hiff⟩ := ih ys2 x2 y2 f (by simpa using hlen) hx2 hy2
        (fun z hz => hhx z (List.mem_cons_of_mem _ hz))
        (fun z hz => hhy z (List.mem_cons_of_mem _ hz)) (by simp at hfuel; omega)
      refine ⟨r, by simp [fl_equals_loop, hx1, hy1, hnx, hny, h, hr], h01, ?_⟩
      rw [hiff]
      simp only [vals, List.map_cons, List.forall₂_cons]
      constructor
      · intro hf
        exact ⟨h, hf⟩
      · intro hf
        exact hf.2
    · refine ⟨0, by simp [fl_equals_loop, hx1, hy1, hnx, hny, h], Or.inl rfl, ?_⟩
      simp only [vals, List.map_cons, List.forall₂_cons]
      constructor
      · intro hf
        exact absurd hf (by decide)
      · intro hf
        exact absurd hf.1 h

theorem fl_equals_spec {H : Heap} {l m : flist_type} {ns ms : List Nat}
    (hl : WellFormed H l ns) (hm : WellFormed H m ms) (fuel : Nat) (hfuel : ns.length ≤ fuel) :
    ∃ r, fl_equals fuel H (some l) (some m) = some r ∧ (r = 0 ∨ r = 1) ∧
      (r = 1 ↔ l.len = m.len ∧ l.sum = m.sum ∧
        List.Forall₂ (fun a b => fl_near a b = true) (vals H ns) (vals H ms)) := by
  by_cases hc : l.len ≠ m.len ∨ l.sum ≠ m.sum
  · refine ⟨0, by simp only [fl_equals, if_pos hc], Or.inl rfl, ?_⟩
    constructor
    · intro hf
      exact absurd hf (by decide)
    · rintro ⟨h1, h2, -⟩
      rcases hc with hc | hc
      · exact absurd h1 hc
      · exact absurd h2 hc
  · have hlen : l.len = m.len := by
      by_contra h
      exact hc (Or.inl h)
    have hsum : l.sum = m.sum := by
      by_contra h
      exact hc (Or.inr h)
    have hlen2 : ns.length = ms.length := by
      have := hlen
      rw [hl.len_eq, hm.len_eq] at this
      exact_mod_cast this
    cases ns with
    | nil =>
      have hms : ms = [] := List.length_eq_zero.mp hlen2.symm
      subst hms
      have h0 : l.len = 0 := hl.len_zero_iff.mpr rfl
      have h0m : m.len = 0 := hm.len_zero_iff.mpr rfl
      exact ⟨1, by simp only [fl_equals, if_neg hc]; simp [h0, h0m], Or.inr rfl,
        by simp [hlen, hsum, vals]⟩
    | cons a as =>
      obtain ⟨b, bs, rfl⟩ : ∃ b bs, ms = b :: bs := by
        cases ms with
        | nil => simp at hlen2
        | cons b bs => exact ⟨b, bs, rfl⟩
      have hl0 : ¬ (l.len = 0 ∧ m.len = 0) := fun h => by
        simpa using hl.len_zero_iff.mp h.1
      have hha : l.head = some a := by simp [hl.head_eq]
      have hhb : m.head = some b := by simp [hm.head_eq]
      have hpa := hl.next_cycle
      have hpb := hm.next_cycle
      rw [hha] at hpa
      rw [hhb] at hpb
      have hna := List.nodup_cons.mp hl.nodup
      have hnb := List.nodup_cons.mp hm.nodup
      obtain ⟨r, hr, h01, hiff⟩ := fl_equals_loop_spec (H := H) (l := l) (m := m) as bs a b fuel
        (by simpa using hlen2) (by rw [hha]; exact hpa.2) (by rw [hhb]; exact hpb.2)
        (fun z hz e => hna.1 (by rw [hha] at e; cases e; exact hz))
        (fun z hz e => hnb.1 (by rw [hhb] at e; cases e; exact hz))
        (by simpa using hfuel)
      refine ⟨r, ?_, h01, ?_⟩
      · simp only [fl_equals, if_neg hc, if_neg hl0, hha, hhb]
        simpa using hr
      · rw [hiff]
        simp [hlen, hsum]

/-- Claim C16: `fl_equals` returns `1` when both containers are absent and `0` when exactly
one is; for two well-formed containers it returns `0` or `1`, and `1` exactly when their
`len` are equal, their `sum` are exactly equal, and their values are pairwise near
(`fl_near`) position by position from head to tail. -/
theorem C16_equals (H : Heap) (l m : flist_type) (ns ms : List Nat) (fuel : Nat)
    (hl : WellFormed H l ns) (hm : WellFormed H m ms) (hfuel : ns.length ≤ fuel) :
    fl_equals fuel H none none = some 1 ∧
    fl_equals fuel H (some l) none = some 0 ∧
    fl_equals fuel H none (some m) = some 0 ∧
    ∃ r, fl_equals fuel H (some l) (some m) = some r ∧ (r = 0 ∨ r = 1) ∧
      (r = 1 ↔ l.len = m.len ∧ l.sum = m.sum ∧
        List.Forall₂ (fun a b => fl_near a b = true) (vals H ns) (vals H ms)) :=
  ⟨rfl, rfl, rfl, fl_equals_spec hl hm fuel hfuel⟩

/-- C16 at a concrete input: the container `[10, 65]` compared with itself; and, by
evaluation, `[1, 2]` against a second container `[1, 2]` (equal), against `[2, 1]` (same
`len` and `sum`, values differ) and against `[1, 2, 0]` (different `len`). -/
theorem C16_equals_witness :
    (WellFormed H2ex l2ex [1, 0] ∧ [1, 0].length ≤ 2) ∧
    (fl_equals 2 H2ex none none = some 1 ∧
     fl_equals 2 H2ex (some l2ex) none = some 0 ∧
     fl_equals 2 H2ex none (some l2ex) = some 0 ∧
     ∃ r, fl_equals 2 H2ex (some l2ex) (some l2ex) = some r ∧ (r = 0 ∨ r = 1) ∧
      (r = 1 ↔ l2ex.len = l2ex.len ∧ l2ex.sum = l2ex.sum ∧
        List.Forall₂ (fun a b => fl_near a b = true) (vals H2ex [1, 0]) (vals H2ex [1, 0]))) ∧
    ((fl_from_arr H0 fl_make_flist [1, 2]).bind fun x =>
      (fl_from_arr x.1 fl_make_flist [1, 2]).bind fun y =>
        (fl_from_arr y.1 fl_make_flist [2, 1]).bind fun z =>
          (fl_from_arr z.1 fl_make_flist [1, 2, 0]).map fun w =>
            [fl_equals 3 w.1 (some x.2) (some y.2), fl_equals 3 w.1 (some x.2) (some z.2),
              fl_equals 3 w.1 (some x.2) (some w.2)]) =
      some [some 1, some 0, some 0] :=
  ⟨⟨wellFormed_ex2, by decide⟩,
    C16_equals H2ex l2ex l2ex [1, 0] [1, 0] 2 wellFormed_ex2 wellFormed_ex2 (by decide),
    by decide!⟩

/-! ## The prev links left by merging -/

theorem PrevLe_congr {H1 H2 : Heap} {x : Nat} (hpv : H2.pv x = H1.pv x) (hnm : H2.nm = H1.nm)
    (h : PrevLe H1 x) : PrevLe H2 x := by
  obtain ⟨y, h1, h2⟩ := h
  exact ⟨y, by rw [hpv, h1], by rw [hnm]; exact h2⟩

theorem PrevLe_self {H : Heap} {x : Nat} (h : H.pv x = some x) : PrevLe H x :=
  ⟨x, h, le_refl _⟩

theorem fl_merge_take_prev {Hc H1 : Heap} {C last C1 l1 : Option Nat} {x : Nat}
    (h : fl_merge_take Hc C last (some x) = some (H1, C1, l1)) :
    H1.pv x = some x ∧ ∀ y, y ≠ x → H1.pv y = Hc.pv y := by
  unfold fl_merge_take at h
  by_cases hC : C = none
  · simp only [if_pos hC, Heap.wr_prev_some, Option.bind_eq_bind, Option.some_bind,
      Option.some.injEq, Prod.mk.injEq] at h
    obtain ⟨rfl, -, -⟩ := h
    exact ⟨by simp, fun y hy => by simp [Function.update, hy]⟩
  · cases last with
    | none => simp [hC] at h
    | some lst =>
      simp only [if_neg hC, Heap.wr_next_some, Heap.wr_prev_some, Option.bind_eq_bind,
        Option.some_bind, Option.some.injEq, Prod.mk.injEq] at h
      obtain ⟨rfl, -, -⟩ := h
      exact ⟨by simp, fun y hy => by simp [Function.update, hy]⟩

theorem fl_merge_finish_prev {Hc H2 : Heap} {A B C last r : Option Nat} {x : Nat}
    (hx : (A = none ∧ B = some x) ∨ (A = some x ∧ B = none))
    (h : fl_merge_finish Hc A B C last = some (H2, r)) :
    ∃ lst, last = some lst ∧ H2.pv x = some lst ∧ (∀ y, y ≠ x → H2.pv y = Hc.pv y) ∧
      H2.nm = Hc.nm := by
  unfold fl_merge_finish at h
  cases last with
  | none => rcases hx with ⟨rfl, rfl⟩ | ⟨rfl, rfl⟩ <;> simp at h
  | some lst =>
    rcases hx with ⟨rfl, rfl⟩ | ⟨rfl, rfl⟩
    · simp only [↓reduceIte, Heap.wr_next_some, Heap.wr_prev_some, Option.bind_eq_bind,
        Option.some_bind, Option.some.injEq, Prod.mk.injEq] at h
      obtain ⟨rfl, -⟩ := h
      exact ⟨lst, rfl, by simp, fun y hy => by simp [Function.update, hy], by simp⟩
    · simp only [reduceCtorEq, ↓reduceIte, Heap.wr_next_some, Heap.wr_prev_some,
        Option.bind_eq_bind, Option.some_bind, Option.some.injEq, Prod.mk.injEq] at h
      obtain ⟨rfl, -⟩ := h
      exact ⟨lst, rfl, by simp, fun y hy => by simp [Function.update, hy], by simp⟩
set_option maxHeartbeats 1000000 in
theorem fl_merge_run_prev (nm : Nat → ℚ) :
    ∀ (n : Nat) (as bs : List Nat) (Hc : Heap) (C last : Option Nat) (fuel : Nat) (H2 : Heap)
      (r : Option Nat),
      as.length + bs.length = n → Hc.nm = nm →
      Path Hc.nx as.head? as none → Path Hc.nx bs.head? bs none → (as ++ bs).Nodup →
      (∀ lst, last = some lst → lst ∉ as ++ bs) → (C = none ↔ last = none) →
      (as.map nm).Sorted (· ≤ ·) → (bs.map nm).Sorted (· ≤ ·) →
      (∀ lst x, last = some lst → as.head? = some x ∨ bs.head? = some x → nm lst ≤ nm x) →
      (∀ x, x ∈ as.tail ∨ x ∈ bs.tail → PrevLe Hc x) →
      fl_merge_run fuel Hc as.head? bs.head? C last = some (H2, r) →
      (∀ x ∈ as ++ bs, PrevLe H2 x) ∧ (∀ x, x ∉ as ++ bs → H2.pv x = Hc.pv x) ∧
        H2.nm = nm := by
  intro n
  induction n with
  | zero =>
    intro as bs Hc C last fuel H2 r hn _ _ _ _ _ _ _ _ _ _ h
    have ha : as = [] := List.eq_nil_of_length_eq_zero (by omega)
    have hb : bs = [] := List.eq_nil_of_length_eq_zero (by omega)
    subst ha hb
    exfalso
    cases fuel with
    | zero => simp [fl_merge_run, fl_merge_loop] at h
    | succ f =>
      simp only [List.head?_nil] at h
      rw [fl_merge_run_exit _ _ _ _ _ _ (Or.inl rfl)] at h
      cases last <;> simp [fl_merge_finish] at h
  | succ n ih =>
    intro as bs Hc C last fuel H2 r hn hnm hpa hpb hnd hlast hC hsa hsb hbound htail h
    cases fuel with
    | zero => simp [fl_merge_run, fl_merge_loop] at h
    | succ f =>
    cases as with
    | nil =>
      cases bs with
      | nil => simp at hn
      | cons b bs =>
        simp only [List.head?_nil, List.head?_cons] at h
        rw [fl_merge_run_exit _ _ _ _ _ _ (Or.inl rfl)] at h
        obtain ⟨lst, hl, h1, h2, h3⟩ := fl_merge_finish_prev (x := b) (Or.inl ⟨rfl, rfl⟩) h
        have hndb := List.nodup_cons.mp (by simpa using hnd : (b :: bs).Nodup)
        refine ⟨?_, ?_, by rw [h3, hnm]⟩
        · intro x hx
          rcases List.mem_cons.mp (by simpa using hx) with rfl | hx
          · exact ⟨lst, h1, by rw [h3, hnm]; exact hbound lst x hl (Or.inr rfl)⟩
          · have hxb : x ≠ b := fun e => hndb.1 (e ▸ hx)
            exact PrevLe_congr (h2 x hxb) h3 (htail x (Or.inr (by simpa using hx)))
        · intro x hx
          exact h2 x (fun e => hx (by simp [e]))
    | cons a as =>
      cases bs with
      | nil =>
        simp only [List.head?_nil, List.head?_cons] at h
        rw [fl_merge_run_exit _ _ _ _ _ _ (Or.inr rfl)] at h
        obtain ⟨lst, hl, h1, h2, h3⟩ := fl_merge_finish_prev (x := a) (Or.inr ⟨rfl, rfl⟩) h
        have hnda := List.nodup_cons.mp (by simpa using hnd : (a :: as).Nodup)
        refine ⟨?_, ?_, by rw [h3, hnm]⟩
        · intro x hx
          rcases List.mem_cons.mp (by simpa using hx) with rfl | hx
          · exact ⟨lst, h1, by rw [h3, hnm]; exact hbound lst x hl (Or.inl rfl)⟩
          · have hxa : x ≠ a := fun e => hnda.1 (e ▸ hx)
            exact PrevLe_congr (h2 x hxa) h3 (htail x (Or.inl (by simpa using hx)))
        · intro x hx
          exact h2 x (fun e => hx (by simp [e]))
      | cons b bs =>
        have hnd2 := List.nodup_cons.mp hnd
        have hndb : b ∉ a :: as ∧ (a :: as ++ bs).Nodup := by
          have := List.nodup_middle.mp hnd
          exact ⟨fun hm => (List.nodup_cons.mp this).1 (List.mem_append_left _ hm),
            (List.nodup_cons.mp this).2⟩
        have hsa2 := List.sorted_cons.mp (by simpa using hsa :
          (nm a :: as.map nm).Sorted (· ≤ ·))
        have hsb2 := List.sorted_cons.mp (by simpa using hsb :
          (nm b :: bs.map nm).Sorted (· ≤ ·))
        simp only [List.head?_cons] at h
        by_cases hlt : nm a < nm b
        · have hla : last ≠ some a := fun e => hlast a e (by simp)
          obtain ⟨H1, t1, t2, t3, t4, t5⟩ := fl_merge_take_spec Hc C last a hC hla
          obtain ⟨p1, p2⟩ := fl_merge_take_prev t1
          have hfr : ∀ y ∈ as ++ b :: bs, H1.nx y = Hc.nx y := fun y hy =>
            t4 y (fun e => hlast y e (List.mem_cons_of_mem _ hy))
          have h1a : H1.nx a = as.head? := by
            rw [t4 a hla]
            cases as with
            | nil => simpa using hpa.2
            | cons a2 as2 => simpa using hpa.2.1
          have hpa2 : Path H1.nx as.head? as none := by
            rw [Path_congr (fun y hy => hfr y (List.mem_append_left _ hy)), ← h1a, t4 a hla]
            exact hpa.2
          have hpb2 : Path H1.nx (b :: bs).head? (b :: bs) none :=
            (Path_congr (fun y hy => hfr y (List.mem_append_right _ hy)) _ _).mpr hpb
          rw [fl_merge_run_left f Hc H1 a b C last _ (by rw [hnm]; exact hlt) t1, h1a] at h
          have hbound2 : ∀ lst x, some a = some lst →
              as.head? = some x ∨ (b :: bs).head? = some x → nm lst ≤ nm x := by
            intro lst x e hx
            cases e
            rcases hx with hx | hx
            · exact hsa2.1 _ (List.mem_map_of_mem _ (mem_of_head? hx))
            · simp only [List.head?_cons, Option.some.injEq] at hx
              subst hx
              exact le_of_lt hlt
          have htail2 : ∀ x, x ∈ as.tail ∨ x ∈ (b :: bs).tail → PrevLe H1 x := by
            intro x hx
            have hxm : x ∈ as ++ b :: bs := by
              rcases hx with hx | hx
              · exact List.mem_append_left _ (List.mem_of_mem_tail hx)
              · exact List.mem_append_right _ (List.mem_cons_of_mem _ (by simpa using hx))
            have hxa : x ≠ a := fun e => hnd2.1 (e ▸ hxm)
            apply PrevLe_congr (p2 x hxa) t2
            apply htail
            rcases hx with hx | hx
            · exact Or.inl (by simpa using List.mem_of_mem_tail hx)
            · exact Or.inr hx
          obtain ⟨g1, g2, g3⟩ := ih as (b :: bs) H1 _ (some a) f H2 r
            (by simp at hn ⊢; omega) (by rw [t2, hnm]) hpa2 hpb2 hnd2.2
            (fun lst e => by cases e; exact hnd2.1)
            ⟨fun e => absurd e (ite_some_ne_none C a), fun e => by cases e⟩
            hsa2.2 hsb hbound2 htail2 h
          refine ⟨?_, ?_, g3⟩
          · intro x hx
            have hx2 : x ∈ a :: (as ++ b :: bs) := hx
            rcases List.mem_cons.mp hx2 with rfl | hx3
            · apply PrevLe_self
              rw [g2 x hnd2.1, p1]
            · exact g1 x hx3
          · intro x hx
            have hx1 : x ∉ as ++ b :: bs := fun hm => hx (List.mem_cons_of_mem _ hm)
            have hxa : x ≠ a := fun e => hx (by simp [e])
            rw [g2 x hx1, p2 x hxa]
        · have hlb : last ≠ some b := fun e => hlast b e (by simp)
          obtain ⟨H1, t1, t2, t3, t4, t5⟩ := fl_merge_take_spec Hc C last b hC hlb
          obtain ⟨p1, p2⟩ := fl_merge_take_prev t1
          have hfr : ∀ y ∈ a :: as ++ bs, H1.nx y = Hc.nx y := fun y hy =>
            t4 y (fun e => hlast y e (by
              simp only [List.cons_append, List.mem_cons, List.mem_append] at hy ⊢
              tauto))
          have h1b : H1.nx b = bs.head? := by
            rw [t4 b hlb]
            cases bs with
            | nil => simpa using hpb.2
            | cons b2 bs2 => simpa using hpb.2.1
          have hpb2 : Path H1.nx bs.head? bs none := by
            rw [Path_congr (fun y hy => hfr y (List.mem_append_right _ hy)), ← h1b, t4 b hlb]
            exact hpb.2
          have hpa2 : Path H1.nx (a :: as).head? (a :: as) none :=
            (Path_congr (fun y hy => hfr y (List.mem_append_left _ hy)) _ _).mpr hpa
          rw [fl_merge_run_right f Hc H1 a b C last _ (by rw [hnm]; exact hlt) t1, h1b] at h
          have hbn : b ∉ a :: as ++ bs := by
            intro hm
            rcases List.mem_append.mp hm with h | h
            · exact hndb.1 h
            · exact (List.nodup_cons.mp (List.nodup_append.mp hnd).2.1).1 h
          have hbound2 : ∀ lst x, some b = some lst →
              (a :: as).head? = some x ∨ bs.head? = some x → nm lst ≤ nm x := by
            intro lst x e hx
            cases e
            rcases hx with hx | hx
            · simp only [List.head?_cons, Option.some.injEq] at hx
              subst hx
              exact not_lt.mp hlt
            · exact hsb2.1 _ (List.mem_map_of_mem _ (mem_of_head? hx))
          have htail2 : ∀ x, x ∈ (a :: as).tail ∨ x ∈ bs.tail → PrevLe H1 x := by
            intro x hx
            have hxm : x ∈ a :: as ++ bs := by
              rcases hx with hx | hx
              · exact List.mem_append_left _ (List.mem_cons_of_mem _ (by simpa using hx))
              · exact List.mem_append_right _ (List.mem_of_mem_tail hx)
            have hxb : x ≠ b := fun e => hbn (e ▸ hxm)
            apply PrevLe_congr (p2 x hxb) t2
            apply htail
            rcases hx with hx | hx
            · exact Or.inl hx
            · exact Or.inr (by simpa using List.mem_of_mem_tail hx)
          obtain ⟨g1, g2, g3⟩ := ih (a :: as) bs H1 _ (some b) f H2 r
            (by simp at hn ⊢; omega) (by rw [t2, hnm]) hpa2 hpb2 hndb.2
            (fun lst e => by cases e; exact hbn)
            ⟨fun e => absurd e (ite_some_ne_none C b), fun e => by cases e⟩
            hsa hsb2.2 hbound2 htail2 h
          refine ⟨?_, ?_, g3⟩
          · intro x hx
            by_cases hxb : x = b
            · subst hxb
              apply PrevLe_self
              rw [g2 x hbn, p1]
            · apply g1 x
              simp only [List.cons_append, List.mem_cons, List.mem_append] at hx ⊢
              tauto
          · intro x hx
            have hx1 : x ∉ a :: as ++ bs := by
              intro hm
              apply hx
              simp only [List.cons_append, List.mem_cons, List.mem_append] at hm ⊢
              tauto
            have hxb : x ≠ b := fun e => hx (by simp [e])
            rw [g2 x hx1, p2 x hxb]

theorem fl_merge_prev {H H2 : Heap} {as bs : List Nat} {r : Option Nat} {fuel : Nat}
    (hpa : Path H.nx as.head? as none) (hpb : Path H.nx bs.head? bs none)
    (hnd : (as ++ bs).Nodup) (hsa : (as.map H.nm).Sorted (· ≤ ·))
    (hsb : (bs.map H.nm).Sorted (· ≤ ·))
    (htail : ∀ x, x ∈ as.tail ∨ x ∈ bs.tail → PrevLe H x) (hna : as ≠ []) (hnb : bs ≠ [])
    (h : fl_merge_ fuel H as.head? bs.head? = some (H2, r)) :
    (∀ x ∈ as ++ bs, PrevLe H2 x) ∧ (∀ x, x ∉ as ++ bs → H2.pv x = H.pv x) := by
  cases as with
  | nil => exact absurd rfl hna
  | cons a as =>
    cases bs with
    | nil => exact absurd rfl hnb
    | cons b bs =>
      simp only [List.head?_cons] at h
      rw [fl_merge_eq_run] at h
      obtain ⟨g1, g2, -⟩ := fl_merge_run_prev H.nm _ (a :: as) (b :: bs) H none none fuel H2 r
        rfl rfl hpa hpb hnd (fun _ e => by cases e) Iff.rfl hsa hsb
        (fun _ _ e => by cases e) htail h
      exact ⟨g1, g2⟩

theorem tail_eq_nil_of_length_le_one {α : Type} {xs : List α} (h : xs.length ≤ 1) :
    xs.tail = [] := by
  cases xs with
  | nil => rfl
  | cons a as =>
    cases as with
    | nil => rfl
    | cons b bs => simp at h

set_option maxHeartbeats 1000000 in
theorem fl_merge_sort_prev :
    ∀ (n : Nat) (ns : List Nat) (H : Heap) (fuel : Nat) (H4 : Heap) (r : Option Nat),
      ns.length = n → Path H.nx ns.head? ns none → ns.Nodup → ns.length + 1 ≤ fuel →
      fl_merge_sort_ fuel H ns.head? = some (H4, r) →
      (2 ≤ ns.length → ∀ x ∈ ns, PrevLe H4 x) ∧ (∀ x, x ∉ ns → H4.pv x = H.pv x) := by
  intro n
  induction n using Nat.strong_induction_on with
  | _ n ih =>
    intro ns H fuel H4 r hlen hp hnd hfuel h
    obtain ⟨f, rfl⟩ : ∃ f, fuel = f + 1 := ⟨fuel - 1, by omega⟩
    cases ns with
    | nil =>
      simp only [fl_merge_sort_, List.head?_nil, ↓reduceIte, Option.some.injEq,
        Prod.mk.injEq] at h
      obtain ⟨rfl, -⟩ := h
      exact ⟨fun h2 => by simp at h2, fun _ _ => rfl⟩
    | cons a rest =>
      cases rest with
      | nil =>
        have hnx : H.nx a = none := by simpa using hp.2
        simp [fl_merge_sort_, hnx] at h
        obtain ⟨rfl, -⟩ := h
        exact ⟨fun h2 => by simp at h2, fun _ _ => rfl⟩
      | cons b rest =>
        have hnx : H.nx a = some b := by simpa using hp.2.1
        have hp2 : Path H.nx (some a) (a :: b :: rest) none := by simpa using hp
        obtain ⟨s, hs, hsplit, hL, hR⟩ :=
          fl_split_spec hp2 hnd (by simp) f (by simp at hfuel ⊢; omega)
        generalize hk : ((a :: b :: rest).length - 1) / 2 + 1 = k at hsplit hL hR
        have hlen2 : (a :: b :: rest).length = rest.length + 2 := rfl
        rw [hlen2] at hk
        have hk1 : 1 ≤ k := by omega
        have hk2 : k < (a :: b :: rest).length := by omega
        have hLR : (a :: b :: rest).take k ++ (a :: b :: rest).drop k = a :: b :: rest :=
          List.take_append_drop _ _
        generalize hLdef : (a :: b :: rest).take k = L at hL hLR
        generalize hRdef : (a :: b :: rest).drop k = R at hR hLR hsplit
        have hLlen : L.length = k := by rw [← hLdef]; simp; omega
        have hRlen : R.length = (a :: b :: rest).length - k := by rw [← hRdef]; simp
        have hLhead : L.head? = some a := by
          rw [← hLdef]
          obtain ⟨k2, rfl⟩ : ∃ k2, k = k2 + 1 := ⟨k - 1, by omega⟩
          simp
        have hnd2 := hnd
        rw [← hLR] at hnd2
        have hnd3 := List.nodup_append.mp hnd2
        rw [← hLhead] at hL
        obtain ⟨Ha, L2, a1, a2, a3, a4, a5, a6, a7⟩ :=
          fl_merge_sort_spec L.length L (H.st_next s none) f rfl hL hnd3.1
            (by rw [hLlen]; omega)
        obtain ⟨pa1, pa2⟩ := ih L.length (by rw [hLlen, ← hlen]; exact hk2) L
          (H.st_next s none) f Ha L2.head? rfl hL hnd3.1 (by rw [hLlen]; omega) a1
        rw [hLhead] at a1
        have hR2 : Path Ha.nx R.head? R none :=
          (Path_congr (fun x hx => a7 x (fun hm => hnd3.2.2 hm hx)) _ _).mpr hR
        obtain ⟨Hb, R2, b1, b2, b3, b4, b5, b6, b7⟩ :=
          fl_merge_sort_spec R.length R Ha f rfl hR2 hnd3.2.1 (by rw [hRlen]; omega)
        obtain ⟨pb1, pb2⟩ := ih R.length (by rw [hRlen, ← hlen]; omega) R Ha f Hb R2.head?
          rfl hR2 hnd3.2.1 (by rw [hRlen]; omega) b1
        have hL3 : Path Hb.nx L2.head? L2 none :=
          (Path_congr (fun x hx => b7 x (fun hm => hnd3.2.2 (a3.mem_iff.mp hx) hm)) _ _).mpr a2
        have hperm : (L2 ++ R2).Perm (a :: b :: rest) := by
          rw [← hLR]
          exact List.Perm.append a3 b3
        have hnd4 : (L2 ++ R2).Nodup := hperm.nodup_iff.mpr hnd
        have hnm2 : Ha.nm = H.nm := by rw [a5]; simp
        have hnm3 : Hb.nm = H.nm := by rw [b5, hnm2]
        have hstep := fl_merge_sort_step f H _ Ha Hb a (some b) R.head? L2.head? R2.head?
          _ hnx (by simp) hsplit a1 b1 rfl
        simp only [List.head?_cons] at h
        rw [hstep] at h
        have hsL : (L2.map Hb.nm).Sorted (· ≤ ·) := by
          rw [hnm3]; simpa using a4
        have hsR : (R2.map Hb.nm).Sorted (· ≤ ·) := by
          rw [hnm3, ← hnm2]; exact b4
        have htail : ∀ x, x ∈ L2.tail ∨ x ∈ R2.tail → PrevLe Hb x := by
          intro x hx
          rcases hx with hx | hx
          · have hxL : x ∈ L := a3.mem_iff.mp (List.mem_of_mem_tail hx)
            have hL2 : 2 ≤ L.length := by
              by_contra hc
              have : L2.tail = [] := tail_eq_nil_of_length_le_one (by
                rw [a3.length_eq]; omega)
              rw [this] at hx
              simp at hx
            exact PrevLe_congr (pb2 x (fun hm => hnd3.2.2 hxL hm)) b5 (pa1 hL2 x hxL)
          · have hxR : x ∈ R := b3.mem_iff.mp (List.mem_of_mem_tail hx)
            have hR2 : 2 ≤ R.length := by
              by_contra hc
              have : R2.tail = [] := tail_eq_nil_of_length_le_one (by
                rw [b3.length_eq]; omega)
              rw [this] at hx
              simp at hx
            exact pb1 hR2 x hxR
        have hL2ne : L2 ≠ [] := fun e => by
          have := a3.length_eq
          rw [e, hLlen] at this
          simp at this
          omega
        have hR2ne : R2 ≠ [] := fun e => by
          have := b3.length_eq
          rw [e, hRlen] at this
          simp at this
          omega
        obtain ⟨c1, c2⟩ := fl_merge_prev hL3 b2 hnd4 hsL hsR htail hL2ne hR2ne h
        refine ⟨fun _ x hx => c1 x (hperm.mem_iff.mpr hx), ?_⟩
        intro x hx
        have hxL : x ∉ L := fun hm => hx (by rw [← hLR]; exact List.mem_append_left _ hm)
        have hxR : x ∉ R := fun hm => hx (by rw [← hLR]; exact List.mem_append_right _ hm)
        rw [c2 x (fun hm => hx (hperm.mem_iff.mp hm)), pb2 x hxR, pa2 x hxL]
        simp

/-! ## The sortedness check after sorting -/

theorem fl_sort_prev {H : Heap} {l : flist_type} {ns : List Nat} (hwf : WellFormed H l ns)
    (hne : ns ≠ []) (fuel : Nat) (hfuel : ns.length + 1 ≤ fuel) :
    ∃ H2 ns2, fl_sort fuel H l =
        some (H2, { l with head := ns2.head?, tail := ns2.getLast? }) ∧
      Path H2.nx ns2.head? ns2 ns2.head? ∧ ns2.Nodup ∧ ns2.length = ns.length ∧
      (∀ x ∈ ns2.tail, PrevLe H2 x) := by
  obtain ⟨a, t, hh, ht, ha, hlast⟩ := hwf.ends hne
  have h0 : l.len ≠ 0 := fun h => hne (hwf.len_zero_iff.mp h)
  have hpva : H.pv a = some t := by
    have := Path_last hwf.prev_cycle (by simpa using ha)
    rw [this, ht]
  have hp1 : Path (H.st_next t none).nx ns.head? ns none := by
    have h1 := hwf.next_cycle
    rw [hh] at h1
    have := Path_retarget (g := Function.update H.nx t none) h1 hwf.nodup hlast
      (fun x _ hxt => by simp [Function.update, hxt])
    simpa [ha] using this
  obtain ⟨H2, ns2, g1, g2, g3, g4, g5, g6, -⟩ :=
    fl_merge_sort_spec ns.length ns (H.st_next t none) fuel rfl hp1 hwf.nodup hfuel
  obtain ⟨p1, -⟩ := fl_merge_sort_prev ns.length ns (H.st_next t none) fuel H2 ns2.head? rfl
    hp1 hwf.nodup hfuel g1
  have hne2 : ns2 ≠ [] := fun e => hne (by simpa [e] using g3)
  obtain ⟨h2, hh2⟩ : ∃ h2, ns2.head? = some h2 := ⟨ns2.head hne2, List.head?_eq_head hne2⟩
  obtain ⟨t2, ht2⟩ : ∃ t2, ns2.getLast? = some t2 :=
    ⟨ns2.getLast hne2, List.getLast?_eq_getLast _ hne2⟩
  have hwalk := fl_sort_walk_spec ns2 ns2.head? fuel g2 hne2 (by rw [g3.length_eq]; omega)
  have hnd2 : ns2.Nodup := g3.nodup_iff.mpr hwf.nodup
  refine ⟨(H2.st_next t2 (some h2)).st_prev h2 (some t2), ns2, ?_, ?_, hnd2, g3.length_eq, ?_⟩
  · rw [ha] at g1
    rw [hh2] at hwalk
    simp [fl_sort, h0, hh, hpva, g1, hh2, hwalk, ht2]
  · have := Path_retarget (g := Function.update H2.nx t2 (some h2)) g2 hnd2 ht2
      (fun x _ hxt => by simp [Function.update, hxt])
    simpa [hh2] using this
  · intro x hx
    have hlen2 : 2 ≤ ns.length := by
      by_contra hc
      have : ns2.tail = [] := tail_eq_nil_of_length_le_one (by rw [g3.length_eq]; omega)
      rw [this] at hx
      simp at hx
    have hxh : x ≠ h2 := by
      obtain ⟨rest, rfl⟩ : ∃ rest, ns2 = h2 :: rest := by
        cases ns2 with
        | nil => exact absurd rfl hne2
        | cons c rest =>
          simp only [List.head?_cons, Option.some.injEq] at hh2
          exact ⟨rest, by rw [hh2]⟩
      intro e
      exact (List.nodup_cons.mp hnd2).1 (e ▸ (by simpa using hx))
    have hpv : ((H2.st_next t2 (some h2)).st_prev h2 (some t2)).pv x = H2.pv x := by
      simp [Function.update, hxh]
    exact PrevLe_congr hpv (by simp) (p1 hlen2 x (g3.mem_iff.mp (List.mem_of_mem_tail hx)))

theorem fl_is_sorted_loop_one {H : Heap} {l : flist_type} (xs : List Nat) :
    ∀ (p : Option Nat) (fuel : Nat), Path H.nx p xs l.head → (∀ x ∈ xs, some x ≠ l.head) →
      (∀ x ∈ xs, PrevLe H x) → xs.length < fuel → fl_is_sorted_loop H l fuel p = some 1 := by
  induction xs with
  | nil =>
    intro p fuel hp _ _ hfuel
    obtain ⟨f, rfl⟩ : ∃ f, fuel = f + 1 := ⟨fuel - 1, by omega⟩
    have : p = l.head := hp
    simp [fl_is_sorted_loop, this]
  | cons a as ih =>
    intro p fuel hp hh hprev hfuel
    obtain ⟨f, rfl⟩ : ∃ f, fuel = f + 1 := ⟨fuel - 1, by simp at hfuel; omega⟩
    obtain ⟨h1, h2⟩ := hp
    subst h1
    have hne : some a ≠ l.head := hh a (List.mem_cons_self _ _)
    obtain ⟨y, hy1, hy2⟩ := hprev a (List.mem_cons_self _ _)
    have ih2 := ih (H.nx a) f h2 (fun x hx => hh x (List.mem_cons_of_mem _ hx))
      (fun x hx => hprev x (List.mem_cons_of_mem _ hx)) (by simp at hfuel; omega)
    have hnlt : ¬ H.nm a < H.nm y := not_lt.mpr hy2
    simp [fl_is_sorted_loop, hne, hy1, hnlt, ih2]

theorem fl_is_sorted_after_sort {H : Heap} {l : flist_type} {ns : List Nat}
    (hwf : WellFormed H l ns) (fuel : Nat) (hfuel : ns.length + 1 ≤ fuel) :
    ∃ H2 l2, fl_sort fuel H l = some (H2, l2) ∧
      ∀ fuel2, ns.length ≤ fuel2 → fl_is_sorted fuel2 H2 l2 = some 1 := by
  by_cases hne : ns = []
  · subst hne
    have h0 : l.len = 0 := hwf.len_zero_iff.mpr rfl
    exact ⟨H, l, by simp [fl_sort, h0], fun _ _ => by simp [fl_is_sorted, h0]⟩
  · obtain ⟨H2, ns2, g1, g2, g3, g4, g5⟩ := fl_sort_prev hwf hne fuel hfuel
    have h0 : l.len ≠ 0 := fun h => hne (hwf.len_zero_iff.mp h)
    refine ⟨H2, _, g1, ?_⟩
    intro fuel2 hf2
    cases ns2 with
    | nil => exact absurd (by simpa using g4.symm) hne
    | cons c rest =>
      have hnd := List.nodup_cons.mp g3
      have hp : Path H2.nx (H2.nx c) rest (some c) := by simpa using g2.2
      have := fl_is_sorted_loop_one (H := H2)
        (l := { l with head := (c :: rest).head?, tail := (c :: rest).getLast? }) rest
        (H2.nx c) fuel2 (by simpa using hp)
        (fun x hx e => hnd.1 (by simp at e; rw [← e]; exact hx))
        (fun x hx => g5 x (by simpa using hx)) (by simp at g4; omega)
      simp only [fl_is_sorted, h0, ↓reduceIte, List.head?_cons, Heap.rd_next_some,
        Option.bind_eq_bind, Option.some_bind]
      simpa using this

/-- Claim C11: for every well-formed container (the empty one included), `fl_sort` returns,
and `fl_is_sorted` run on the container and the heap that `fl_sort` leaves (its `next` and
`prev` links as they are) returns `1`. -/
theorem C11_is_sorted_after_sort (H : Heap) (l : flist_type) (ns : List Nat) (fuel : Nat)
    (hwf : WellFormed H l ns) (hfuel : ns.length + 1 ≤ fuel) :
    ∃ H2 l2, fl_sort fuel H l = some (H2, l2) ∧ fl_is_sorted fuel H2 l2 = some 1 := by
  obtain ⟨H2, l2, h1, h2⟩ := fl_is_sorted_after_sort hwf fuel hfuel
  exact ⟨H2, l2, h1, h2 fuel (by omega)⟩

/-- C11 at concrete inputs: the container `[10, 65]`, the empty container, and, by
evaluation, the container filled with 5, 25, 10, 68, 20, 65, 100, -5, -500. -/
theorem C11_is_sorted_after_sort_witness :
    (WellFormed H2ex l2ex [1, 0] ∧ [1, 0].length + 1 ≤ 3) ∧
    (∃ H2 l2, fl_sort 3 H2ex l2ex = some (H2, l2) ∧ fl_is_sorted 3 H2 l2 = some 1) ∧
    (∃ H2 l2, fl_sort 1 H0 fl_make_flist = some (H2, l2) ∧ fl_is_sorted 1 H2 l2 = some 1) ∧
    ((fl_from_arr H0 fl_make_flist [5, 25, 10, 68, 20, 65, 100, -5, -500]).bind fun r =>
      (fl_sort 10 r.1 r.2).bind fun r => fl_is_sorted 10 r.1 r.2) = some 1 :=
  ⟨⟨wellFormed_ex2, by decide⟩,
    C11_is_sorted_after_sort H2ex l2ex [1, 0] 3 wellFormed_ex2 (by decide),
    C11_is_sorted_after_sort H0 fl_make_flist [] 1 (wellFormed_fresh H0) (by decide),
    by decide!⟩

/-! ## Sequences of calls -/

theorem fl_append_empty (H : Heap) (l : flist_type) (v : ℚ) (h0 : l.len = 0) :
    ∃ H2 l2, fl_append H l v = some (H2, l2) ∧ WellFormed H2 l2 [H.brk] ∧
      H2.nm H.brk = v ∧ l2.sum = l.sum + v := by
  refine ⟨_, _, by simp [fl_append, fl_make_node, h0, fl_update_measures_add]; exact ⟨rfl, rfl⟩,
    ?_, ?_, ?_⟩
  · exact ⟨by simp [fl_rederive, h0], by simp, by simp [Heap.alloc], by simp [fl_rederive],
      by simp [fl_rederive], by simp [Path, fl_rederive], by simp [Path, fl_rederive]⟩
  · simp
  · simp [fl_rederive]

theorem fl_pop_single {H : Heap} {l : flist_type} {r : Nat} (hwf : WellFormed H l [r]) :
    ∃ l2, fl_pop H l = some (H.st_num r 0, l2, H.nm r) ∧ l2.len = 0 ∧ l2.sum = 0 ∧
      l2.head = some r ∧ l2.tail = some r := by
  have hl : l.len = 1 := by simpa using hwf.len_eq
  have hh : l.head = some r := by simp [hwf.head_eq]
  have ht : l.tail = some r := by simp [hwf.tail_eq]
  refine ⟨{ l with head := l.tail, len := 0, sum := 0, mean := 0, variance := 0, sumsq := 0 },
    ?_, rfl, rfl, ht, ht⟩
  have hc := fl_update_measures_collapse H { l with head := l.tail } (H.nm r) r
    (by simp [hl]) (by simp [ht])
  simp only [ht, hl] at hc
  simp [fl_pop, hl, hh, ht, hc]

theorem Consistent.of_wellFormed {H : Heap} {l : flist_type} {ns : List Nat}
    (hwf : WellFormed H l ns) (hsum : l.sum = (vals H ns).sum) : Consistent H l ns :=
  ⟨hwf.len_eq, hsum, fun _ => hwf, fun e => by
    subst e
    rw [hwf.head_eq, hwf.tail_eq]
    rfl⟩

theorem Consistent.wellFormed {H : Heap} {l : flist_type} {ns : List Nat}
    (hc : Consistent H l ns) (hh : ns = [] → l.head = none) : WellFormed H l ns := by
  by_cases hne : ns = []
  · subst hne
    have h1 := hh rfl
    have h2 : l.tail = none := by rw [← hc.2.2.2 rfl, h1]
    exact ⟨hc.1, List.nodup_nil, by simp, by simp [h1], by simp [h2], by simp [Path],
      by simp [Path]⟩
  · exact hc.2.2.1 hne

theorem step_append {H : Heap} {l : flist_type} {ns : List Nat} (hc : Consistent H l ns)
    (v : ℚ) :
    ∃ H2 l2 ns2, fl_append H l v = some (H2, l2) ∧ Consistent H2 l2 ns2 ∧ ns2 ≠ [] ∧
      ns2.length ≤ ns.length + 1 := by
  by_cases hne : ns = []
  · subst hne
    have h0 : l.len = 0 := by simpa using hc.1
    have hs : l.sum = 0 := by simpa using hc.2.1
    obtain ⟨H2, l2, h1, h2, h3, h4⟩ := fl_append_empty H l v h0
    exact ⟨H2, l2, [H.brk], h1, Consistent.of_wellFormed h2 (by simp [h3, h4, hs]), by simp,
      by simp⟩
  · have hwf := hc.2.2.1 hne
    obtain ⟨H2, l2, h1, h2, h3, -, -, h6⟩ := fl_append_spec hwf v
    have hb : ∀ x ∈ ns, x ≠ H.brk := fun x hx e => lt_irrefl _ (e ▸ hwf.fresh x hx)
    have hv : vals H2 ns = vals H ns :=
      vals_congr H fun x hx => by simp [h3, Function.update, hb x hx]
    refine ⟨H2, l2, ns ++ [H.brk], h1, Consistent.of_wellFormed h2 ?_, by simp, by simp⟩
    rw [vals_append, hv]
    have e1 : l2.sum = l.sum + v := h6.2.2.2.1
    simp [h3, e1, hc.2.1]

theorem step_push {H : Heap} {l : flist_type} {ns : List Nat} (hc : Consistent H l ns)
    (hh : ns = [] → l.head = none) (v : ℚ) :
    ∃ H2 l2 ns2, fl_push H l v = some (H2, l2) ∧ Consistent H2 l2 ns2 ∧ ns2 ≠ [] ∧
      ns2.length ≤ ns.length + 1 := by
  have hwf := hc.wellFormed hh
  obtain ⟨H2, l2, b, h1, h2, -, -, h3, h4, -, h6⟩ := fl_push_spec hwf v
  have hv : vals H2 ns = vals H ns := vals_congr H fun x hx => h4 x (hwf.fresh x hx)
  refine ⟨H2, l2, b :: ns, h1, Consistent.of_wellFormed h2 ?_, by simp, by simp⟩
  have e1 : l2.sum = l.sum + v := h6.2.2.2.1
  rw [vals_cons, hv, h3, List.sum_cons, e1, hc.2.1]
  ring

theorem step_insert {H : Heap} {l : flist_type} {ns : List Nat} (hc : Consistent H l ns)
    (v : ℚ) (fuel : Nat) (hfuel : ns.length ≤ fuel) :
    ∃ H2 l2 ns2, fl_insert fuel H l v = some (H2, l2) ∧ Consistent H2 l2 ns2 ∧ ns2 ≠ [] ∧
      ns2.length ≤ ns.length + 1 := by
  by_cases hne : ns = []
  · have h0 : l.len = 0 := by simpa [hne] using hc.1
    obtain ⟨H2, l2, ns2, h1, h2⟩ := step_append hc v
    exact ⟨H2, l2, ns2, by simpa [fl_insert, h0] using h1, h2⟩
  · have hwf := hc.2.2.1 hne
    obtain ⟨H2, l2, pre2, post2, b, h1, h2, h3, h4, h5, h6, -, -⟩ :=
      fl_insert_spec hwf v fuel hfuel
    subst h2
    refine ⟨H2, l2, pre2 ++ b :: post2, h1, Consistent.of_wellFormed h3 ?_, by simp,
      by simp; omega⟩
    have e1 : l2.sum = l.sum + v := h6.2.2.2.1
    have hv1 : vals H2 pre2 = vals H pre2 :=
      vals_congr H fun x hx => h5 x (List.mem_append_left _ hx)
    have hv2 : vals H2 post2 = vals H post2 :=
      vals_congr H fun x hx => h5 x (List.mem_append_right _ hx)
    rw [vals_append, vals_cons, hv1, hv2, h4, e1, hc.2.1, vals_append]
    simp only [List.sum_append, List.sum_cons]
    ring

theorem step_insert_index {H : Heap} {l : flist_type} {ns : List Nat} (hc : Consistent H l ns)
    (index : Int) (v : ℚ) (hi0 : 0 ≤ index) (hi : index < l.len ∨ index = 0)
    (hh : index = 0 → ns = [] → l.head = none) :
    ∃ H2 l2 ns2, fl_insert_index H l index v = some (H2, l2) ∧ Consistent H2 l2 ns2 ∧
      ns2 ≠ [] ∧ ns2.length ≤ ns.length + 1 := by
  obtain ⟨i, rfl⟩ := Int.eq_ofNat_of_zero_le hi0
  have hl := hc.1
  by_cases h0 : i = 0
  · subst h0
    obtain ⟨H2, l2, ns2, h1, h2⟩ := step_push hc (hh rfl) v
    exact ⟨H2, l2, ns2, by simpa [fl_insert_index] using h1, h2⟩
  · have hlt : (i : Int) < l.len := by
      rcases hi with h | h
      · exact h
      · exact absurd (by exact_mod_cast h) h0
    have hne : ns ≠ [] := fun e => by
      rw [e] at hl
      simp at hl
      omega
    have hwf := hc.2.2.1 hne
    have hbr : ∀ x ∈ ns, x ≠ H.brk := fun x hx e => lt_irrefl _ (e ▸ hwf.fresh x hx)
    have c1 : ¬ (l.len ≤ (i : Int)) := by omega
    have c2 : ¬ ((i : Int) = 0) := by omega
    by_cases h2 : i = ns.length - 1
    · have c3 : (i : Int) = l.len - 1 := by omega
      have c4 : ¬ (l.len - 1 = 0) := by omega
      have c5 : ¬ (l.len ≤ l.len - 1) := by omega
      obtain ⟨H2, l2, ns2, g1, g2⟩ := step_append hc v
      exact ⟨H2, l2, ns2, by simpa [fl_insert_index, c3, c4, c5] using g1, g2⟩
    · have hsplit : ns = ns.take i ++ ns.drop i := (List.take_append_drop i ns).symm
      have hlen1 : (ns.take i).length = i := by simp; omega
      have hpre : ns.take i ≠ [] := by
        intro e; rw [e] at hlen1; simp at hlen1; omega
      have hpost : 2 ≤ (ns.drop i).length := by simp; omega
      have hwf2 := hwf
      rw [hsplit] at hwf2
      obtain ⟨H2, l2, g1, g2, g3, -, g6⟩ := fl_insert_index_mid_spec hwf2 hpre hpost v
      rw [hlen1] at g1
      refine ⟨H2, l2, _, g1, Consistent.of_wellFormed g2 ?_, by simp, ?_⟩
      · have e1 : vals H2 (ns.take i) = vals H (ns.take i) :=
          vals_congr H fun x hx => by
            simp [g3, Function.update, hbr x (List.mem_of_mem_take hx)]
        have e2 : vals H2 (ns.drop i) = vals H (ns.drop i) :=
          vals_congr H fun x hx => by
            simp [g3, Function.update, hbr x (List.mem_of_mem_drop hx)]
        have e3 : l2.sum = l.sum + v := g6.2.2.2.1
        have e4 : (vals H ns).sum = (vals H (ns.take i)).sum + (vals H (ns.drop i)).sum := by
          rw [← List.sum_append, ← vals_append, ← hsplit]
        rw [vals_append, vals_cons, e1, e2, g3, e3, hc.2.1, e4]
        simp only [List.sum_append, List.sum_cons, Function.update_same]
        ring
      · have : (ns.take i ++ H.brk :: ns.drop i).length = ns.length + 1 := by
          simp
          omega
        omega

theorem Consistent.of_emptied {H : Heap} {l : flist_type} (h0 : l.len = 0) (hs : l.sum = 0)
    (hht : l.head = l.tail) : Consistent H l [] :=
  ⟨by simpa using h0, by simpa using hs, fun h => absurd rfl h, fun _ => hht⟩

theorem step_pop {H : Heap} {l : flist_type} {ns : List Nat} (hc : Consistent H l ns)
    (h0 : l.len ≠ 0) :
    ∃ H2 l2 v ns2, fl_pop H l = some (H2, l2, v) ∧ Consistent H2 l2 ns2 ∧
      ns2.length ≤ ns.length := by
  cases ns with
  | nil => exact absurd (by simpa using hc.1) h0
  | cons a rest =>
    have hwf := hc.2.2.1 (by simp)
    by_cases hr : rest = []
    · subst hr
      obtain ⟨l2, h1, h2, h3, h4, h5⟩ := fl_pop_single hwf
      exact ⟨_, l2, _, [], h1, Consistent.of_emptied h2 h3 (by rw [h4, h5]), by simp⟩
    · obtain ⟨H2, l2, h1, h2, h3, -, -, -, h7⟩ := fl_pop_spec hwf hr
      refine ⟨H2, l2, _, rest, h1, Consistent.of_wellFormed h2 ?_, by simp⟩
      have e1 : l2.sum = l.sum - H.nm a := h7.2.2.2.1
      rw [vals_eq_of_nm_eq h3, e1, hc.2.1]
      simp

theorem step_dequeue {H : Heap} {l : flist_type} {ns : List Nat} (hc : Consistent H l ns)
    (h0 : l.len ≠ 0) :
    ∃ H2 l2 v ns2, fl_dequeue H l = some (H2, l2, v) ∧ Consistent H2 l2 ns2 ∧
      ns2.length ≤ ns.length := by
  by_cases h1 : l.len = 1
  · obtain ⟨H2, l2, v, ns2, g1, g2⟩ := step_pop hc h0
    exact ⟨H2, l2, v, ns2, by simpa [fl_dequeue, h0, h1] using g1, g2⟩
  · have hne : ns ≠ [] := fun e => h0 (by simpa [e] using hc.1)
    have hwf := hc.2.2.1 hne
    obtain ⟨front, t, rfl⟩ : ∃ front t, ns = front ++ [t] :=
      ⟨ns.dropLast, ns.getLast hne, (List.dropLast_append_getLast hne).symm⟩
    have hf : front ≠ [] := fun e => h1 (by simpa [e] using hc.1)
    obtain ⟨H2, l2, g1, g2, g3, -, -, -, g7⟩ := fl_dequeue_spec hwf hf
    refine ⟨H2, l2, _, front, g1, Consistent.of_wellFormed g2 ?_, by simp⟩
    have e1 : l2.sum = l.sum - H.nm t := g7.2.2.2.1
    rw [vals_eq_of_nm_eq g3, e1, hc.2.1]
    simp

theorem step_remove_at {H : Heap} {l : flist_type} {pre post : List Nat} {r : Nat}
    (hc : Consistent H l (pre ++ r :: post)) :
    ∃ H2 l2, fl_remove_index H l pre.length = some (H2, l2, true) ∧
      Consistent H2 l2 (pre ++ post) := by
  have hwf := hc.2.2.1 (by simp)
  by_cases hsingle : pre = [] ∧ post = []
  · obtain ⟨rfl, rfl⟩ := hsingle
    have hh : l.head = some r := by simp [hwf.head_eq]
    have ht : l.tail = some r := by simp [hwf.tail_eq]
    exact ⟨_, _, fl_remove_index_single hwf, Consistent.of_emptied rfl rfl (by
      show l.head = l.tail
      rw [hh, ht])⟩
  · have hne2 : pre ≠ [] ∨ post ≠ [] := by
      by_contra hcon
      push_neg at hcon
      exact hsingle hcon
    obtain ⟨H2, l2, g1, g2, g3, -, g5⟩ := fl_remove_index_spec hwf hne2
    refine ⟨H2, l2, g1, Consistent.of_wellFormed g2 ?_⟩
    have e1 : l2.sum = l.sum - H.nm r := g5.2.2.2.1
    rw [vals_eq_of_nm_eq g3, e1, hc.2.1]
    simp only [vals_append, vals_cons, List.sum_append, List.sum_cons]
    ring

theorem step_remove_index {H : Heap} {l : flist_type} {ns : List Nat} (hc : Consistent H l ns)
    (index : Int) (hi0 : 0 ≤ index) (hi : index < l.len) :
    ∃ H2 l2 ns2, fl_remove_index H l index = some (H2, l2, true) ∧ Consistent H2 l2 ns2 ∧
      ns2.length ≤ ns.length := by
  obtain ⟨i, rfl⟩ := Int.eq_ofNat_of_zero_le hi0
  have hlt : i < ns.length := by
    have := hc.1
    omega
  obtain ⟨pre, r, post, rfl, hlen⟩ := exists_split_at ns i hlt
  obtain ⟨H2, l2, g1, g2⟩ := step_remove_at hc
  rw [hlen] at g1
  exact ⟨H2, l2, _, g1, g2, by simp⟩

theorem exists_first_near (H : Heap) (v : ℚ) (ns : List Nat) :
    (∀ x ∈ ns, fl_near v (H.nm x) = false) ∨
    ∃ pre r post, ns = pre ++ r :: post ∧ (∀ x ∈ pre, fl_near v (H.nm x) = false) ∧
      fl_near v (H.nm r) = true := by
  induction ns with
  | nil => exact Or.inl (by simp)
  | cons a as ih =>
    by_cases ha : fl_near v (H.nm a) = true
    · exact Or.inr ⟨[], a, as, rfl, by simp, ha⟩
    · rcases ih with h | ⟨pre, r, post, h1, h2, h3⟩
      · left
        intro x hx
        rcases List.mem_cons.mp hx with rfl | hx
        · simpa using ha
        · exact h x hx
      · right
        refine ⟨a :: pre, r, post, by simp [h1], ?_, h3⟩
        intro x hx
        rcases List.mem_cons.mp hx with rfl | hx
        · simpa using ha
        · exact h2 x hx

theorem step_remove {H : Heap} {l : flist_type} {ns : List Nat} (hc : Consistent H l ns)
    (h0 : l.len ≠ 0) (v : ℚ) (fuel : Nat) (hfuel : ns.length ≤ fuel) :
    ∃ H2 l2 ns2, fl_remove fuel H l v = some (H2, l2, true) ∧ Consistent H2 l2 ns2 ∧
      ns2.length ≤ ns.length := by
  have hne : ns ≠ [] := fun e => h0 (by simpa [e] using hc.1)
  have hwf := hc.2.2.1 hne
  rcases exists_first_near H v ns with hnone | ⟨pre, r, post, rfl, hpre, hr⟩
  · have := fl_remove_scan_none v ns [] fuel hne (by simpa using hwf) hnone hfuel
    exact ⟨H, l, ns, by simpa [fl_remove, hwf.head_eq] using this, hc, le_refl _⟩
  · have hscan := fl_remove_scan_found v hr pre [] fuel (by simpa using hwf) hpre
      (by simp at hfuel; omega)
    have hhd : (pre ++ [r]).head? = l.head := by
      rw [hwf.head_eq]; cases pre <;> simp
    simp only [List.length_nil, Nat.cast_zero, hhd, List.nil_append] at hscan
    obtain ⟨H2, l2, g1, g2⟩ := step_remove_at hc
    refine ⟨H2, l2, pre ++ post, ?_, g2, by simp⟩
    unfold fl_remove
    rw [hscan]
    exact g1

theorem step_call {H : Heap} {l : flist_type} {ns : List Nat} (hc : Consistent H l ns)
    (c : fl_call) (fuel : Nat) (hfuel : ns.length ≤ fuel) (hadm : c.admitted l = true)
    (hpe : c.pushes_on_emptied l = false) :
    ∃ H2 l2 ns2, c.run fuel H l = some (H2, l2) ∧ Consistent H2 l2 ns2 ∧
      ns2.length ≤ ns.length + 1 := by
  have hlen0 : ns = [] → l.len = 0 := fun e => by simpa [e] using hc.1
  cases c with
  | append v =>
    obtain ⟨H2, l2, ns2, h1, h2, -, h4⟩ := step_append hc v
    exact ⟨H2, l2, ns2, h1, h2, h4⟩
  | push v =>
    simp only [fl_call.pushes_on_emptied, decide_eq_false_iff_not] at hpe
    have hh : ns = [] → l.head = none := fun e => by
      by_contra hcon
      exact hpe ⟨hlen0 e, hcon⟩
    obtain ⟨H2, l2, ns2, h1, h2, -, h4⟩ := step_push hc hh v
    exact ⟨H2, l2, ns2, h1, h2, h4⟩
  | insert v =>
    obtain ⟨H2, l2, ns2, h1, h2, -, h4⟩ := step_insert hc v fuel hfuel
    exact ⟨H2, l2, ns2, h1, h2, h4⟩
  | insert_index index v =>
    simp only [fl_call.pushes_on_emptied, decide_eq_false_iff_not] at hpe
    simp only [fl_call.admitted, decide_eq_true_eq] at hadm
    have hh : index = 0 → ns = [] → l.head = none := fun e1 e2 => by
      by_contra hcon
      exact hpe ⟨e1, hlen0 e2, hcon⟩
    obtain ⟨H2, l2, ns2, h1, h2, -, h4⟩ := step_insert_index hc index v hadm.1 hadm.2 hh
    exact ⟨H2, l2, ns2, h1, h2, h4⟩
  | pop =>
    simp only [fl_call.admitted, decide_eq_true_eq] at hadm
    obtain ⟨H2, l2, v, ns2, h1, h2, h3⟩ := step_pop hc hadm
    exact ⟨H2, l2, ns2, by simp [fl_call.run, h1], h2, by omega⟩
  | dequeue =>
    simp only [fl_call.admitted, decide_eq_true_eq] at hadm
    obtain ⟨H2, l2, v, ns2, h1, h2, h3⟩ := step_dequeue hc hadm
    exact ⟨H2, l2, ns2, by simp [fl_call.run, h1], h2, by omega⟩
  | remove_index index =>
    simp only [fl_call.admitted, decide_eq_true_eq] at hadm
    obtain ⟨H2, l2, ns2, h1, h2, h3⟩ := step_remove_index hc index hadm.1 hadm.2
    exact ⟨H2, l2, ns2, by simp [fl_call.run, h1], h2, by omega⟩
  | remove v =>
    simp only [fl_call.admitted, decide_eq_true_eq] at hadm
    obtain ⟨H2, l2, ns2, h1, h2, h3⟩ := step_remove hc hadm v fuel hfuel
    exact ⟨H2, l2, ns2, by simp [fl_call.run, h1], h2, by omega⟩

theorem fl_run_consistent (fuel : Nat) :
    ∀ (cs : List fl_call) (H : Heap) (l : flist_type) (ns : List Nat) (k : Nat),
      Consistent H l ns → ns.length + cs.length ≤ fuel →
      calls_ok (fun l c => c.admitted l && !c.pushes_on_emptied l) fuel H l cs = true →
      ∃ H2 l2 ns2, fl_run fuel H l (cs.take k) = some (H2, l2) ∧ Consistent H2 l2 ns2 := by
  intro cs
  induction cs with
  | nil =>
    intro H l ns k hc _ _
    exact ⟨H, l, ns, by simp [fl_run], hc⟩
  | cons c cs ih =>
    intro H l ns k hc hfuel hok
    cases k with
    | zero => exact ⟨H, l, ns, by simp [fl_run], hc⟩
    | succ k =>
      simp only [calls_ok, Bool.and_eq_true, Bool.not_eq_true'] at hok
      obtain ⟨H1, l1, ns1, h1, h2, h3⟩ := step_call hc c fuel
        (by simp at hfuel; omega) hok.1.1 hok.1.2
      have hok2 := hok.2
      rw [h1] at hok2
      obtain ⟨H2, l2, ns2, g1, g2⟩ := ih H1 l1 ns1 k h2 (by simp at hfuel; omega) hok2
      exact ⟨H2, l2, ns2, by simp [fl_run, h1, g1], g2⟩

/-- Claim C13, amended: starting from a freshly created container, after every call of any
sequence of `fl_append`, `fl_push`, `fl_insert`, `fl_insert_index`, `fl_pop`, `fl_dequeue`,
`fl_remove_index`, `fl_remove` calls (each removal on a non-empty container, each index in
range, and `fl_push` or `fl_insert_index` at index `0` not called on a container that a
removal has emptied), every call returns, `len` is the number of nodes, `sum` is the sum of
their values, a non-empty container is well formed (one `next` cycle of `len` distinct
nodes), a container whose `head` or `tail` is absent has `len == 0`, and a container with
`len == 0` has `head == tail` (both absent, or both the zeroed node left by the last
removal). -/
theorem C13_calls_invariant (H : Heap) (cs : List fl_call) (fuel k : Nat)
    (hok : calls_ok (fun l c => c.admitted l && !c.pushes_on_emptied l) fuel H fl_make_flist
      cs = true)
    (hfuel : cs.length ≤ fuel) :
    ∃ H2 l2 ns, fl_run fuel H fl_make_flist (cs.take k) = some (H2, l2) ∧
      l2.len = ns.length ∧ l2.sum = (vals H2 ns).sum ∧ fl_values H2 l2 = some (vals H2 ns) ∧
      (ns ≠ [] → WellFormed H2 l2 ns) ∧
      (l2.head = none ∨ l2.tail = none → l2.len = 0) ∧ (l2.len = 0 → l2.head = l2.tail) := by
  obtain ⟨H2, l2, ns, h1, h2⟩ := fl_run_consistent fuel cs H fl_make_flist [] k
    (Consistent.of_wellFormed (wellFormed_fresh H) rfl) (by simpa using hfuel) hok
  refine ⟨H2, l2, ns, h1, h2.1, h2.2.1, ?_, h2.2.2.1, ?_, ?_⟩
  · by_cases hne : ns = []
    · subst hne
      have h0 : l2.len = 0 := by simpa using h2.1
      simp [fl_values, h0, walk]
    · exact (h2.2.2.1 hne).fl_values_eq
  · intro hnone
    by_contra h0
    have hne : ns ≠ [] := fun e => h0 (by simpa [e] using h2.1)
    obtain ⟨a, t, hh, ht, -, -⟩ := (h2.2.2.1 hne).ends hne
    rcases hnone with h | h
    · rw [hh] at h
      cases h
    · rw [ht] at h
      cases h
  · intro h0
    have hne : ns = [] := by
      have := h2.1
      rw [h0] at this
      exact List.length_eq_zero.mp (by exact_mod_cast this.symm)
    exact h2.2.2.2 hne

/-- C13 at a concrete input: nine calls on a fresh container, among them a `fl_pop` that
empties it and a `fl_append` that refills it; by evaluation, the states after the second
call (emptied: `len == 0`, `head` and `tail` the zeroed node) and after the last. -/
theorem C13_calls_invariant_witness :
    (calls_ok (fun l c => c.admitted l && !c.pushes_on_emptied l) 9 H0 fl_make_flist
        [.append 5, .pop, .append 7, .push 3, .insert 4, .insert_index 1 9, .dequeue,
          .remove_index 1, .remove 3] = true ∧
      [fl_call.append 5, .pop, .append 7, .push 3, .insert 4, .insert_index 1 9, .dequeue,
          .remove_index 1, .remove 3].length ≤ 9) ∧
    (∃ H2 l2 ns, fl_run 9 H0 fl_make_flist
        ([fl_call.append 5, .pop, .append 7, .push 3, .insert 4, .insert_index 1 9, .dequeue,
          .remove_index 1, .remove 3].take 9) = some (H2, l2) ∧
      l2.len = ns.length ∧ l2.sum = (vals H2 ns).sum ∧ fl_values H2 l2 = some (vals H2 ns) ∧
      (ns ≠ [] → WellFormed H2 l2 ns) ∧
      (l2.head = none ∨ l2.tail = none → l2.len = 0) ∧ (l2.len = 0 → l2.head = l2.tail)) ∧
    (fl_run 9 H0 fl_make_flist [.append 5, .pop]).map
        (fun r => (r.2.len, r.2.sum, [r.2.head, r.2.tail], fl_values r.1 r.2)) =
      some (0, 0, [some 0, some 0], some []) ∧
    (fl_run 9 H0 fl_make_flist
        [.append 5, .pop, .append 7, .push 3, .insert 4, .insert_index 1 9, .dequeue,
          .remove_index 1, .remove 3]).map
        (fun r => (r.2.len, r.2.sum, fl_values r.1 r.2)) = some (1, 4, some [4]) :=
  ⟨⟨by decide!, by decide⟩,
    C13_calls_invariant H0 [.append 5, .pop, .append 7, .push 3, .insert 4, .insert_index 1 9,
      .dequeue, .remove_index 1, .remove 3] 9 9 (by decide!) (by decide),
    by decide!, by decide!⟩

/-- Claim C13 as stated fails: after `fl_append(l, 5); fl_pop(l)` on a fresh container
(both calls allowed by the claim) `len == 0`, yet `head` and `tail` are not absent: both
still point to the zeroed node. -/
theorem C13_calls_invariant_counterexample :
    calls_ok (fun l c => c.admitted l) 2 H0 fl_make_flist [.append 5, .pop] = true ∧
    ∃ r, fl_run 2 H0 fl_make_flist [.append 5, .pop] = some r ∧
      r.2.len = 0 ∧ r.2.head ≠ none ∧ r.2.tail ≠ none ∧
      ¬ ((r.2.head = none ∧ r.2.tail = none) ↔ r.2.len = 0) := by
  refine ⟨by decide!, ?_⟩
  have h : (fl_run 2 H0 fl_make_flist [.append 5, .pop]).map
      (fun r => (r.2.len, r.2.head, r.2.tail)) = some (0, some 0, some 0) := by decide!
  obtain ⟨r, hr, hv⟩ := Option.map_eq_some'.mp h
  simp only [Prod.mk.injEq] at hv
  obtain ⟨h1, h2, h3⟩ := hv
  refine ⟨r, hr, h1, by simp [h2], by simp [h3], ?_⟩
  intro hiff
  have := (hiff.mpr h1).1
  rw [h2] at this
  cases this

/-! ## Removals after sorting, and the position of an indexed insertion -/

/-- Claim C22 at the run of `example.c`: the nine insertions give
`[-5, 5, 10, 25, 20, 65, 68, 100, -500]` and `fl_sort` gives the sorted sequence; after
`fl_pop`, `fl_pop`, `fl_remove_index(0)`, `fl_remove_index(len - 1)`, `fl_dequeue` the
container has `len == 4`, `sum == 120`, `mean == 30`, `variance == 437.5` and its first
four values are `[10, 20, 25, 65]`, but `tail` is still the node holding `68` (whose
`prev` was itself, so `fl_dequeue` unlinked nothing), and `fl_reverse` then yields a
container that reads `[68, 68, 68, 68]`. -/
theorem C22_removals_after_sort :
    (fl_run 10 H0 fl_make_flist [.append 65, .push 10, .insert 20, .insert_index 1 25,
        .insert_index 0 5, .insert_index 4 68, .insert 100, .insert (-5),
        .insert_index 7 (-500)]).map (fun r => fl_values r.1 r.2) =
      some (some [-5, 5, 10, 25, 20, 65, 68, 100, -500]) ∧
    ((fl_run 10 H0 fl_make_flist [.append 65, .push 10, .insert 20, .insert_index 1 25,
        .insert_index 0 5, .insert_index 4 68, .insert 100, .insert (-5),
        .insert_index 7 (-500)]).bind fun r => fl_sort 10 r.1 r.2).map
        (fun r => fl_values r.1 r.2) =
      some (some [-500, -5, 5, 10, 20, 25, 65, 68, 100]) ∧
    (((fl_run 10 H0 fl_make_flist [.append 65, .push 10, .insert 20, .insert_index 1 25,
        .insert_index 0 5, .insert_index 4 68, .insert 100, .insert (-5),
        .insert_index 7 (-500)]).bind fun r => fl_sort 10 r.1 r.2).bind fun r =>
          fl_run 10 r.1 r.2 [.pop, .pop, .remove_index 0, .remove_index 5, .dequeue]).map
        (fun r => (fl_values r.1 r.2, [r.2.sum, r.2.mean, r.2.variance],
          [r.1.rd_num r.2.head, r.1.rd_num r.2.tail], r.2.len)) =
      some (some [10, 20, 25, 65], [120, 30, 875 / 2], [some 10, some 68], 4) ∧
    ((((fl_run 10 H0 fl_make_flist [.append 65, .push 10, .insert 20, .insert_index 1 25,
        .insert_index 0 5, .insert_index 4 68, .insert 100, .insert (-5),
        .insert_index 7 (-500)]).bind fun r => fl_sort 10 r.1 r.2).bind fun r =>
          fl_run 10 r.1 r.2 [.pop, .pop, .remove_index 0, .remove_index 5, .dequeue]).bind
            fun r => fl_reverse 10 r.1 r.2).map (fun r => fl_values r.1 r.2) =
      some (some [68, 68, 68, 68]) := by
  exact ⟨by decide!, by decide!, by decide!, by decide!⟩

/-- Claim C23 at the container `[10, 20, 65]` and the value `25`: `fl_insert_index` at
index `1` gives `[10, 25, 20, 65]` (the new value at position `1`, before the element that
was there) and at index `0` gives `[25, 10, 20, 65]`; only at index `2 == len - 1` does the
new value follow the element at the index, `[10, 20, 65, 25]`. -/
theorem C23_insert_index_position :
    ((fl_from_arr H0 fl_make_flist [10, 20, 65]).bind fun r =>
        fl_insert_index r.1 r.2 1 25).map (fun r => fl_values r.1 r.2) =
      some (some [10, 25, 20, 65]) ∧
    ((fl_from_arr H0 fl_make_flist [10, 20, 65]).bind fun r =>
        fl_insert_index r.1 r.2 0 25).map (fun r => fl_values r.1 r.2) =
      some (some [25, 10, 20, 65]) ∧
    ((fl_from_arr H0 fl_make_flist [10, 20, 65]).bind fun r =>
        fl_insert_index r.1 r.2 2 25).map (fun r => fl_values r.1 r.2) =
      some (some [10, 20, 65, 25]) := by
  exact ⟨by decide!, by decide!, by decide!⟩

/-! ## The walk of `fl_get_kth` -/

theorem fl_get_kth_fwd_links_fst (H : Heap) (k l_len : Int) :
    ∀ (fuel : Nat) (i : Int) (nd : Option Nat) (c : Nat),
      (fl_get_kth_fwd_links H k l_len fuel i nd c).map (fun r => r.1) =
        fl_get_kth_fwd H k l_len fuel i nd := by
  intro fuel
  induction fuel with
  | zero =>
    intro i nd c
    by_cases h : i < k ∧ i < l_len <;> simp [fl_get_kth_fwd_links, fl_get_kth_fwd, h]
  | succ f ih =>
    intro i nd c
    by_cases h : i < k ∧ i < l_len
    · cases nd with
      | none => simp [fl_get_kth_fwd_links, fl_get_kth_fwd, h]
      | some a => simp [fl_get_kth_fwd_links, fl_get_kth_fwd, h, ih]
    · simp [fl_get_kth_fwd_links, fl_get_kth_fwd, h]

theorem fl_get_kth_back_links_fst (H : Heap) (k : Int) :
    ∀ (fuel : Nat) (i : Int) (nd : Option Nat) (c : Nat),
      (fl_get_kth_back_links H k fuel i nd c).map (fun r => r.1) =
        fl_get_kth_back H k fuel i nd := by
  intro fuel
  induction fuel with
  | zero =>
    intro i nd c
    by_cases h : i > k + 1 ∧ i > 0 <;> simp [fl_get_kth_back_links, fl_get_kth_back, h]
  | succ f ih =>
    intro i nd c
    by_cases h : i > k + 1 ∧ i > 0
    · cases nd with
      | none => simp [fl_get_kth_back_links, fl_get_kth_back, h]
      | some a => simp [fl_get_kth_back_links, fl_get_kth_back, h, ih]
    · simp [fl_get_kth_back_links, fl_get_kth_back, h]

theorem fl_get_kth_links_fst (H : Heap) (l : flist_type) (k : Int) :
    (fl_get_kth_links H l k).map (fun r => r.1) = fl_get_kth H l k := by
  unfold fl_get_kth_links fl_get_kth
  by_cases hh : l.head = none
  · simp [hh]
  · rw [if_neg hh, if_neg hh]
    by_cases hk : (k : ℚ) > (l.len : ℚ) / 2
    · rw [if_pos hk, if_pos hk, Option.map_map, ← fl_get_kth_back_links_fst H k _ _ _ 0]
      rfl
    · rw [if_neg hk, if_neg hk, Option.map_map, ← fl_get_kth_fwd_links_fst H k _ _ _ _ 0]
      rfl

theorem fl_get_kth_fwd_links_spec {H : Heap} {l : flist_type} {ns : List Nat}
    (hwf : WellFormed H l ns) (k : Nat) (hk : k < ns.length) (fuel i : Nat) (hi : i ≤ k)
    (hfuel : k - i ≤ fuel) (c : Nat) :
    fl_get_kth_fwd_links H k ns.length fuel i ns[i]? c = some (ns[k]?, c + (k - i)) := by
  induction fuel generalizing i c with
  | zero =>
    have : i = k := by omega
    subst this
    simp [fl_get_kth_fwd_links]
  | succ fuel ih =>
    by_cases hik : i = k
    · subst hik
      simp [fl_get_kth_fwd_links]
    · have h1 : i < k := by omega
      have h2 : i < ns.length := by omega
      obtain ⟨x, hx⟩ : ∃ x, ns[i]? = some x := ⟨ns[i], by simp [h2]⟩
      have h3 := hwf.next_getElem? hx (by omega)
      have h4 := ih (i + 1) (by omega) (by omega) (c + 1)
      simp only [Nat.cast_add, Nat.cast_one] at h4
      have h5 : c + 1 + (k - (i + 1)) = c + (k - i) := by omega
      simp [fl_get_kth_fwd_links, h1, h2, hx, h3, h4, h5]

theorem fl_get_kth_back_links_spec {H : Heap} {l : flist_type} {ns : List Nat}
    (hwf : WellFormed H l ns) (k : Nat) (fuel i : Nat) (hi : k ≤ i)
    (hin : i < ns.length) (hfuel : i - k ≤ fuel) (c : Nat) :
    fl_get_kth_back_links H k fuel (i + 1 : Nat) ns[i]? c = some (ns[k]?, c + (i - k)) := by
  induction fuel generalizing i c with
  | zero =>
    have : i = k := by omega
    subst this
    simp [fl_get_kth_back_links]
  | succ fuel ih =>
    by_cases hik : i = k
    · subst hik
      simp [fl_get_kth_back_links]
    · obtain ⟨j, rfl⟩ : ∃ j, i = j + 1 := ⟨i - 1, by omega⟩
      obtain ⟨x, hx⟩ : ∃ x, ns[j + 1]? = some x := ⟨ns[j + 1], by simp [hin]⟩
      have h3 := hwf.prev_getElem? hx hin
      have h4 := ih j (by omega) (by omega) (by omega) (c + 1)
      have h5 : (k : Int) + 1 < (j : Int) + 1 + 1 := by omega
      have h6 : (0 : Int) < (j : Int) + 1 + 1 := by omega
      have h7 : c + 1 + (j - k) = c + (j + 1 - k) := by omega
      simp only [Nat.cast_add, Nat.cast_one] at h4
      simp [fl_get_kth_back_links, h5, h6, hx, h3, h4, h7]

theorem fl_get_kth_links_spec {H : Heap} {l : flist_type} {ns : List Nat}
    (hwf : WellFormed H l ns) (k : Nat) (hk : k < ns.length) :
    fl_get_kth_links H l k =
      some (ns[k]?, decide (ns.length < 2 * k),
        if ns.length < 2 * k then ns.length - k - 1 else k) := by
  have hne : ns ≠ [] := by rintro rfl; simp at hk
  obtain ⟨a, t, hh, ht, ha, hlast⟩ := hwf.ends hne
  have h0 : ns[0]? = l.head := by rw [hwf.head_eq]; cases ns <;> simp
  have hl : ns[ns.length - 1]? = l.tail := by
    rw [hwf.tail_eq, List.getLast?_eq_getElem?]
  have hcond : ((k : Int) : ℚ) > ((l.len : Int) : ℚ) / 2 ↔ ns.length < 2 * k := by
    rw [hwf.len_eq, gt_iff_lt, div_lt_iff₀ (by norm_num : (0 : ℚ) < 2)]
    constructor
    · intro h
      have h2 : ((ns.length : Int) : ℚ) < ((k * 2 : Nat) : ℚ) := by
        push_cast at h ⊢
        exact h
      have h3 : (ns.length : ℚ) < ((k * 2 : Nat) : ℚ) := by simpa using h2
      have := Nat.cast_lt.mp h3
      omega
    · intro h
      have h3 : (ns.length : ℚ) < ((k * 2 : Nat) : ℚ) := Nat.cast_lt.mpr (by omega)
      push_cast at h3 ⊢
      exact h3
  unfold fl_get_kth_links
  rw [if_neg (by simp [hh])]
  by_cases hc : ns.length < 2 * k
  · rw [if_pos (hcond.mpr hc), if_pos hc]
    have := fl_get_kth_back_links_spec hwf k ns.length (ns.length - 1) (by omega) (by omega)
      (by omega) 0
    rw [hl] at this
    have e : ((ns.length - 1 : Nat) + 1 : Nat) = ns.length := by omega
    rw [e] at this
    rw [hwf.len_eq, Int.toNat_ofNat, this]
    simp [hc]
    omega
  · rw [if_neg (fun h => hc (hcond.mp h)), if_neg hc]
    have := fl_get_kth_fwd_links_spec hwf k hk ns.length 0 (by omega) (by omega) 0
    rw [h0] at this
    rw [hwf.len_eq, Int.toNat_ofNat]
    simp only [Nat.cast_zero] at this
    rw [this]
    simp [hc]

/-- Claim C24: on a well-formed container and `0 <= k < len`, `fl_get_kth` returns the node
at position `k`; it walks backward from `tail` exactly when `k > len/2` (as exact numbers,
which for integers is the same as `k > len / 2` with integer division) and then follows
exactly `len - k - 1` `prev` links, and otherwise walks forward from `head` and follows
exactly `k` `next` links; either way it follows at most `len / 2` links. -/
theorem C24_get_kth_walk (H : Heap) (l : flist_type) (ns : List Nat) (k : Int)
    (hwf : WellFormed H l ns) (hk0 : 0 ≤ k) (hk : k < l.len) :
    ∃ nd back links, fl_get_kth_links H l k = some (nd, back, links) ∧
      fl_get_kth H l k = some nd ∧ nd = ns[k.toNat]? ∧
      (back = true ↔ (k : ℚ) > (l.len : ℚ) / 2) ∧ (back = true ↔ k > l.len / 2) ∧
      (back = true → (links : Int) = l.len - k - 1) ∧
      (back = false → (links : Int) = k) ∧ (links : Int) ≤ l.len / 2 := by
  obtain ⟨i, rfl⟩ := Int.eq_ofNat_of_zero_le hk0
  have hl := hwf.len_eq
  have hi : i < ns.length := by omega
  have hspec := fl_get_kth_links_spec hwf i hi
  have hfst := fl_get_kth_links_fst H l i
  rw [hspec] at hfst
  have hcond : ((i : Int) : ℚ) > ((l.len : Int) : ℚ) / 2 ↔ ns.length < 2 * i := by
    rw [hl, gt_iff_lt, div_lt_iff₀ (by norm_num : (0 : ℚ) < 2)]
    constructor
    · intro h
      have h3 : (ns.length : ℚ) < ((i * 2 : Nat) : ℚ) := by
        push_cast at h ⊢
        exact h
      have := Nat.cast_lt.mp h3
      omega
    · intro h
      have h3 : (ns.length : ℚ) < ((i * 2 : Nat) : ℚ) := Nat.cast_lt.mpr (by omega)
      push_cast at h3 ⊢
      exact h3
  refine ⟨_, _, _, hspec, by simpa using hfst.symm, by simp, ?_, ?_, ?_, ?_, ?_⟩
  · rw [hcond]
    simp
  · simp only [decide_eq_true_eq]
    omega
  · intro hb
    simp only [decide_eq_true_eq] at hb
    rw [if_pos hb]
    omega
  · intro hb
    simp only [decide_eq_false_iff_not] at hb
    rw [if_neg hb]
  · by_cases hb : ns.length < 2 * i
    · rw [if_pos hb]
      omega
    · rw [if_neg hb]
      omega

/-- C24 at concrete inputs: index `1` of the container `[10, 65]`; and, by evaluation, on
a container of nine elements index `1` is reached forward from `head` over one link,
index `4` forward over four links, index `5` backward from `tail` over three links and
index `8` backward over no link. -/
theorem C24_get_kth_walk_witness :
    (WellFormed H2ex l2ex [1, 0] ∧ (0 : Int) ≤ 1 ∧ (1 : Int) < l2ex.len) ∧
    (∃ nd back links, fl_get_kth_links H2ex l2ex 1 = some (nd, back, links) ∧
      fl_get_kth H2ex l2ex 1 = some nd ∧ nd = [1, 0][(1 : Int).toNat]? ∧
      (back = true ↔ ((1 : Int) : ℚ) > (l2ex.len : ℚ) / 2) ∧
      (back = true ↔ (1 : Int) > l2ex.len / 2) ∧
      (back = true → (links : Int) = l2ex.len - 1 - 1) ∧
      (back = false → (links : Int) = 1) ∧ (links : Int) ≤ l2ex.len / 2) ∧
    (fl_from_arr H0 fl_make_flist [1, 2, 3, 4, 5, 6, 7, 8, 9]).map
        (fun r => [fl_get_kth_links r.1 r.2 1, fl_get_kth_links r.1 r.2 4,
          fl_get_kth_links r.1 r.2 5, fl_get_kth_links r.1 r.2 8]) =
      some [some (some 1, false, 1), some (some 4, false, 4), some (some 5, true, 3),
        some (some 8, true, 0)] :=
  ⟨⟨wellFormed_ex2, by decide, by decide⟩,
    C24_get_kth_walk H2ex l2ex [1, 0] 1 wellFormed_ex2 (by decide) (by decide), by decide!⟩

/-! ## Conversion to an array -/

theorem Path_follow_length {H : Heap} (xs : List Nat) :
    ∀ (p q : Option Nat), Path H.nx p xs q → follow H xs.length p = q := by
  induction xs with
  | nil =>
    intro p q hp
    exact hp
  | cons a as ih =>
    intro p q hp
    obtain ⟨rfl, h2⟩ := hp
    simpa [follow] using ih _ _ h2

theorem fl_to_arr_loop_spec {H : Heap} (xs : List Nat) :
    ∀ (l : flist_type) (q : Option Nat) (i : Nat) (arr : List ℚ) (fuel : Nat),
      Path H.nx l.head xs q → l.len = (i : Int) + xs.length → xs.length < fuel →
      fl_to_arr_loop H fuel l i arr = some ({ l with head := q }, arr ++ vals H xs) := by
  induction xs with
  | nil =>
    intro l q i arr fuel hp hlen hfuel
    obtain ⟨f, rfl⟩ : ∃ f, fuel = f + 1 := ⟨fuel - 1, by omega⟩
    have hq : l.head = q := hp
    have hi : ¬ ((i : Int) < l.len) := by simp at hlen; omega
    subst hq
    simp [fl_to_arr_loop, hi]
  | cons a as ih =>
    intro l q i arr fuel hp hlen hfuel
    obtain ⟨f, rfl⟩ : ∃ f, fuel = f + 1 := ⟨fuel - 1, by omega⟩
    obtain ⟨h1, h2⟩ := hp
    have hi : (i : Int) < l.len := by simp at hlen; omega
    have := ih { l with head := H.nx a } q (i + 1) (arr ++ [H.nm a]) f h2
      (by simp at hlen ⊢; omega) (by simp at hfuel; omega)
    simp only [Nat.cast_add, Nat.cast_one] at this
    simp [fl_to_arr_loop, hi, h1, this]

/-- Claim C25: on a well-formed non-empty container `fl_to_arr` returns the `len` values
in head-to-tail order, and the container after the call is the container before it: `head`
is the same node (following `len` next-links from `head` leads back to `head`), and `tail`,
`len` and the aggregates are untouched; the heap is not written. -/
theorem C25_to_arr (H : Heap) (l : flist_type) (ns : List Nat) (fuel : Nat)
    (hwf : WellFormed H l ns) (hne : ns ≠ []) (hfuel : ns.length < fuel) :
    fl_to_arr fuel H l = some (l, some (vals H ns)) ∧
    (vals H ns).length = l.len ∧ fl_values H l = some (vals H ns) ∧
    follow H l.len.toNat l.head = l.head := by
  obtain ⟨a, t, hh, ht, ha, hlast⟩ := hwf.ends hne
  have hloop := fl_to_arr_loop_spec ns l l.head 0 [] fuel hwf.next_cycle
    (by simpa using hwf.len_eq) hfuel
  refine ⟨?_, by simp [hwf.len_eq], hwf.fl_values_eq, ?_⟩
  · simp only [Nat.cast_zero, List.nil_append] at hloop
    have e : ({ l with head := l.head } : flist_type) = l := rfl
    rw [e] at hloop
    unfold fl_to_arr
    rw [if_neg (by simp [hh]), hloop]
    rfl
  · rw [hwf.len_eq, Int.toNat_ofNat]
    exact Path_follow_length ns _ _ hwf.next_cycle

/-- C25 at a concrete input: the container `[10, 65]`; and, by evaluation, a container
of five elements, with `head` and `tail` before and after the call. -/
theorem C25_to_arr_witness :
    (WellFormed H2ex l2ex [1, 0] ∧ [1, 0] ≠ [] ∧ [1, 0].length < 3) ∧
    (fl_to_arr 3 H2ex l2ex = some (l2ex, some (vals H2ex [1, 0])) ∧
      (vals H2ex [1, 0]).length = l2ex.len ∧ fl_values H2ex l2ex = some (vals H2ex [1, 0]) ∧
      follow H2ex l2ex.len.toNat l2ex.head = l2ex.head) ∧
    ((fl_from_arr H0 fl_make_flist [1, 2, 3, 4, 5]).bind fun r =>
      (fl_to_arr 6 r.1 r.2).map fun s =>
        (s.2, [r.2.head, s.1.head, r.2.tail, s.1.tail], [r.2.len, s.1.len])) =
      some (some [1, 2, 3, 4, 5], [some 0, some 0, some 4, some 4], [5, 5]) :=
  ⟨⟨wellFormed_ex2, by decide, by decide⟩,
    C25_to_arr H2ex l2ex [1, 0] 3 wellFormed_ex2 (by decide) (by decide), by decide!⟩

/-! ## Sub-range extraction -/

theorem WellFormed.frame {H H2 : Heap} {l : flist_type} {ns : List Nat}
    (hwf : WellFormed H l ns) (hnx : ∀ x ∈ ns, H2.nx x = H.nx x)
    (hpv : ∀ x ∈ ns, H2.pv x = H.pv x) (hbrk : H.brk ≤ H2.brk) : WellFormed H2 l ns :=
  ⟨hwf.len_eq, hwf.nodup, fun a ha => lt_of_lt_of_le (hwf.fresh a ha) hbrk, hwf.head_eq,
    hwf.tail_eq, (Path_congr hnx _ _).mpr hwf.next_cycle,
    (Path_congr (fun x hx => hpv x (List.mem_reverse.mp hx)) _ _).mpr hwf.prev_cycle⟩

theorem fl_subflist_loop_spec (B : Nat) (steps : Int) (xs : List Nat) :
    ∀ (H : Heap) (sub : flist_type) (ms : List Nat) (start q : Option Nat) (i : Nat)
      (fuel : Nat),
      WellFormed H sub ms → sub.sum = (vals H ms).sum → (∀ m ∈ ms, B ≤ m) → B ≤ H.brk →
      Path H.nx start xs q → (∀ x ∈ xs, x < B) → steps = (i : Int) + xs.length →
      xs.length < fuel →
      ∃ H2 sub2 ms2, fl_subflist_loop steps fuel H sub start i = some (H2, sub2) ∧
        WellFormed H2 sub2 ms2 ∧ vals H2 ms2 = vals H ms ++ vals H xs ∧
        sub2.sum = (vals H2 ms2).sum ∧ (∀ m ∈ ms2, B ≤ m) ∧
        (∀ x, x < B → H2.nx x = H.nx x ∧ H2.pv x = H.pv x ∧ H2.nm x = H.nm x) ∧
        H.brk ≤ H2.brk := by
  induction xs with
  | nil =>
    intro H sub ms start q i fuel hwf hsum hms hB _ _ hsteps hfuel
    obtain ⟨f, rfl⟩ : ∃ f, fuel = f + 1 := ⟨fuel - 1, by omega⟩
    have hi : ¬ ((i : Int) < steps) := by simp at hsteps; omega
    exact ⟨H, sub, ms, by simp [fl_subflist_loop, hi], hwf, by simp, hsum, hms,
      fun _ _ => ⟨rfl, rfl, rfl⟩, le_refl _⟩
  | cons a as ih =>
    intro H sub ms start q i fuel hwf hsum hms hB hp hxs hsteps hfuel
    obtain ⟨f, rfl⟩ : ∃ f, fuel = f + 1 := ⟨fuel - 1, by omega⟩
    obtain ⟨h1, h2⟩ := hp
    subst h1
    have hi : (i : Int) < steps := by simp at hsteps; omega
    obtain ⟨H1, sub1, g1, g2, g3, g4, g5, g6⟩ := fl_append_spec hwf (H.nm a)
    have hmb : ∀ m ∈ ms, m ≠ H.brk := fun m hm e => lt_irrefl _ (e ▸ hwf.fresh m hm)
    have hfr : ∀ x, x < B → H1.nx x = H.nx x ∧ H1.pv x = H.pv x ∧ H1.nm x = H.nm x := by
      intro x hx
      have hxb : x ≠ H.brk := by omega
      have hxm : x ∉ ms := fun hm => by
        have := hms x hm
        omega
      exact ⟨(g5 x hxb hxm).1, (g5 x hxb hxm).2, by simp [g3, Function.update, hxb]⟩
    have hv1 : vals H1 (ms ++ [H.brk]) = vals H ms ++ [H.nm a] := by
      rw [vals_append, vals_congr H (fun x hx => by simp [g3, Function.update, hmb x hx])]
      simp [g3]
    have hsum1 : sub1.sum = (vals H1 (ms ++ [H.brk])).sum := by
      have e1 : sub1.sum = sub.sum + H.nm a := g6.2.2.2.1
      rw [hv1, e1, hsum]
      simp
    have ha : a < B := hxs a (List.mem_cons_self _ _)
    obtain ⟨H2, sub2, ms2, k1, k2, k3, k4, k5, k6, k7⟩ := ih H1 sub1 (ms ++ [H.brk]) (H.nx a)
      q (i + 1) f g2 hsum1
      (fun m hm => by
        rcases List.mem_append.mp hm with h | h
        · exact hms m h
        · simp at h
          omega)
      (by omega)
      ((Path_congr (fun x hx => (hfr x (hxs x (List.mem_cons_of_mem _ hx))).1) _ _).mpr h2)
      (fun x hx => hxs x (List.mem_cons_of_mem _ hx))
      (by simp at hsteps ⊢; omega) (by simp at hfuel; omega)
    refine ⟨H2, sub2, ms2, ?_, k2, ?_, k4, k5, ?_, by omega⟩
    · simp only [Nat.cast_add, Nat.cast_one] at k1
      simp [fl_subflist_loop, hi, g1, (hfr a ha).1, k1]
    · rw [k3, hv1, vals_congr H (fun x hx =>
        (hfr x (hxs x (List.mem_cons_of_mem _ hx))).2.2)]
      simp
    · intro x hx
      obtain ⟨c1, c2, c3⟩ := k6 x hx
      obtain ⟨d1, d2, d3⟩ := hfr x hx
      exact ⟨by rw [c1, d1], by rw [c2, d2], by rw [c3, d3]⟩

theorem fl_subflist_spec {H : Heap} {l : flist_type} {ns : List Nat}
    (hwf : WellFormed H l ns) (i j : Nat) (hij : i < j) (hj : j < ns.length) (fuel : Nat)
    (hfuel : j - i + 1 < fuel) :
    ∃ H2 sub ms, fl_subflist fuel H l i j = some (H2, some sub) ∧ WellFormed H2 sub ms ∧
      vals H2 ms = ((vals H ns).drop i).take (j - i + 1) ∧ sub.sum = (vals H2 ms).sum ∧
      (∀ m ∈ ms, H.brk ≤ m) ∧
      (∀ x, x < H.brk → H2.nx x = H.nx x ∧ H2.pv x = H.pv x ∧ H2.nm x = H.nm x) ∧
      H.brk ≤ H2.brk := by
  have hlen := hwf.len_eq
  have hsplit : ns = ns.take i ++ ((ns.drop i).take (j - i + 1) ++
      (ns.drop i).drop (j - i + 1)) := by
    rw [List.take_append_drop, List.take_append_drop]
  generalize hxsdef : (ns.drop i).take (j - i + 1) = xs at hsplit
  have hxlen : xs.length = j - i + 1 := by
    rw [← hxsdef, List.length_take, List.length_drop]
    omega
  have hx0 : xs[0]? = ns[i]? := by
    rw [← hxsdef, List.getElem?_take_of_lt (by omega), List.getElem?_drop]
    simp
  have hmem : ∀ x ∈ xs, x ∈ ns := fun x hx => by
    rw [← hxsdef] at hx
    exact List.mem_of_mem_drop (List.mem_of_mem_take hx)
  have hp := hwf.next_cycle
  rw [hsplit] at hp
  obtain ⟨m, -, hp2⟩ := (Path_append _ _ _ _ _).mp hp
  obtain ⟨m2, hp3, -⟩ := (Path_append _ _ _ _ _).mp hp2
  have hstart : m = ns[i]? := by
    cases xs with
    | nil => simp at hxlen
    | cons x0 tl =>
      rw [← hx0]
      simpa using hp3.1
  rw [hstart] at hp3
  obtain ⟨H2, sub, ms, g1, g2, g3, g4, g5, g6, g7⟩ := fl_subflist_loop_spec H.brk
    ((j : Int) - i + 1) xs H fl_make_flist [] ns[i]? m2 0 fuel (wellFormed_fresh H)
    (by simp [fl_make_flist]) (by simp) (le_refl _) hp3
    (fun x hx => hwf.fresh x (hmem x hx)) (by rw [hxlen]; push_cast; omega) (by omega)
  refine ⟨H2, sub, ms, ?_, g2, ?_, g4, g5, g6, g7⟩
  · have hc : ((i : Int) < j ∧ (j : Int) < l.len) := ⟨by omega, by omega⟩
    simp only [Nat.cast_zero] at g1
    simp [fl_subflist, hc, fl_get_kth_spec hwf i (by omega), g1]
  · rw [g3, ← hxsdef]
    simp [vals, List.map_take, List.map_drop]

/-- Claim C21: on a well-formed container and `0 <= a < b < len`, `fl_subflist(l, a, b)`
returns a new well-formed container (its nodes freshly allocated) whose values are the
values of `l` at the positions `a` to `b` inclusive, in order, with `len == b - a + 1` and
`sum` the sum of those values, while `l` stays well formed on the same nodes with the same
values (no node allocated before the call is written); and for all `a2`, `b2` for which
`a2 < b2 && b2 < len` does not hold, `a2 == b2` included, it returns `NULL`. -/
theorem C21_subflist (H : Heap) (l : flist_type) (ns : List Nat) (a b : Int) (fuel : Nat)
    (hwf : WellFormed H l ns) (ha : 0 ≤ a) (hab : a < b) (hb : b < l.len)
    (hfuel : b - a + 1 < fuel) :
    (∃ H2 sub ms, fl_subflist fuel H l a b = some (H2, some sub) ∧ WellFormed H2 sub ms ∧
        vals H2 ms = ((vals H ns).drop a.toNat).take (b - a + 1).toNat ∧
        fl_values H2 sub = some (((vals H ns).drop a.toNat).take (b - a + 1).toNat) ∧
        sub.len = b - a + 1 ∧
        sub.sum = (((vals H ns).drop a.toNat).take (b - a + 1).toNat).sum ∧
        (∀ m ∈ ms, H.brk ≤ m) ∧ WellFormed H2 l ns ∧ vals H2 ns = vals H ns ∧
        (∀ x, x < H.brk → H2.nx x = H.nx x ∧ H2.pv x = H.pv x ∧ H2.nm x = H.nm x)) ∧
    (∀ a2 b2 : Int, ¬ (a2 < b2 ∧ b2 < l.len) →
      fl_subflist fuel H l a2 b2 = some (H, none)) := by
  constructor
  · obtain ⟨i, rfl⟩ := Int.eq_ofNat_of_zero_le ha
    obtain ⟨j, rfl⟩ := Int.eq_ofNat_of_zero_le (by omega : (0 : Int) ≤ b)
    have hlen := hwf.len_eq
    have hij : i < j := by omega
    have hj : j < ns.length := by omega
    obtain ⟨H2, sub, ms, g1, g2, g3, g4, g5, g6, g7⟩ :=
      fl_subflist_spec hwf i j hij hj fuel (by omega)
    have e1 : ((j : Int) - i + 1).toNat = j - i + 1 := by omega
    have hl2 : ms.length = j - i + 1 := by
      have := congrArg List.length g3
      simp only [vals_length, List.length_take, List.length_drop] at this
      omega
    refine ⟨H2, sub, ms, g1, g2, ?_, ?_, ?_, ?_, g5, ?_, ?_, g6⟩
    · rw [Int.toNat_ofNat, e1]
      exact g3
    · rw [Int.toNat_ofNat, e1, ← g3]
      exact g2.fl_values_eq
    · rw [g2.len_eq, hl2]
      push_cast
      omega
    · rw [Int.toNat_ofNat, e1, ← g3]
      exact g4
    · exact hwf.frame (fun x hx => (g6 x (hwf.fresh x hx)).1)
        (fun x hx => (g6 x (hwf.fresh x hx)).2.1) g7
    · exact vals_congr H (fun x hx => (g6 x (hwf.fresh x hx)).2.2)
  · intro a2 b2 h
    simp [fl_subflist, h]

/-- C21 at concrete inputs: positions `0` to `1` of the container `[10, 65]`; and, by
evaluation, positions `1` to `3` of `[1, 2, 3, 4, 5]`, and the rejected range `2` to `2`. -/
theorem C21_subflist_witness :
    (WellFormed H2ex l2ex [1, 0] ∧ (0 : Int) ≤ 0 ∧ (0 : Int) < 1 ∧ (1 : Int) < l2ex.len ∧
      (1 : Int) - 0 + 1 < (3 : Nat)) ∧
    ((∃ H2 sub ms, fl_subflist 3 H2ex l2ex 0 1 = some (H2, some sub) ∧ WellFormed H2 sub ms ∧
        vals H2 ms = ((vals H2ex [1, 0]).drop (0 : Int).toNat).take ((1 : Int) - 0 + 1).toNat ∧
        fl_values H2 sub =
          some (((vals H2ex [1, 0]).drop (0 : Int).toNat).take ((1 : Int) - 0 + 1).toNat) ∧
        sub.len = 1 - 0 + 1 ∧
        sub.sum =
          (((vals H2ex [1, 0]).drop (0 : Int).toNat).take ((1 : Int) - 0 + 1).toNat).sum ∧
        (∀ m ∈ ms, H2ex.brk ≤ m) ∧ WellFormed H2 l2ex [1, 0] ∧
        vals H2 [1, 0] = vals H2ex [1, 0] ∧
        (∀ x, x < H2ex.brk →
          H2.nx x = H2ex.nx x ∧ H2.pv x = H2ex.pv x ∧ H2.nm x = H2ex.nm x)) ∧
     (∀ a2 b2 : Int, ¬ (a2 < b2 ∧ b2 < l2ex.len) →
        fl_subflist 3 H2ex l2ex a2 b2 = some (H2ex, none))) ∧
    ((fl_from_arr H0 fl_make_flist [1, 2, 3, 4, 5]).bind fun r =>
      (fl_subflist 4 r.1 r.2 1 3).bind fun s => s.2.map fun sub =>
        (fl_values s.1 sub, sub.len, sub.sum, fl_values s.1 r.2)) =
      some (some [2, 3, 4], 3, 9, some [1, 2, 3, 4, 5]) ∧
    ((fl_from_arr H0 fl_make_flist [1, 2, 3, 4, 5]).bind fun r =>
      (fl_subflist 4 r.1 r.2 2 2).map fun s => s.2.isSome) = some false :=
  ⟨⟨wellFormed_ex2, by decide, by decide, by decide, by decide⟩,
    C21_subflist H2ex l2ex [1, 0] 0 1 3 wellFormed_ex2 (by decide) (by decide) (by decide)
      (by decide),
    by decide!, by decide!⟩

end Flist
